import Mathlib

/-!
Shallow embedding of the `goodtime` region-based heap (src/heap.js, src/gc.js,
the wrapper classes bundled with src/testGC.js, and src/unnamed consts file),
together with theorems settling the claims about it.

Modelling conventions:
* The whole heap is one flat byte store `Mem : Nat → Nat`: the JS heap keeps
  `NUMBER_REGIONS + 1` distinct `Uint8Array` buffers, and region `i`'s buffer
  backs heap addresses `[i * REGION_SIZE, (i+1) * REGION_SIZE)`; since those
  windows are disjoint, a flat store is a faithful rendering.  Stores mask to
  a byte (`% 256`) exactly as a `Uint8Array` element does.
* JS numbers used as sizes, offsets and addresses are `Nat`; `int32` host
  values are `Int`; `float64` host values are represented by their IEEE-754
  bit pattern (a `Nat < 2^64`), which is what `DataView.setFloat64` /
  `getFloat64` move to and from bytes.
* Fallible operations return `Except JErr _`.  JS throws after having already
  performed earlier writes; the model returns only the error in that case,
  which is irrelevant here because every theorem below either runs a
  success path or inspects only the returned error value.
* `Region.prototype` caches `counter`/`kind` on the JS object; along every
  flow modelled here the cache and the stored header agree because
  `createMono` persists the counter and region construction reads it back.
-/

namespace Goodtime

/-! ## Constants (src/unnamed consts.js) -/

def REGION_SIZE : Nat := 1024000
def NUMBER_REGIONS : Nat := 256
def REGION_EDEN : Nat := 11
def REGION_SURVIVOR : Nat := 12
def REGION_HEAD_SIZE : Nat := 5
def MONO_INT32 : Nat := 1
def MONO_ADDRESS : Nat := 11
def MONO_FLOAT64 : Nat := 2
def MONO_ARRAY_S8 : Nat := 3
def MONO_CHUNK_S8 : Nat := 31
def MONO_STRING_S8 : Nat := 4
def MONO_OBJECT_S8 : Nat := 5
def MONO_NAMED_PROPERTY_S8 : Nat := 6
def MONO_CHUNK_SIZE : Nat := 8

/-- Error kinds thrown by the JS source (each `throw new Error(...)` site,
plus `createMono`'s `return false`, gets its own constructor). -/
inductive JErr where
  | readOutOfRange      -- "Read from address out of range"
  | writeOutOfRange     -- "Write to address out of range"
  | outOfRegionRange    -- "Address out of Region range"
  | wrongMonoKind       -- "Wrong Mono kind"
  | unknownRegionKind   -- "Unknown kind of the region"
  | regionFull          -- Region.createMono logs "Region OOM" and returns false
  | oom                 -- "OOM: cannot create region anymore"
  | indexOutOfRange     -- WrappedArray.index "Index out of range"
  | cannotFindChunk     -- WrappedArray.index "Cannot find target chunk"
  deriving Repr, DecidableEq

/-! ## Flat byte memory -/

def Mem : Type := Nat → Nat

def zeroMem : Mem := fun _ => 0

/-- Store one byte; `Uint8Array` masks the value to 8 bits on store. -/
def memWrite (m : Mem) (i v : Nat) : Mem := fun j => if j = i then v % 256 else m j

theorem memWrite_same (m : Mem) (i v : Nat) : memWrite m i v i = v % 256 := by
  simp [memWrite]

theorem memWrite_other (m : Mem) (i v j : Nat) (h : j ≠ i) : memWrite m i v j = m j := by
  simp [memWrite, h]

/-! ## Raw big-endian codecs

`Region.prototype.readUint32` (src/heap.js:107) copies 4 bytes into a
`DataView` with `setUint8` and calls `getUint32(0)` with no little-endian
flag; `DataView` defaults to big-endian, so byte `at` is the most
significant.  The write side (`writeUint32`, src/heap.js:160) uses
`setUint32(0, v)` — also big-endian — and copies the 4 bytes out.  The same
holds for `readInt32`/`writeInt32` and the 8-byte float codecs. -/

def rdU32 (m : Mem) (a : Nat) : Nat :=
  (m a % 256) * 16777216 + (m (a + 1) % 256) * 65536 +
  (m (a + 2) % 256) * 256 + (m (a + 3) % 256)

def wrU32 (m : Mem) (a v : Nat) : Mem :=
  let w := v % 4294967296
  memWrite (memWrite (memWrite (memWrite m a (w / 16777216))
    (a + 1) (w / 65536)) (a + 2) (w / 256)) (a + 3) w

def rdU64 (m : Mem) (a : Nat) : Nat :=
  (m a % 256) * 72057594037927936 + (m (a + 1) % 256) * 281474976710656 +
  (m (a + 2) % 256) * 1099511627776 + (m (a + 3) % 256) * 4294967296 +
  (m (a + 4) % 256) * 16777216 + (m (a + 5) % 256) * 65536 +
  (m (a + 6) % 256) * 256 + (m (a + 7) % 256)

def wrU64 (m : Mem) (a v : Nat) : Mem :=
  let w := v % 18446744073709551616
  memWrite (memWrite (memWrite (memWrite (memWrite (memWrite (memWrite (memWrite m
    a (w / 72057594037927936))
    (a + 1) (w / 281474976710656)) (a + 2) (w / 1099511627776))
    (a + 3) (w / 4294967296)) (a + 4) (w / 16777216))
    (a + 5) (w / 65536)) (a + 6) (w / 256)) (a + 7) w

theorem wrU32_read_other (m : Mem) (a v j : Nat)
    (h : j < a ∨ a + 4 ≤ j) : wrU32 m a v j = m j := by
  unfold wrU32
  repeat rw [memWrite_other]
  all_goals omega

theorem rdU32_wrU32 (m : Mem) (a v : Nat) : rdU32 (wrU32 m a v) a = v % 4294967296 := by
  unfold rdU32 wrU32 memWrite
  simp only []
  norm_num
  omega

theorem wrU64_read_other (m : Mem) (a v j : Nat)
    (h : j < a ∨ a + 8 ≤ j) : wrU64 m a v j = m j := by
  unfold wrU64
  repeat rw [memWrite_other]
  all_goals omega

theorem rdU64_wrU64 (m : Mem) (a v : Nat) :
    rdU64 (wrU64 m a v) a = v % 18446744073709551616 := by
  unfold rdU64 wrU64 memWrite
  simp only []
  norm_num
  omega

/-! ## Checked region codec (`Region.prototype.read*` / `write*`, src/heap.js 100-204)

`base` is `region.beginFrom`, `size` is `region.size`; the `at` argument is
region-local exactly as in the source, and each bound test mirrors the JS
test verbatim (`at < 0` cannot occur over `Nat`). -/

def readUint8 (m : Mem) (base size at_ : Nat) : Except JErr Nat :=
  if at_ > size then .error .readOutOfRange else .ok (m (base + at_))

def readUint32 (m : Mem) (base size at_ : Nat) : Except JErr Nat :=
  if at_ + 4 > size then .error .readOutOfRange else .ok (rdU32 m (base + at_))

def readInt32 (m : Mem) (base size at_ : Nat) : Except JErr Int :=
  if at_ + 4 > size then .error .readOutOfRange
  else
    let u := rdU32 m (base + at_)
    .ok (if u < 2147483648 then (u : Int) else (u : Int) - 4294967296)

/-- `readAddress` is an alias for `readUint32` (src/heap.js:135). -/
def readAddress (m : Mem) (base size at_ : Nat) : Except JErr Nat :=
  readUint32 m base size at_

/-- `readFloat64` returns the IEEE-754 bit pattern assembled big-endian
(`getFloat64(0)` with no little-endian flag). -/
def readFloat64 (m : Mem) (base size at_ : Nat) : Except JErr Nat :=
  if at_ + 8 > size then .error .readOutOfRange else .ok (rdU64 m (base + at_))

def writeUint8 (m : Mem) (base size at_ v : Nat) : Except JErr Mem :=
  if at_ + 1 > size then .error .writeOutOfRange else .ok (memWrite m (base + at_) v)

def writeUint32 (m : Mem) (base size at_ v : Nat) : Except JErr Mem :=
  if at_ + 4 > size then .error .writeOutOfRange else .ok (wrU32 m (base + at_) v)

/-- `setInt32` stores the two's-complement pattern of the host int. -/
def writeInt32 (m : Mem) (base size at_ : Nat) (v : Int) : Except JErr Mem :=
  if at_ + 4 > size then .error .writeOutOfRange
  else .ok (wrU32 m (base + at_) ((v % 4294967296).toNat))

/-- `writeAddress` is an alias for `writeUint32` (src/heap.js:188). -/
def writeAddress (m : Mem) (base size at_ v : Nat) : Except JErr Mem :=
  writeUint32 m base size at_ v

/-- `writeFloat64` stores the 8 bytes of the value's IEEE-754 bit pattern,
big-endian. -/
def writeFloat64 (m : Mem) (base size at_ bits : Nat) : Except JErr Mem :=
  if at_ + 8 > size then .error .writeOutOfRange else .ok (wrU64 m (base + at_) bits)

/-! ## JS `number` facts on bit patterns

A JS `number` is an IEEE-754 binary64 value; we carry its 64-bit pattern.
`isNaNBits` reads the exponent/fraction fields.  `jsTruthy` is the `if
(hostValue)` test (falsy numbers: `+0`, `-0`, `NaN`).  `jsNumEq` is `==` on
numbers: `NaN` equals nothing, `+0 == -0`, and otherwise two binary64
patterns are equal exactly when they are the same pattern. -/

def isNaNBits (p : Nat) : Bool :=
  decide ((p / 4503599627370496) % 2048 = 2047 ∧ p % 4503599627370496 ≠ 0)

def jsTruthyNum (p : Nat) : Bool :=
  !(p == 0 || p == 9223372036854775808 || isNaNBits p)

def canonZeroBits (p : Nat) : Nat := if p = 9223372036854775808 then 0 else p

def jsNumEq (p q : Nat) : Bool :=
  if isNaNBits p || isNaNBits q then false else canonZeroBits p == canonZeroBits q

/-! ## Region (src/heap.js 80-302) -/

structure Region where
  beginFrom : Nat
  size : Nat
  counter : Nat
  kind : Nat
  deriving Repr, DecidableEq

/-- The `Region` constructor (src/heap.js:80-92): record the geometry, then
`readKind()` and `readCounter()`, each of which initializes and persists its
header field when the stored bytes are zero (a brand-new region).  The inner
codec bound checks always pass because every caller passes
`size = REGION_SIZE`. -/
def mkRegion (m : Mem) (beginFrom size : Nat) : Region × Mem :=
  -- readKind (src/heap.js:232-240): byte #4; 0 means new region, elevate to EDEN.
  let k0 := m (beginFrom + 4)
  let kind := if k0 = 0 then REGION_EDEN else k0
  let m1 := if k0 = 0 then memWrite m (beginFrom + 4) REGION_EDEN else m
  -- readCounter (src/heap.js:256-264): u32 at #0; 0 means new region, counter := 5.
  let c0 := rdU32 m1 beginFrom
  let counter := if c0 = 0 then 5 else c0
  let m2 := if c0 = 0 then wrU32 m1 beginFrom 5 else m1
  (⟨beginFrom, size, counter, kind⟩, m2)

/-! ## Mono (src/heap.js 315-357) -/

/-- `Mono.prototype.sizeFromKind` (src/heap.js:330-350). -/
def sizeFromKind (kind : Nat) : Except JErr Nat :=
  if kind = MONO_INT32 ∨ kind = MONO_ADDRESS then .ok 5
  else if kind = MONO_FLOAT64 then .ok 9
  else if kind = MONO_ARRAY_S8 then .ok 42
  else if kind = MONO_CHUNK_S8 then .ok 38
  else if kind = MONO_STRING_S8 then .ok 69
  else if kind = MONO_OBJECT_S8 then .ok 73
  else if kind = MONO_NAMED_PROPERTY_S8 then .ok 73
  else .error .wrongMonoKind

/-- A mono descriptor.  `regionBegin` stands for `this.region.beginFrom`
(the JS object holds the whole region, but only its base and `REGION_SIZE`
are ever consulted through a mono); `beginFrom` is the region-local offset
of the header byte. -/
structure Mono where
  regionBegin : Nat
  kind : Nat
  beginFrom : Nat
  deriving Repr, DecidableEq

def Mono.valueFrom (mn : Mono) : Nat := mn.beginFrom + 1

/-- `Mono.prototype.heapAddress` (src/heap.js:353-357). -/
def Mono.heapAddress (mn : Mono) : Nat := mn.regionBegin + mn.beginFrom

/-- The `Mono` constructor: `sizeFromKind` (to compute `endAt`) throws on an
unknown kind byte. -/
def mkMono (regionBegin kind beginFrom : Nat) : Except JErr Mono :=
  match sizeFromKind kind with
  | .error e => .error e
  | .ok _ => .ok ⟨regionBegin, kind, beginFrom⟩

/-! ## Heap (src/heap.js 22-74) -/

/-- `allocRegions` is `heap.allocator.regions` with the *current* region at
the head (the JS array keeps it last). -/
structure Heap where
  mem : Mem
  contentCounter : Nat
  allocRegions : List Region

/-- `Heap.prototype.createRegion` (src/heap.js:37-45).  The constructor
pre-allocates `1 + NUMBER_REGIONS` buffers (src/heap.js:26-29), so the OOM
test is against `NUMBER_REGIONS + 1`. -/
def Heap.createRegion (h : Heap) : Except JErr (Region × Heap) :=
  if h.contentCounter ≥ NUMBER_REGIONS + 1 then .error .oom
  else
    .ok ((mkRegion h.mem (h.contentCounter * REGION_SIZE) REGION_SIZE).1,
      { h with mem := (mkRegion h.mem (h.contentCounter * REGION_SIZE) REGION_SIZE).2,
               contentCounter := h.contentCounter + 1 })

/-- `new Heap()` (src/heap.js:22-35): all buffers zeroed, then the allocator
is built over one created region. -/
def Heap.init : Heap :=
  let (r, m) := mkRegion zeroMem 0 REGION_SIZE
  ⟨m, 1, [r]⟩

/-- `Heap.prototype.fetchMono` (src/heap.js:47-61).  Note the source guards
`regionIndex > NUMBER_REGIONS` (strict), constructs the region (which may
initialize its header bytes), and then builds the mono from the kind byte at
the region-local offset. -/
def Heap.fetchMono (h : Heap) (address : Nat) : Except JErr (Mono × Heap) :=
  if address / REGION_SIZE > NUMBER_REGIONS then .error .outOfRegionRange
  else
    match mkMono (address / REGION_SIZE * REGION_SIZE)
        ((mkRegion h.mem (address / REGION_SIZE * REGION_SIZE) REGION_SIZE).2
          (address / REGION_SIZE * REGION_SIZE + address % REGION_SIZE))
        (address % REGION_SIZE) with
    | .error e => .error e
    | .ok mono =>
      .ok (mono,
        { h with mem := (mkRegion h.mem (address / REGION_SIZE * REGION_SIZE) REGION_SIZE).2 })

/-- `Heap.prototype.fetchRegion` (src/heap.js:63-74). -/
def Heap.fetchRegion (h : Heap) (address : Nat) : Except JErr (Region × Heap) :=
  if address / REGION_SIZE > NUMBER_REGIONS then .error .outOfRegionRange
  else
    .ok ((mkRegion h.mem (address / REGION_SIZE * REGION_SIZE) REGION_SIZE).1,
      { h with mem := (mkRegion h.mem (address / REGION_SIZE * REGION_SIZE) REGION_SIZE).2 })

/-! ## Region allocation (src/heap.js 270-302, 359-404) -/

/-- `Region.prototype.capable` (src/heap.js:270-275) as a proposition:
`counter + n > size` means not capable. -/
def Region.capable (r : Region) (n : Nat) : Bool := !(r.counter + n > r.size)

/-- `Region.prototype.createMono` (src/heap.js:277-288): failure when the
region cannot fit (`return false`, modelled as `regionFull`); otherwise the
mono is laid out at `counter`, its header byte written, the counter advanced
by the mono size and persisted. -/
def Region.createMono (r : Region) (m : Mem) (kind : Nat) :
    Except JErr (Mono × Region × Mem) :=
  match sizeFromKind kind with
  | .error e => .error e
  | .ok increase =>
    if !r.capable increase then .error .regionFull
    else
      -- new Mono(this, kind, this.counter); mono.writeHeader()
      match writeUint8 m r.beginFrom r.size r.counter kind with
      | .error e => .error e
      | .ok m1 =>
        -- this.counter += increase; this.writeCounter()
        match writeUint32 m1 r.beginFrom r.size 0 (r.counter + increase) with
        | .error e => .error e
        | .ok m2 =>
          .ok (⟨r.beginFrom, kind, r.counter⟩,
               { r with counter := r.counter + increase }, m2)

/-- `Allocator.prototype.allocate` (src/heap.js:390-400): use the current
(last-pushed) region, rolling to a fresh region from the heap when the mono
does not fit. -/
def Heap.allocate (h : Heap) (monoKind : Nat) : Except JErr (Mono × Heap) :=
  match sizeFromKind monoKind with
  | .error e => .error e
  | .ok size =>
    match h.allocRegions with
    | [] => .error .oom
    | target :: rest =>
      if !target.capable size then
        match h.createRegion with
        | .error e => .error e
        | .ok (newRegion, h') =>
          match newRegion.createMono h'.mem monoKind with
          | .error e => .error e
          | .ok (mono, r', m') =>
            .ok (mono, { h' with mem := m', allocRegions := r' :: target :: rest })
      else
        match target.createMono h.mem monoKind with
        | .error e => .error e
        | .ok (mono, r', m') =>
          .ok (mono, { h with mem := m', allocRegions := r' :: rest })

/-- `WrappedInt32.prototype.read` (wrappers, src/testGC.js). -/
def wrappedInt32Read (m : Mem) (mn : Mono) : Except JErr Int :=
  readInt32 m mn.regionBegin REGION_SIZE mn.valueFrom

/-- `WrappedFloat64.prototype.read`. -/
def wrappedFloat64Read (m : Mem) (mn : Mono) : Except JErr Nat :=
  readFloat64 m mn.regionBegin REGION_SIZE mn.valueFrom

/-- `Allocator.prototype.int32` (src/heap.js:382-388): allocate, then write
only when the host value is truthy (`if (hostValue)`), so `0` is *not*
written. -/
def Heap.allocInt32 (h : Heap) (hostValue : Int) : Except JErr (Mono × Heap) :=
  match h.allocate MONO_INT32 with
  | .error e => .error e
  | .ok (mono, h1) =>
    if hostValue ≠ 0 then
      match writeInt32 h1.mem mono.regionBegin REGION_SIZE mono.valueFrom hostValue with
      | .error e => .error e
      | .ok m => .ok (mono, { h1 with mem := m })
    else .ok (mono, h1)

/-- `Allocator.prototype.float64` (src/heap.js:374-380); `+0`, `-0` and
`NaN` are falsy and skip the write. -/
def Heap.allocFloat64 (h : Heap) (bits : Nat) : Except JErr (Mono × Heap) :=
  match h.allocate MONO_FLOAT64 with
  | .error e => .error e
  | .ok (mono, h1) =>
    if jsTruthyNum bits then
      match writeFloat64 h1.mem mono.regionBegin REGION_SIZE mono.valueFrom bits with
      | .error e => .error e
      | .ok m => .ok (mono, { h1 with mem := m })
    else .ok (mono, h1)

/-! ## Codec byte-order lemmas -/

theorem wrU32_byte0 (m : Mem) (a v : Nat) :
    wrU32 m a v a = v % 4294967296 / 16777216 := by
  unfold wrU32 memWrite
  simp only []
  norm_num
  omega

theorem wrU32_byte3 (m : Mem) (a v : Nat) : wrU32 m a v (a + 3) = v % 256 := by
  unfold wrU32 memWrite
  simp only []
  norm_num

theorem wrU64_byte0 (m : Mem) (a v : Nat) :
    wrU64 m a v a = v % 18446744073709551616 / 72057594037927936 := by
  unfold wrU64 memWrite
  simp only []
  norm_num
  omega

theorem int32_pattern_round (v : Int) (h1 : -2147483648 ≤ v) (h2 : v < 2147483648) :
    (if ((v % 4294967296).toNat % 4294967296 : Nat) < 2147483648
      then (((v % 4294967296).toNat % 4294967296 : Nat) : Int)
      else (((v % 4294967296).toNat % 4294967296 : Nat) : Int) - 4294967296) = v := by
  have h3 : (0 : Int) ≤ v % 4294967296 := Int.emod_nonneg v (by norm_num)
  have h4 : v % 4294967296 < 4294967296 := Int.emod_lt_of_pos v (by norm_num)
  rcases le_or_lt 0 v with hv | hv
  · have : v % 4294967296 = v := Int.emod_eq_of_lt hv (by omega)
    rw [this]
    have hn : (v.toNat % 4294967296 : Nat) = v.toNat := Nat.mod_eq_of_lt (by omega)
    rw [hn]
    have : ((v.toNat : Int)) = v := Int.toNat_of_nonneg hv
    rw [if_pos (by omega), this]
  · have : v % 4294967296 = v + 4294967296 := by omega
    rw [this]
    have hn : ((v + 4294967296).toNat % 4294967296 : Nat) = (v + 4294967296).toNat :=
      Nat.mod_eq_of_lt (by omega)
    rw [hn]
    have hge : ¬ ((v + 4294967296).toNat < 2147483648) := by omega
    rw [if_neg hge]
    omega

/-! ## Claim C1 -/

/-- C1, counterexample: the codec is big-endian, not little-endian.  With
byte `b0 = 1` and `b1 = b2 = b3 = 0` at offset 0, `readUint32` returns
`16777216`, not `b0 + 256*b1 + 65536*b2 + 16777216*b3 = 1` as the claim
states; and `writeUint32` of `1` leaves `0` (not the least-significant byte)
at the written offset, putting the `1` in the *last* byte. -/
theorem c1_little_endian_counterexample :
    readUint32 (memWrite zeroMem 0 1) 0 REGION_SIZE 0 = .ok 16777216 ∧
    (16777216 : Nat) ≠ 1 + 256 * 0 + 65536 * 0 + 16777216 * 0 ∧
    wrU32 zeroMem 0 1 0 = 0 ∧ wrU32 zeroMem 0 1 3 = 1 := by
  refine ⟨?_, by decide, ?_, ?_⟩ <;> rfl

/-- C1, amended: all multi-byte codec operations on a region
(`readUint32`/`writeUint32`, `readInt32`/`writeInt32`, `readFloat64`/
`writeFloat64`, and the address aliases) encode and decode values in
**big-endian** byte order: for every in-range offset `at` the byte written
at `at` is the *most*-significant byte of the value, and reading bytes
`b0..b3` at `at` with `readUint32` yields
`b3 + 256*b2 + 65536*b1 + 16777216*b0`; write-then-read round-trips
(`uint32` modulo `2^32`, `int32` exactly on `[-2^31, 2^31)`, `float64` on
the full 64-bit pattern). -/
theorem c1_codec_big_endian :
    (∀ (m : Mem) (b s at_ v : Nat), at_ + 4 ≤ s →
      writeUint32 m b s at_ v = .ok (wrU32 m (b + at_) v) ∧
      wrU32 m (b + at_) v (b + at_) = v % 4294967296 / 16777216 ∧
      wrU32 m (b + at_) v (b + at_ + 3) = v % 256 ∧
      readUint32 (wrU32 m (b + at_) v) b s at_ = .ok (v % 4294967296)) ∧
    (∀ (m : Mem) (b s at_ b0 b1 b2 b3 : Nat), at_ + 4 ≤ s →
      b0 < 256 → b1 < 256 → b2 < 256 → b3 < 256 →
      m (b + at_) = b0 → m (b + at_ + 1) = b1 →
      m (b + at_ + 2) = b2 → m (b + at_ + 3) = b3 →
      readUint32 m b s at_ = .ok (b3 + 256 * b2 + 65536 * b1 + 16777216 * b0)) ∧
    (∀ (m : Mem) (b s at_ : Nat) (v : Int), at_ + 4 ≤ s →
      -2147483648 ≤ v → v < 2147483648 →
      writeInt32 m b s at_ v = .ok (wrU32 m (b + at_) (v % 4294967296).toNat) ∧
      readInt32 (wrU32 m (b + at_) (v % 4294967296).toNat) b s at_ = .ok v) ∧
    (∀ (m : Mem) (b s at_ bits : Nat), at_ + 8 ≤ s → bits < 18446744073709551616 →
      writeFloat64 m b s at_ bits = .ok (wrU64 m (b + at_) bits) ∧
      wrU64 m (b + at_) bits (b + at_) = bits / 72057594037927936 ∧
      readFloat64 (wrU64 m (b + at_) bits) b s at_ = .ok bits) ∧
    (∀ (m : Mem) (b s at_ : Nat), readAddress m b s at_ = readUint32 m b s at_) ∧
    (∀ (m : Mem) (b s at_ v : Nat), writeAddress m b s at_ v = writeUint32 m b s at_ v) := by
  refine ⟨?_, ?_, ?_, ?_, fun _ _ _ _ => rfl, fun _ _ _ _ _ => rfl⟩
  · intro m b s at_ v h
    refine ⟨?_, wrU32_byte0 m (b + at_) v, wrU32_byte3 m (b + at_) v, ?_⟩
    · unfold writeUint32
      rw [if_neg (by omega)]
    · unfold readUint32
      rw [if_neg (by omega), rdU32_wrU32]
  · intro m b s at_ b0 b1 b2 b3 h hb0 hb1 hb2 hb3 e0 e1 e2 e3
    unfold readUint32 rdU32
    rw [if_neg (by omega), e0, e1, e2, e3,
      Nat.mod_eq_of_lt hb0, Nat.mod_eq_of_lt hb1, Nat.mod_eq_of_lt hb2, Nat.mod_eq_of_lt hb3]
    congr 1
    ring
  · intro m b s at_ v h h1 h2
    constructor
    · unfold writeInt32
      rw [if_neg (by omega)]
    · unfold readInt32
      rw [if_neg (by omega)]
      simp only [rdU32_wrU32]
      exact congrArg Except.ok (int32_pattern_round v h1 h2)
  · intro m b s at_ bits h hlt
    refine ⟨?_, ?_, ?_⟩
    · unfold writeFloat64
      rw [if_neg (by omega)]
    · rw [wrU64_byte0, Nat.mod_eq_of_lt hlt]
    · unfold readFloat64
      rw [if_neg (by omega), rdU64_wrU64, Nat.mod_eq_of_lt hlt]

/-- C1 witness: the amended big-endian facts at concrete inputs
(`v = 258` at offset 0 of a region-sized window, bytes `(1,2,3,4)`,
`v = -2` for `int32`, pattern `2^63` for `float64`). -/
theorem c1_codec_big_endian_witness :
    (writeUint32 zeroMem 0 REGION_SIZE 0 258 = .ok (wrU32 zeroMem 0 258) ∧
      wrU32 zeroMem 0 258 0 = 258 % 4294967296 / 16777216 ∧
      wrU32 zeroMem 0 258 3 = 258 % 256 ∧
      readUint32 (wrU32 zeroMem 0 258) 0 REGION_SIZE 0 = .ok (258 % 4294967296)) ∧
    (readUint32 (memWrite (memWrite (memWrite (memWrite zeroMem 0 1) 1 2) 2 3) 3 4)
      0 REGION_SIZE 0 = .ok (4 + 256 * 3 + 65536 * 2 + 16777216 * 1)) ∧
    (writeInt32 zeroMem 0 REGION_SIZE 0 (-2) =
        .ok (wrU32 zeroMem 0 ((-2 : Int) % 4294967296).toNat) ∧
      readInt32 (wrU32 zeroMem 0 ((-2 : Int) % 4294967296).toNat) 0 REGION_SIZE 0 = .ok (-2)) ∧
    (writeFloat64 zeroMem 0 REGION_SIZE 0 9223372036854775808 =
        .ok (wrU64 zeroMem 0 9223372036854775808) ∧
      wrU64 zeroMem 0 9223372036854775808 0 = 9223372036854775808 / 72057594037927936 ∧
      readFloat64 (wrU64 zeroMem 0 9223372036854775808) 0 REGION_SIZE 0 =
        .ok 9223372036854775808) := by
  refine ⟨?_, ?_, ?_, ?_⟩
  · exact c1_codec_big_endian.1 zeroMem 0 REGION_SIZE 0 258 (by decide)
  · exact c1_codec_big_endian.2.1 (memWrite (memWrite (memWrite (memWrite zeroMem 0 1) 1 2) 2 3) 3 4)
      0 REGION_SIZE 0 1 2 3 4 (by decide) (by decide) (by decide) (by decide) (by decide)
      rfl rfl rfl rfl
  · exact c1_codec_big_endian.2.2.1 zeroMem 0 REGION_SIZE 0 (-2) (by decide) (by decide) (by decide)
  · exact c1_codec_big_endian.2.2.2.1 zeroMem 0 REGION_SIZE 0 9223372036854775808
      (by decide) (by decide)

/-! ## `mkRegion` characterization -/

theorem wrU32_byte1 (m : Mem) (a v : Nat) :
    wrU32 m a v (a + 1) = v % 4294967296 / 65536 % 256 := by
  unfold wrU32 memWrite
  simp only []
  norm_num

theorem wrU32_byte2 (m : Mem) (a v : Nat) :
    wrU32 m a v (a + 2) = v % 4294967296 / 256 % 256 := by
  unfold wrU32 memWrite
  simp only []
  norm_num

/-- Constructing a region over an all-zero header initializes it: kind byte
`EDEN = 11`, counter `5` (stored big-endian as bytes `0,0,0,5`), all other
bytes untouched. -/
theorem mkRegion_fresh (m : Mem) (b size : Nat) (h0 : ∀ i < 5, m (b + i) = 0) :
    mkRegion m b size = (⟨b, size, 5, REGION_EDEN⟩, wrU32 (memWrite m (b + 4) REGION_EDEN) b 5) ∧
    wrU32 (memWrite m (b + 4) REGION_EDEN) b 5 (b + 3) = 5 ∧
    wrU32 (memWrite m (b + 4) REGION_EDEN) b 5 (b + 4) = REGION_EDEN ∧
    (∀ i < 3, wrU32 (memWrite m (b + 4) REGION_EDEN) b 5 (b + i) = 0) ∧
    rdU32 (wrU32 (memWrite m (b + 4) REGION_EDEN) b 5) b = 5 ∧
    (∀ j, j < b ∨ b + 5 ≤ j → wrU32 (memWrite m (b + 4) REGION_EDEN) b 5 j = m j) := by
  have h4 : m (b + 4) = 0 := h0 4 (by omega)
  have hb0 : m b = 0 := by simpa using h0 0 (by omega)
  have hb1 : m (b + 1) = 0 := h0 1 (by omega)
  have hb2 : m (b + 2) = 0 := h0 2 (by omega)
  have hb3 : m (b + 3) = 0 := h0 3 (by omega)
  have hc : rdU32 (memWrite m (b + 4) REGION_EDEN) b = 0 := by
    unfold rdU32
    rw [memWrite_other _ _ _ _ (by omega), memWrite_other _ _ _ _ (by omega),
      memWrite_other _ _ _ _ (by omega), memWrite_other _ _ _ _ (by omega),
      hb0, hb1, hb2, hb3]
  refine ⟨?_, ?_, ?_, ?_, ?_, ?_⟩
  · unfold mkRegion
    simp only [h4, hc, eq_self_iff_true, if_true]
  · rw [wrU32_byte3]
  · rw [wrU32_read_other _ _ _ _ (by omega), memWrite_same]
    rfl
  · intro i hi
    interval_cases i
    · rw [show b + 0 = b from rfl, wrU32_byte0]
    · rw [wrU32_byte1]
    · rw [wrU32_byte2]
  · rw [rdU32_wrU32]
  · intro j hj
    rw [wrU32_read_other _ _ _ _ (by omega), memWrite_other _ _ _ _ (by omega)]

/-- Constructing a region over an initialized header (nonzero kind byte and
nonzero stored counter) reads the header back and leaves memory unchanged. -/
theorem mkRegion_inited (m : Mem) (b size : Nat)
    (h4 : m (b + 4) ≠ 0) (h0 : rdU32 m b ≠ 0) :
    mkRegion m b size = (⟨b, size, rdU32 m b, m (b + 4)⟩, m) := by
  unfold mkRegion
  simp only [if_neg h4, if_neg h0]

/-! ## Claims C10 and C8 -/

/-- C10: address resolution is not read-only.  `fetch_region` (and the
region-materialization step of `fetch_mono`) on a region whose five header
bytes are zero writes counter `5` into bytes `[0..4)` and the EDEN kind `11`
into byte `[4]`, touching nothing else; on a region with an initialized
header both fetches leave every byte unchanged. -/
theorem c10_fetch_initializes_header (h : Heap) (address : Nat)
    (hin : address / REGION_SIZE ≤ NUMBER_REGIONS) :
    ((∀ i < 5, h.mem (address / REGION_SIZE * REGION_SIZE + i) = 0) →
      h.fetchRegion address =
        .ok (⟨address / REGION_SIZE * REGION_SIZE, REGION_SIZE, 5, REGION_EDEN⟩,
          { h with mem := (mkRegion h.mem (address / REGION_SIZE * REGION_SIZE) REGION_SIZE).2 }) ∧
      rdU32 (mkRegion h.mem (address / REGION_SIZE * REGION_SIZE) REGION_SIZE).2
        (address / REGION_SIZE * REGION_SIZE) = 5 ∧
      (mkRegion h.mem (address / REGION_SIZE * REGION_SIZE) REGION_SIZE).2
        (address / REGION_SIZE * REGION_SIZE + 4) = REGION_EDEN ∧
      (∀ j, j < address / REGION_SIZE * REGION_SIZE ∨
          address / REGION_SIZE * REGION_SIZE + 5 ≤ j →
        (mkRegion h.mem (address / REGION_SIZE * REGION_SIZE) REGION_SIZE).2 j = h.mem j) ∧
      (∀ mono h', h.fetchMono address = .ok (mono, h') →
        h'.mem = (mkRegion h.mem (address / REGION_SIZE * REGION_SIZE) REGION_SIZE).2)) ∧
    (h.mem (address / REGION_SIZE * REGION_SIZE + 4) ≠ 0 →
      rdU32 h.mem (address / REGION_SIZE * REGION_SIZE) ≠ 0 →
      h.fetchRegion address =
        .ok (⟨address / REGION_SIZE * REGION_SIZE, REGION_SIZE,
              rdU32 h.mem (address / REGION_SIZE * REGION_SIZE),
              h.mem (address / REGION_SIZE * REGION_SIZE + 4)⟩, h) ∧
      (∀ mono h', h.fetchMono address = .ok (mono, h') → h'.mem = h.mem)) := by
  constructor
  · intro hz
    obtain ⟨hr, hb3, hb4, hlow, hc, hframe⟩ :=
      mkRegion_fresh h.mem (address / REGION_SIZE * REGION_SIZE) REGION_SIZE hz
    refine ⟨?_, by rw [hr]; exact hc, by rw [hr]; exact hb4,
      by rw [hr]; exact hframe, ?_⟩
    · unfold Heap.fetchRegion
      rw [if_neg (by omega), hr]
    · intro mono h' hfetch
      unfold Heap.fetchMono at hfetch
      rw [if_neg (by omega)] at hfetch
      cases hmk : mkMono (address / REGION_SIZE * REGION_SIZE)
          ((mkRegion h.mem (address / REGION_SIZE * REGION_SIZE) REGION_SIZE).2
            (address / REGION_SIZE * REGION_SIZE + address % REGION_SIZE))
          (address % REGION_SIZE) with
      | error e => rw [hmk] at hfetch; cases hfetch
      | ok mn =>
        rw [hmk] at hfetch
        cases hfetch
        rfl
  · intro h4 h0
    have heq := mkRegion_inited h.mem (address / REGION_SIZE * REGION_SIZE) REGION_SIZE h4 h0
    constructor
    · unfold Heap.fetchRegion
      rw [if_neg (by omega), heq]
    · intro mono h' hfetch
      unfold Heap.fetchMono at hfetch
      rw [if_neg (by omega)] at hfetch
      cases hmk : mkMono (address / REGION_SIZE * REGION_SIZE)
          ((mkRegion h.mem (address / REGION_SIZE * REGION_SIZE) REGION_SIZE).2
            (address / REGION_SIZE * REGION_SIZE + address % REGION_SIZE))
          (address % REGION_SIZE) with
      | error e => rw [hmk] at hfetch; cases hfetch
      | ok mn =>
        rw [hmk] at hfetch
        cases hfetch
        rw [heq]

/-- C10 witness: on the fresh heap, region 1's buffer is all-zero, so
`fetch_region` at address `REGION_SIZE` initializes its header; and region 0
(initialized by the heap constructor) is fetched without any byte change. -/
theorem c10_witness :
    (Heap.init.fetchRegion REGION_SIZE =
      .ok (⟨REGION_SIZE, REGION_SIZE, 5, REGION_EDEN⟩,
        { Heap.init with mem := (mkRegion Heap.init.mem REGION_SIZE REGION_SIZE).2 })) ∧
    (Heap.init.fetchRegion 0 =
      .ok (⟨0, REGION_SIZE, rdU32 Heap.init.mem 0, Heap.init.mem 4⟩, Heap.init)) := by
  constructor
  · have h := (c10_fetch_initializes_header Heap.init REGION_SIZE (by decide)).1
    have hz : ∀ i < 5, Heap.init.mem (REGION_SIZE / REGION_SIZE * REGION_SIZE + i) = 0 := by
      decide
    exact (h hz).1
  · have h := (c10_fetch_initializes_header Heap.init 0 (by decide)).2
    have h4 : Heap.init.mem (0 / REGION_SIZE * REGION_SIZE + 4) ≠ 0 := by decide
    have h0 : rdU32 Heap.init.mem (0 / REGION_SIZE * REGION_SIZE) ≠ 0 := by decide
    exact (h h4 h0).1

def exceptIsOk {α : Type _} : Except JErr α → Bool
  | .ok _ => true
  | .error _ => false

/-- C8, counterexample: `fetchMono` guards `regionIndex > NUMBER_REGIONS`,
not `≥`.  At address `256 * REGION_SIZE + 4` the region index is exactly
`NUMBER_REGIONS = 256`, yet the call *succeeds* (the heap pre-allocates
`NUMBER_REGIONS + 1` buffers, and after header initialization the kind byte
at offset 4 is the valid EDEN/ADDRESS value 11), contradicting the claimed
failure for every `region_index ≥ 256`. -/
theorem c8_range_counterexample :
    262144004 / REGION_SIZE = 256 ∧
    NUMBER_REGIONS ≤ 262144004 / REGION_SIZE ∧
    exceptIsOk (Heap.init.fetchMono 262144004) = true ∧
    Heap.init.fetchMono 262144004 ≠ .error .outOfRegionRange := by
  refine ⟨by decide, by decide, by decide, ?_⟩
  intro hcontra
  have : exceptIsOk (Heap.init.fetchMono 262144004) = false := by
    rw [hcontra]
    rfl
  have h2 : exceptIsOk (Heap.init.fetchMono 262144004) = true := by decide
  rw [h2] at this
  cases this

/-- C8, amended: `fetch_mono` fails with the out-of-region-range error
exactly when `floor(addr / REGION_SIZE)` is *strictly greater* than
`NUMBER_REGIONS` (the heap carries `NUMBER_REGIONS + 1` buffers, so index
256 is still backed); for region indices `≤ NUMBER_REGIONS` it decomposes
the address into `(region_index, offset)`, materializes the region over the
backing buffer, reads the kind byte at `offset`, and returns a mono
descriptor built from that kind and offset (failing with the wrong-kind
error when the kind byte is not a valid mono kind). -/
theorem c8_fetchMono_range (h : Heap) (address : Nat) :
    (NUMBER_REGIONS < address / REGION_SIZE →
      h.fetchMono address = .error .outOfRegionRange ∧
      h.fetchRegion address = .error .outOfRegionRange) ∧
    (address / REGION_SIZE ≤ NUMBER_REGIONS →
      (∀ sz, sizeFromKind ((mkRegion h.mem (address / REGION_SIZE * REGION_SIZE) REGION_SIZE).2
            (address / REGION_SIZE * REGION_SIZE + address % REGION_SIZE)) = .ok sz →
        h.fetchMono address =
          .ok (⟨address / REGION_SIZE * REGION_SIZE,
                (mkRegion h.mem (address / REGION_SIZE * REGION_SIZE) REGION_SIZE).2
                  (address / REGION_SIZE * REGION_SIZE + address % REGION_SIZE),
                address % REGION_SIZE⟩,
               { h with mem := (mkRegion h.mem (address / REGION_SIZE * REGION_SIZE) REGION_SIZE).2 })) ∧
      (∀ e, sizeFromKind ((mkRegion h.mem (address / REGION_SIZE * REGION_SIZE) REGION_SIZE).2
            (address / REGION_SIZE * REGION_SIZE + address % REGION_SIZE)) = .error e →
        h.fetchMono address = .error e)) := by
  constructor
  · intro hgt
    constructor
    · unfold Heap.fetchMono
      rw [if_pos (by omega)]
    · unfold Heap.fetchRegion
      rw [if_pos (by omega)]
  · intro hle
    constructor
    · intro sz hsz
      unfold Heap.fetchMono
      rw [if_neg (by omega)]
      unfold mkMono
      rw [hsz]
    · intro e he
      unfold Heap.fetchMono
      rw [if_neg (by omega)]
      unfold mkMono
      rw [he]

/-- C8 witness: the range error at region index 257, and a successful
decomposition at address `4` (region 0, offset 4, kind byte 11) on the
fresh heap. -/
theorem c8_fetchMono_range_witness :
    (Heap.init.fetchMono 263168000 = .error .outOfRegionRange ∧
     Heap.init.fetchRegion 263168000 = .error .outOfRegionRange) ∧
    Heap.init.fetchMono 4 =
      .ok (⟨0, REGION_EDEN, 4⟩,
        { Heap.init with mem := (mkRegion Heap.init.mem 0 REGION_SIZE).2 }) := by
  constructor
  · exact (c8_fetchMono_range Heap.init 263168000).1 (by decide)
  · have h := ((c8_fetchMono_range Heap.init 4).2 (by decide)).1 5 rfl
    exact h

/-! ## Claim C4 -/

/-- A sequence of `createMono` calls on one region, also returning the sizes
of the monos laid out (every call must succeed, as in the claim). -/
def Region.createMonos (r : Region) (m : Mem) : List Nat → Except JErr (Region × Mem × List Nat)
  | [] => .ok (r, m, [])
  | k :: ks =>
    match r.createMono m k with
    | .error e => .error e
    | .ok (_, r', m') =>
      match sizeFromKind k with
      | .error e => .error e
      | .ok sz =>
        match r'.createMonos m' ks with
        | .error e => .error e
        | .ok (r'', m'', sizes) => .ok (r'', m'', sz :: sizes)

theorem createMono_counter (r : Region) (m : Mem) (k : Nat) (mono : Mono)
    (r' : Region) (m' : Mem) (sz : Nat)
    (hsz : sizeFromKind k = .ok sz) (hc : r.createMono m k = .ok (mono, r', m')) :
    r'.counter = r.counter + sz := by
  unfold Region.createMono at hc
  simp only [hsz] at hc
  by_cases hcap : (!r.capable sz) = true
  · rw [if_pos hcap] at hc
    cases hc
  · rw [if_neg hcap] at hc
    cases h8 : writeUint8 m r.beginFrom r.size r.counter k with
    | error e => simp only [h8] at hc; cases hc
    | ok m1 =>
      simp only [h8] at hc
      cases h32 : writeUint32 m1 r.beginFrom r.size 0 (r.counter + sz) with
      | error e => simp only [h32] at hc; cases hc
      | ok m2 =>
        simp only [h32] at hc
        cases hc
        rfl

/-- C4: for every region, after any sequence of successful `createMono`
calls into a fresh region (whose counter reads 5), the counter equals
`5 + Σ` of the sizes of the monos laid out.  (Stated with a general initial
counter; the claim is the `r.counter = 5` instance.) -/
theorem c4_counter_invariant (r : Region) (m : Mem) (ks : List Nat)
    (r' : Region) (m' : Mem) (sizes : List Nat)
    (hrun : r.createMonos m ks = .ok (r', m', sizes)) (hfresh : r.counter = 5) :
    r'.counter = 5 + sizes.sum := by
  suffices h : ∀ (r : Region) (m : Mem) (ks : List Nat) (r' : Region) (m' : Mem)
      (sizes : List Nat), r.createMonos m ks = .ok (r', m', sizes) →
      r'.counter = r.counter + sizes.sum by
    rw [h r m ks r' m' sizes hrun, hfresh]
  clear hrun hfresh r m ks r' m' sizes
  intro r m ks
  induction ks generalizing r m with
  | nil =>
    intro r' m' sizes hrun
    unfold Region.createMonos at hrun
    cases hrun
    simp
  | cons k ks ih =>
    intro r' m' sizes hrun
    unfold Region.createMonos at hrun
    cases hstep : r.createMono m k with
    | error e => simp only [hstep] at hrun; cases hrun
    | ok res =>
      obtain ⟨mono, r1, m1⟩ := res
      simp only [hstep] at hrun
      cases hsz : sizeFromKind k with
      | error e => simp only [hsz] at hrun; cases hrun
      | ok sz =>
        simp only [hsz] at hrun
        cases hrest : r1.createMonos m1 ks with
        | error e => simp only [hrest] at hrun; cases hrun
        | ok res2 =>
          obtain ⟨r2, m2, sizes2⟩ := res2
          simp only [hrest] at hrun
          cases hrun
          have h1 := createMono_counter r m k mono r1 m1 sz hsz hstep
          have h2 := ih r1 m1 _ _ _ hrest
          rw [h2, h1]
          simp only [List.sum_cons]
          omega

/-- C4 witness: on a fresh region (counter 5) laying out an INT32 (5 bytes)
and a FLOAT64 (9 bytes) yields counter `5 + 14 = 19`. -/
theorem c4_counter_invariant_witness :
    ∃ r' m' sizes,
      Region.createMonos ⟨0, REGION_SIZE, 5, REGION_EDEN⟩ Heap.init.mem
        [MONO_INT32, MONO_FLOAT64] = .ok (r', m', sizes) ∧
      r'.counter = 5 + sizes.sum ∧ sizes = [5, 9] ∧ r'.counter = 19 := by
  obtain ⟨r', m', sizes, hrun⟩ :
      ∃ r' m' sizes, Region.createMonos ⟨0, REGION_SIZE, 5, REGION_EDEN⟩ Heap.init.mem
        [MONO_INT32, MONO_FLOAT64] = .ok (r', m', sizes) := ⟨_, _, _, rfl⟩
  refine ⟨r', m', sizes, hrun, c4_counter_invariant _ _ _ _ _ _ hrun rfl, ?_, ?_⟩
  · have h1 : (Region.createMonos ⟨0, REGION_SIZE, 5, REGION_EDEN⟩ Heap.init.mem
        [MONO_INT32, MONO_FLOAT64]).map (fun p => p.2.2) = .ok [5, 9] := rfl
    rw [hrun] at h1
    simp only [Except.map, Except.ok.injEq] at h1
    exact h1
  · have h1 : (Region.createMonos ⟨0, REGION_SIZE, 5, REGION_EDEN⟩ Heap.init.mem
        [MONO_INT32, MONO_FLOAT64]).map (fun p => p.1.counter) = .ok 19 := rfl
    rw [hrun] at h1
    simp only [Except.map, Except.ok.injEq] at h1
    exact h1


/-! ## Codec success equations -/

theorem writeUint8_ok (m : Mem) (base size at_ v : Nat) (h : at_ + 1 ≤ size) :
    writeUint8 m base size at_ v = .ok (memWrite m (base + at_) v) := by
  unfold writeUint8
  rw [if_neg (by omega)]

theorem writeUint32_ok (m : Mem) (base size at_ v : Nat) (h : at_ + 4 ≤ size) :
    writeUint32 m base size at_ v = .ok (wrU32 m (base + at_) v) := by
  unfold writeUint32
  rw [if_neg (by omega)]

theorem writeInt32_ok (m : Mem) (base size at_ : Nat) (v : Int) (h : at_ + 4 ≤ size) :
    writeInt32 m base size at_ v = .ok (wrU32 m (base + at_) (v % 4294967296).toNat) := by
  unfold writeInt32
  rw [if_neg (by omega)]

theorem writeFloat64_ok (m : Mem) (base size at_ bits : Nat) (h : at_ + 8 ≤ size) :
    writeFloat64 m base size at_ bits = .ok (wrU64 m (base + at_) bits) := by
  unfold writeFloat64
  rw [if_neg (by omega)]

theorem readUint8_ok (m : Mem) (base size at_ : Nat) (h : at_ ≤ size) :
    readUint8 m base size at_ = .ok (m (base + at_)) := by
  unfold readUint8
  rw [if_neg (by omega)]

theorem readUint32_ok (m : Mem) (base size at_ : Nat) (h : at_ + 4 ≤ size) :
    readUint32 m base size at_ = .ok (rdU32 m (base + at_)) := by
  unfold readUint32
  rw [if_neg (by omega)]

theorem readInt32_ok (m : Mem) (base size at_ : Nat) (h : at_ + 4 ≤ size) :
    readInt32 m base size at_ =
      .ok (if rdU32 m (base + at_) < 2147483648 then (rdU32 m (base + at_) : Int)
           else (rdU32 m (base + at_) : Int) - 4294967296) := by
  unfold readInt32
  rw [if_neg (by omega)]

theorem readFloat64_ok (m : Mem) (base size at_ : Nat) (h : at_ + 8 ≤ size) :
    readFloat64 m base size at_ = .ok (rdU64 m (base + at_)) := by
  unfold readFloat64
  rw [if_neg (by omega)]

/-! ## Allocation success lemmas -/

theorem sizeFromKind_bounds (kind sz : Nat) (h : sizeFromKind kind = .ok sz) :
    5 ≤ sz ∧ sz ≤ 73 := by
  unfold sizeFromKind at h
  repeat' split at h
  all_goals cases h
  all_goals omega

/-- `createRegion` over an untouched buffer yields a fresh EDEN region with
counter 5, adding its header initialization to memory. -/
theorem createRegion_fresh (h : Heap) (hfull : h.contentCounter < NUMBER_REGIONS + 1)
    (hz : ∀ i < 5, h.mem (h.contentCounter * REGION_SIZE + i) = 0) :
    h.createRegion = .ok (⟨h.contentCounter * REGION_SIZE, REGION_SIZE, 5, REGION_EDEN⟩,
      { h with mem := wrU32 (memWrite h.mem (h.contentCounter * REGION_SIZE + 4) REGION_EDEN)
                        (h.contentCounter * REGION_SIZE) 5,
               contentCounter := h.contentCounter + 1 }) := by
  unfold Heap.createRegion
  rw [if_neg (by omega)]
  rw [(mkRegion_fresh h.mem _ REGION_SIZE hz).1]

/-- Successful `createMono` fully characterized: mono descriptor at the old
counter, counter bumped by the mono size, header byte and counter persisted. -/
theorem createMono_ok (r : Region) (m : Mem) (kind sz : Nat)
    (hsz : sizeFromKind kind = .ok sz) (hfit : r.counter + sz ≤ r.size) (hs5 : 5 ≤ sz) :
    r.createMono m kind = .ok (⟨r.beginFrom, kind, r.counter⟩,
      { r with counter := r.counter + sz },
      wrU32 (memWrite m (r.beginFrom + r.counter) kind) r.beginFrom (r.counter + sz)) := by
  unfold Region.createMono
  simp only [hsz]
  have hcap : (!r.capable sz) = false := by
    unfold Region.capable
    simp only [Bool.not_not]
    rw [decide_eq_false_iff_not]
    omega
  rw [hcap, if_neg (show ¬ (false = true) by simp)]
  simp only [writeUint8_ok m r.beginFrom r.size r.counter kind (by omega),
    writeUint32_ok (memWrite m (r.beginFrom + r.counter) kind) r.beginFrom r.size 0
      (r.counter + sz) (by omega), Nat.add_zero]

/-! ## Claim C5 -/

/-- When the allocator's current region has its unoccupied tail zeroed and
everything past the heap frontier is zero (true of every state reached by
the modelled flows), a successful `allocate` yields a mono whose payload
bytes are all zero. -/
theorem allocate_fresh_bytes (h : Heap) (target : Region) (rest : List Region)
    (kind sz : Nat)
    (hl : h.allocRegions = target :: rest) (hsz : sizeFromKind kind = .ok sz)
    (hsize : target.size = REGION_SIZE) (hcnt : 5 ≤ target.counter)
    (htail : ∀ i, target.counter ≤ i → i < REGION_SIZE → h.mem (target.beginFrom + i) = 0)
    (hbeyond : ∀ a, h.contentCounter * REGION_SIZE ≤ a → h.mem a = 0)
    (mono : Mono) (h1 : Heap) (hrun : h.allocate kind = .ok (mono, h1)) :
    mono.kind = kind ∧ 5 ≤ mono.beginFrom ∧ mono.beginFrom + sz ≤ REGION_SIZE ∧
    (∀ i, 1 ≤ i → i < sz → h1.mem (mono.regionBegin + mono.beginFrom + i) = 0) := by
  obtain ⟨hs5, hs73⟩ := sizeFromKind_bounds kind sz hsz
  unfold Heap.allocate at hrun
  simp only [hsz, hl] at hrun
  by_cases hcap : (!target.capable sz) = true
  · -- current region cannot fit: roll to a fresh region
    rw [if_pos hcap] at hrun
    by_cases hfull : h.contentCounter ≥ NUMBER_REGIONS + 1
    · have hcr : h.createRegion = .error .oom := by
        unfold Heap.createRegion
        rw [if_pos hfull]
      simp only [hcr] at hrun
      cases hrun
    · have hzb : ∀ i < 5, h.mem (h.contentCounter * REGION_SIZE + i) = 0 := by
        intro i _
        exact hbeyond _ (by omega)
      have hcr := createRegion_fresh h (by omega) hzb
      simp only [hcr] at hrun
      have hcm := createMono_ok ⟨h.contentCounter * REGION_SIZE, REGION_SIZE, 5, REGION_EDEN⟩
        (wrU32 (memWrite h.mem (h.contentCounter * REGION_SIZE + 4) REGION_EDEN)
          (h.contentCounter * REGION_SIZE) 5) kind sz hsz
        (by show 5 + sz ≤ REGION_SIZE; unfold REGION_SIZE; omega) hs5
      simp only [hcm] at hrun
      cases hrun
      refine ⟨rfl, le_refl 5, by show 5 + sz ≤ REGION_SIZE; unfold REGION_SIZE; omega, ?_⟩
      intro i h1i hisz
      show wrU32 (memWrite (wrU32 (memWrite h.mem (h.contentCounter * REGION_SIZE + 4) REGION_EDEN)
          (h.contentCounter * REGION_SIZE) 5) (h.contentCounter * REGION_SIZE + 5) kind)
          (h.contentCounter * REGION_SIZE) (5 + sz)
          (h.contentCounter * REGION_SIZE + 5 + i) = 0
      rw [wrU32_read_other _ _ _ _ (by omega), memWrite_other _ _ _ _ (by omega),
        wrU32_read_other _ _ _ _ (by omega), memWrite_other _ _ _ _ (by omega)]
      exact hbeyond _ (by omega)
  · -- current region fits
    rw [if_neg hcap] at hrun
    have hfit : target.counter + sz ≤ target.size := by
      have hcap2 : target.capable sz = true := by
        revert hcap
        cases target.capable sz <;> simp
      unfold Region.capable at hcap2
      simp only [Bool.not_eq_true', decide_eq_false_iff_not] at hcap2
      omega
    have hcm := createMono_ok target h.mem kind sz hsz hfit hs5
    simp only [hcm] at hrun
    cases hrun
    refine ⟨rfl, hcnt, by show target.counter + sz ≤ REGION_SIZE; rw [← hsize]; exact hfit, ?_⟩
    intro i h1i hisz
    show wrU32 (memWrite h.mem (target.beginFrom + target.counter) kind)
        target.beginFrom (target.counter + sz) (target.beginFrom + target.counter + i) = 0
    rw [wrU32_read_other _ _ _ _ (by omega), memWrite_other _ _ _ _ (by omega)]
    have := htail (target.counter + i) (by omega) (by omega)
    rw [← Nat.add_assoc] at this
    exact this

theorem rdU32_zero (m : Mem) (a : Nat) (hz : ∀ j < 4, m (a + j) = 0) : rdU32 m a = 0 := by
  unfold rdU32
  have h0 : m a = 0 := by simpa using hz 0 (by omega)
  rw [h0, hz 1 (by omega), hz 2 (by omega), hz 3 (by omega)]

theorem rdU64_zero (m : Mem) (a : Nat) (hz : ∀ j < 8, m (a + j) = 0) : rdU64 m a = 0 := by
  unfold rdU64
  have h0 : m a = 0 := by simpa using hz 0 (by omega)
  rw [h0, hz 1 (by omega), hz 2 (by omega), hz 3 (by omega), hz 4 (by omega),
    hz 5 (by omega), hz 6 (by omega), hz 7 (by omega)]

/-- Payload bytes of a freshly allocated mono, indexed from `valueFrom`. -/
theorem allocate_fresh_value_bytes (h : Heap) (target : Region) (rest : List Region)
    (kind sz : Nat)
    (hl : h.allocRegions = target :: rest) (hsz : sizeFromKind kind = .ok sz)
    (hsize : target.size = REGION_SIZE) (hcnt : 5 ≤ target.counter)
    (htail : ∀ i, target.counter ≤ i → i < REGION_SIZE → h.mem (target.beginFrom + i) = 0)
    (hbeyond : ∀ a, h.contentCounter * REGION_SIZE ≤ a → h.mem a = 0)
    (mono : Mono) (h1 : Heap) (hrun : h.allocate kind = .ok (mono, h1)) :
    5 ≤ mono.beginFrom ∧ mono.beginFrom + sz ≤ REGION_SIZE ∧
    (∀ j, j + 1 < sz → h1.mem (mono.regionBegin + mono.valueFrom + j) = 0) := by
  obtain ⟨-, h5, hbd, hz⟩ :=
    allocate_fresh_bytes h target rest kind sz hl hsz hsize hcnt htail hbeyond mono h1 hrun
  refine ⟨h5, hbd, ?_⟩
  intro j hj
  have heq : mono.regionBegin + mono.valueFrom + j = mono.regionBegin + mono.beginFrom + (1 + j) := by
    unfold Mono.valueFrom
    omega
  rw [heq]
  exact hz (1 + j) (by omega) (by omega)

theorem jsNumEq_self (bits : Nat) (hn : isNaNBits bits = false) : jsNumEq bits bits = true := by
  unfold jsNumEq
  rw [hn]
  simp

theorem falsy_not_nan (bits : Nat) (ht : jsTruthyNum bits = false)
    (hn : isNaNBits bits = false) : bits = 0 ∨ bits = 9223372036854775808 := by
  unfold jsTruthyNum at ht
  simp [hn] at ht
  by_cases h0 : bits = 0
  · left; exact h0
  · right; exact ht h0

/-- C5, amended: the allocator scalar shortcuts round-trip for `INT32` on
every representable value (the falsy value `0` skips the write but the
fresh mono's payload bytes are zero, which reads back as `0`), and for
`FLOAT64` on every non-NaN value up to JS `==` (the falsy patterns `+0`/
`-0` skip the write and read back as `+0`, which `==`-equals both).  The
original claim fails only at `v = NaN` (see the counterexample). -/
theorem c5_scalar_roundtrip (h : Heap) (target : Region) (rest : List Region)
    (hl : h.allocRegions = target :: rest)
    (hsize : target.size = REGION_SIZE) (hcnt : 5 ≤ target.counter)
    (htail : ∀ i, target.counter ≤ i → i < REGION_SIZE → h.mem (target.beginFrom + i) = 0)
    (hbeyond : ∀ a, h.contentCounter * REGION_SIZE ≤ a → h.mem a = 0) :
    (∀ (v : Int), -2147483648 ≤ v → v < 2147483648 →
      ∀ mono h1, h.allocInt32 v = .ok (mono, h1) →
        wrappedInt32Read h1.mem mono = .ok v) ∧
    (∀ (bits : Nat), bits < 18446744073709551616 → isNaNBits bits = false →
      ∀ mono h1, h.allocFloat64 bits = .ok (mono, h1) →
        wrappedFloat64Read h1.mem mono = .ok (if jsTruthyNum bits then bits else 0) ∧
        jsNumEq (if jsTruthyNum bits then bits else 0) bits = true) := by
  constructor
  · intro v hlo hhi mono h1 hrun
    unfold Heap.allocInt32 at hrun
    cases halloc : h.allocate MONO_INT32 with
    | error e => simp only [halloc] at hrun; cases hrun
    | ok p =>
      obtain ⟨mono0, h0⟩ := p
      simp only [halloc] at hrun
      obtain ⟨hbf5, hbfs, hzero⟩ :=
        allocate_fresh_value_bytes h target rest MONO_INT32 5 hl rfl hsize hcnt htail hbeyond
          mono0 h0 halloc
      by_cases hv : v ≠ 0
      · rw [if_pos hv] at hrun
        rw [writeInt32_ok _ _ _ _ _
          (by show mono0.valueFrom + 4 ≤ REGION_SIZE; unfold Mono.valueFrom; omega)] at hrun
        cases hrun
        unfold wrappedInt32Read
        rw [readInt32_ok _ _ _ _ (by unfold Mono.valueFrom; omega)]
        rw [rdU32_wrU32]
        exact congrArg Except.ok (int32_pattern_round v hlo hhi)
      · rw [if_neg hv] at hrun
        cases hrun
        push_neg at hv
        unfold wrappedInt32Read
        rw [readInt32_ok _ _ _ _ (by unfold Mono.valueFrom; omega)]
        rw [rdU32_zero _ _ (fun j hj => hzero j (by omega))]
        rw [hv]
        norm_num
  · intro bits hlt hnan mono h1 hrun
    unfold Heap.allocFloat64 at hrun
    cases halloc : h.allocate MONO_FLOAT64 with
    | error e => simp only [halloc] at hrun; cases hrun
    | ok p =>
      obtain ⟨mono0, h0⟩ := p
      simp only [halloc] at hrun
      obtain ⟨hbf5, hbfs, hzero⟩ :=
        allocate_fresh_value_bytes h target rest MONO_FLOAT64 9 hl rfl hsize hcnt htail hbeyond
          mono0 h0 halloc
      by_cases ht : jsTruthyNum bits = true
      · rw [ht] at hrun
        rw [if_pos rfl] at hrun
        rw [writeFloat64_ok _ _ _ _ _
          (by show mono0.valueFrom + 8 ≤ REGION_SIZE; unfold Mono.valueFrom; omega)] at hrun
        cases hrun
        rw [ht, if_pos rfl]
        constructor
        · unfold wrappedFloat64Read
          rw [readFloat64_ok _ _ _ _ (by unfold Mono.valueFrom; omega)]
          rw [rdU64_wrU64, Nat.mod_eq_of_lt hlt]
        · exact jsNumEq_self bits hnan
      · rw [Bool.not_eq_true] at ht
        rw [ht] at hrun
        rw [if_neg (show ¬ (false = true) by simp)] at hrun
        cases hrun
        rw [ht, if_neg (show ¬ (false = true) by simp)]
        constructor
        · unfold wrappedFloat64Read
          rw [readFloat64_ok _ _ _ _ (by unfold Mono.valueFrom; omega)]
          rw [rdU64_zero _ _ (fun j hj => hzero j (by omega))]
        · rcases falsy_not_nan bits ht hnan with h0 | h0 <;> rw [h0] <;> decide

/-- `allocator.int32(v).read()`. -/
def allocThenReadInt32 (h : Heap) (v : Int) : Except JErr Int :=
  match h.allocInt32 v with
  | .error e => .error e
  | .ok (mono, h1) => wrappedInt32Read h1.mem mono

/-- `allocator.float64(v).read()` at the bit-pattern level. -/
def allocThenReadFloat64 (h : Heap) (bits : Nat) : Except JErr Nat :=
  match h.allocFloat64 bits with
  | .error e => .error e
  | .ok (mono, h1) => wrappedFloat64Read h1.mem mono

/-- Every byte of the fresh heap beyond the initialized region-0 header is 0. -/
theorem init_mem_high (j : Nat) (hj : 5 ≤ j) : Heap.init.mem j = 0 := by
  show (mkRegion zeroMem 0 REGION_SIZE).2 j = 0
  rw [(mkRegion_fresh zeroMem 0 REGION_SIZE (fun i _ => rfl)).1]
  show wrU32 (memWrite zeroMem (0 + 4) REGION_EDEN) 0 5 j = 0
  rw [wrU32_read_other _ _ _ _ (by omega), memWrite_other _ _ _ _ (by omega)]
  rfl

/-- C5, counterexample: `v = NaN` is representable in FLOAT64 but falsy, so
`allocator.float64(NaN)` skips the write; reading back yields `+0.0`
(pattern 0), and `0 == NaN` is false in JS, refuting
`allocator.K(v).read() == v` as stated. -/
theorem c5_nan_counterexample :
    isNaNBits 9221120237041090560 = true ∧
    allocThenReadFloat64 Heap.init 9221120237041090560 = .ok 0 ∧
    jsNumEq 0 9221120237041090560 = false := by
  refine ⟨by decide, ?_, by decide⟩
  rfl

/-- C5 witness: round-trips on the fresh heap for `int32(-1025)`, the falsy
`int32(0)`, and `float64(2.0)` (pattern `0x4000000000000000`). -/
theorem c5_scalar_roundtrip_witness :
    allocThenReadInt32 Heap.init (-1025) = .ok (-1025) ∧
    allocThenReadInt32 Heap.init 0 = .ok 0 ∧
    allocThenReadFloat64 Heap.init 4611686018427387904 = .ok 4611686018427387904 := by
  have hc := c5_scalar_roundtrip Heap.init ⟨0, REGION_SIZE, 5, REGION_EDEN⟩ [] rfl rfl
    (le_refl 5)
    (fun i h1 _ => by simpa using init_mem_high i h1)
    (fun a ha => init_mem_high a
      (le_trans (by norm_num) (show (1024000 : Nat) ≤ a from ha)))
  refine ⟨?_, ?_, ?_⟩
  · obtain ⟨mono, h1, heq⟩ :
        ∃ mono h1, Heap.init.allocInt32 (-1025) = .ok (mono, h1) := ⟨_, _, rfl⟩
    have hval := hc.1 (-1025) (by decide) (by decide) mono h1 heq
    simp only [allocThenReadInt32, heq]
    exact hval
  · obtain ⟨mono, h1, heq⟩ :
        ∃ mono h1, Heap.init.allocInt32 0 = .ok (mono, h1) := ⟨_, _, rfl⟩
    have hval := hc.1 0 (by decide) (by decide) mono h1 heq
    simp only [allocThenReadInt32, heq]
    exact hval
  · obtain ⟨mono, h1, heq⟩ :
        ∃ mono h1, Heap.init.allocFloat64 4611686018427387904 = .ok (mono, h1) := ⟨_, _, rfl⟩
    have hval := (hc.2 4611686018427387904 (by decide) (by decide) mono h1 heq).1
    simp only [allocThenReadFloat64, heq]
    exact hval

/-! ## Claim C3 — GC usage classification (src/gc.js 155-175) -/

/-- One pair of GC usage buckets (`byKinds.young` or `byKinds.old`),
modelled by base-address membership. -/
structure Buckets where
  lessThan60 : Nat → Bool
  lessThan40 : Nat → Bool

def emptyBuckets : Buckets := ⟨fun _ => false, fun _ => false⟩

/-- `GC.prototype.updateUsage` (src/gc.js:155-175).  The source computes
`ratio = region.counter/REGION_SIZE` and files the region under
`byKind.lessThan60` when `ratio < 0.4`, else under `byKind.lessThan40`
(inserting into `category` and deleting from `opposite`).  For integer
counters in `[0, REGION_SIZE]` the float test `ratio < 0.4` is exactly
`counter < 409600` (`0.4 * 1024000 = 409600`; the quotient's rounding error
is orders of magnitude below the distance to the double nearest `0.4`).
NOTE: gc.js references a bare `REGION_SIZE`, which is unbound in that module
(a `ReferenceError` under Node); we model the intended
`Consts.REGION_SIZE`. -/
def updateUsage (bk : Buckets) (r : Region) : Buckets :=
  if r.counter < 409600 then
    -- category = byKind.lessThan60, opposite = byKind.lessThan40 (sic, swapped)
    { lessThan60 := fun b => if b = r.beginFrom then true else bk.lessThan60 b,
      lessThan40 := fun b => if b = r.beginFrom then false else bk.lessThan40 b }
  else
    -- category = byKind.lessThan40, opposite = byKind.lessThan60
    { lessThan40 := fun b => if b = r.beginFrom then true else bk.lessThan40 b,
      lessThan60 := fun b => if b = r.beginFrom then false else bk.lessThan60 b }

/-- C3 (code bug): `updateUsage` files a region with ratio far below 40%
(counter 5, ≈ 0.0005%) under the `lessThan60` bucket and removes it from
`lessThan40`, while a region at 90% occupancy (counter 921600) lands in
`lessThan40` — the two bucket assignments are swapped relative to the claim
and to the buckets' own names. -/
theorem c3_updateUsage_buckets_swapped :
    (updateUsage emptyBuckets ⟨0, REGION_SIZE, 5, REGION_EDEN⟩).lessThan60 0 = true ∧
    (updateUsage emptyBuckets ⟨0, REGION_SIZE, 5, REGION_EDEN⟩).lessThan40 0 = false ∧
    (updateUsage emptyBuckets ⟨0, REGION_SIZE, 921600, REGION_EDEN⟩).lessThan40 0 = true ∧
    (updateUsage emptyBuckets ⟨0, REGION_SIZE, 921600, REGION_EDEN⟩).lessThan60 0 = false := by
  refine ⟨rfl, rfl, rfl, rfl⟩

/-! ## Claim C2 — minor-GC pair compaction (src/gc.js 131-150, 62-109) -/

/-- Modelled from the spec: `content_clone_to(dest_buffer, dest_offset)` is
"memcpy of `[5, counter)` into `dest_buffer[dest_offset..]` without touching
the destination's header" (spec §4.2).  `Region.prototype.contentCloneTo`
is called by `GC.prototype.mergeRegions` (src/gc.js:139-141) but its
definition is missing from src/.  In the flat-memory model the destination
buffer is addressed by its region base. -/
def contentCloneTo (m : Mem) (src : Region) (destBase destOffset : Nat) : Mem :=
  fun a =>
    if destBase + destOffset ≤ a ∧ a < destBase + destOffset + (src.counter - 5) then
      m (src.beginFrom + 5 + (a - (destBase + destOffset)))
    else m a

/-- `GC.prototype.mergeRegions` (src/gc.js:131-150): obtain a fresh region,
clone both sources' payloads into it, set and persist the merged counter
`counter_a + counter_b − REGION_HEAD_SIZE`, and record the rebase table
entries `A.base ↦ R_new.base` and `B.base ↦ R_new.base + A.counter`.
The table is a finite map modelled as a function (later assignment wins,
as for a JS object). -/
def mergeRegions (h : Heap) (mergedNewBase : Nat → Option Nat)
    (lessThan40 lessThan60 : Region) :
    Except JErr (Region × (Nat → Option Nat) × Heap) :=
  match h.createRegion with
  | .error e => .error e
  | .ok (newRegion, h1) =>
    match writeUint32
        (contentCloneTo
          (contentCloneTo h1.mem lessThan40 newRegion.beginFrom REGION_HEAD_SIZE)
          lessThan60 newRegion.beginFrom lessThan40.counter)
        newRegion.beginFrom newRegion.size 0
        (lessThan40.counter + lessThan60.counter - REGION_HEAD_SIZE) with
    | .error e => .error e
    | .ok m3 =>
      .ok ({ newRegion with
              counter := lessThan40.counter + lessThan60.counter - REGION_HEAD_SIZE },
        fun b =>
          if b = lessThan60.beginFrom then some (newRegion.beginFrom + lessThan40.counter)
          else if b = lessThan40.beginFrom then some newRegion.beginFrom
          else mergedNewBase b,
        { h1 with mem := m3 })

/-- Modelled from the spec: the relocation formula of
`GC.prototype.rewriteAddress` (src/gc.js:62-109).  The helpers
`heap.heapAddress(p)`, `.regionBase()` and `.relocate(newBase)` it uses are
missing from src/; spec §4.7 prescribes `(old_base, offset) = split(p)` and
`p' = rebase_table[old_base] + offset`, leaving `p` unchanged when
`old_base` is not in the table. -/
def rewritePointer (table : Nat → Option Nat) (p : Nat) : Nat :=
  match table (p / REGION_SIZE * REGION_SIZE) with
  | some newBase => newBase + (p - p / REGION_SIZE * REGION_SIZE)
  | none => p

/-- Pre-merge state: regions 1 and 2 each hold one INT32 mono at offset 5
(counter 10), headers initialized, exactly as `createRegion` + `createMono`
lay them out. -/
def gcPreMem : Mem :=
  wrU32 (memWrite (memWrite (wrU32 (memWrite (memWrite Heap.init.mem
    1024004 REGION_EDEN) 1024005 MONO_INT32) 1024000 10)
    2048004 REGION_EDEN) 2048005 MONO_INT32) 2048000 10

def gcPreHeap : Heap := ⟨gcPreMem, 3, []⟩

def gcRegionA : Region := ⟨1024000, REGION_SIZE, 10, REGION_EDEN⟩

def gcRegionB : Region := ⟨2048000, REGION_SIZE, 10, REGION_EDEN⟩

/-- C2 (code bug, with spec-modelled `contentCloneTo`/relocation): merging
A (counter 10) and B (counter 10) into the fresh region R at base 3072000
records `B.base ↦ R.base + A.counter = R.base + 10`, not
`R.base + payload_a = R.base + 5` as the claim states; the clone of B's
first mono header actually lands at `R.base + 10`, so the rewrite of the
pointer `p = B.base + 5` produces `R.base + 15` — five bytes past the
relocated header — whereas the claim's table entry would send it exactly to
the header. -/
theorem c2_rebase_table_off_by_five :
    ∃ rNew table h',
      mergeRegions gcPreHeap (fun _ => none) gcRegionA gcRegionB = .ok (rNew, table, h') ∧
      rNew.beginFrom = 3072000 ∧ gcRegionA.counter = 10 ∧
      table gcRegionB.beginFrom = some (3072000 + 10) ∧
      table gcRegionB.beginFrom ≠ some (3072000 + (gcRegionA.counter - 5)) ∧
      h'.mem (3072000 + 10) = MONO_INT32 ∧
      rewritePointer table (gcRegionB.beginFrom + 5) = 3072000 + 15 ∧
      h'.mem (3072000 + 15) ≠ MONO_INT32 ∧
      3072000 + (gcRegionA.counter - 5) + (gcRegionB.beginFrom + 5 - gcRegionB.beginFrom) =
        3072000 + 10 := by
  obtain ⟨rNew, table, h', heq⟩ :
      ∃ rNew table h', mergeRegions gcPreHeap (fun _ => none) gcRegionA gcRegionB =
        .ok (rNew, table, h') := ⟨_, _, _, rfl⟩
  refine ⟨rNew, table, h', heq, ?_, rfl, ?_, ?_, ?_, ?_, ?_, by decide⟩
  · have h1 : (mergeRegions gcPreHeap (fun _ => none) gcRegionA gcRegionB).map
        (fun t => t.1.beginFrom) = .ok 3072000 := rfl
    rw [heq] at h1
    simp only [Except.map, Except.ok.injEq] at h1
    exact h1
  · have h1 : (mergeRegions gcPreHeap (fun _ => none) gcRegionA gcRegionB).map
        (fun t => t.2.1 gcRegionB.beginFrom) = .ok (some 3072010) := rfl
    rw [heq] at h1
    simp only [Except.map, Except.ok.injEq] at h1
    exact h1
  · have h1 : (mergeRegions gcPreHeap (fun _ => none) gcRegionA gcRegionB).map
        (fun t => t.2.1 gcRegionB.beginFrom) = .ok (some 3072010) := rfl
    rw [heq] at h1
    simp only [Except.map, Except.ok.injEq] at h1
    rw [h1]
    decide
  · have h1 : (mergeRegions gcPreHeap (fun _ => none) gcRegionA gcRegionB).map
        (fun t => t.2.2.mem (3072000 + 10)) = .ok MONO_INT32 := rfl
    rw [heq] at h1
    simp only [Except.map, Except.ok.injEq] at h1
    exact h1
  · have h2 : (mergeRegions gcPreHeap (fun _ => none) gcRegionA gcRegionB).map
        (fun t => t.2.1 ((gcRegionB.beginFrom + 5) / REGION_SIZE * REGION_SIZE)) =
        .ok (some 3072010) := rfl
    rw [heq] at h2
    simp only [Except.map, Except.ok.injEq] at h2
    unfold rewritePointer
    rw [h2]
    decide
  · have h1 : (mergeRegions gcPreHeap (fun _ => none) gcRegionA gcRegionB).map
        (fun t => t.2.2.mem (3072000 + 15)) = .ok 0 := rfl
    rw [heq] at h1
    simp only [Except.map, Except.ok.injEq] at h1
    rw [h1]
    decide

/-! ## Wrappers: chunks and arrays (wrappers module bundled with src/testGC.js) -/

/-- A chunk-shaped view: `WrappedChunk`, or `WrappedArray` calling the chunk
methods with itself as receiver.  The fields cache exactly what the JS
constructors compute from the underlying mono. -/
structure ChunkView where
  regionBegin : Nat
  monoBegin : Nat
  elementsFrom : Nat
  atChunkLength : Nat
  atToNext : Nat
  deriving Repr, DecidableEq

/-- `new WrappedChunk(mono)`: chunk length byte at `valueFrom`, elements
from `valueFrom + 1`, next pointer at `endAt − 3` where
`endAt = beginFrom + sizeFromKind(kind) − 1` (the `Mono` constructor already
validated the kind, so the `.error` arm below is unreachable). -/
def chunkViewOfMono (mn : Mono) : ChunkView :=
  ⟨mn.regionBegin, mn.beginFrom, mn.beginFrom + 2, mn.beginFrom + 1,
   mn.beginFrom + (match sizeFromKind mn.kind with | .ok s => s | .error _ => 0) - 1 - 3⟩

/-- `new WrappedArray(mono)` (mono size 42): length u32 at `valueFrom`,
default-chunk length byte at `valueFrom + 4`, elements from `valueFrom + 5`,
next pointer at `endAt − 3 = beginFrom + 38`. -/
structure ArrayView where
  regionBegin : Nat
  monoBegin : Nat
  deriving Repr, DecidableEq

def arrayViewOfMono (mn : Mono) : ArrayView := ⟨mn.regionBegin, mn.beginFrom⟩

/-- The chunk-shaped view the array methods use on themselves
(`WrappedChunk.prototype.*.apply(this, ...)`). -/
def ArrayView.chunkView (av : ArrayView) : ChunkView :=
  ⟨av.regionBegin, av.monoBegin, av.monoBegin + 6, av.monoBegin + 5, av.monoBegin + 38⟩

def readChunkLength (m : Mem) (cv : ChunkView) : Except JErr Nat :=
  readUint8 m cv.regionBegin REGION_SIZE cv.atChunkLength

def writeChunkLength (m : Mem) (cv : ChunkView) (len : Nat) : Except JErr Mem :=
  writeUint8 m cv.regionBegin REGION_SIZE cv.atChunkLength len

/-- `WrappedChunk.prototype.addressFromIndex`. -/
def addressFromIndex (cv : ChunkView) (idx : Nat) : Nat := cv.elementsFrom + idx * 4

/-- `WrappedChunk.prototype.isChunkFull`. -/
def isChunkFull (m : Mem) (cv : ChunkView) : Except JErr Bool :=
  match readChunkLength m cv with
  | .error e => .error e
  | .ok len => .ok (decide (len + 1 > MONO_CHUNK_SIZE))

/-- `WrappedChunk.prototype.chunkAppend`: on a full chunk return `false`
without writing; otherwise store the element's header heap address at slot
`length` and bump the length byte. -/
def chunkAppend (m : Mem) (cv : ChunkView) (w : Mono) : Except JErr (Mem × Bool) :=
  match isChunkFull m cv with
  | .error e => .error e
  | .ok true => .ok (m, false)
  | .ok false =>
    match readChunkLength m cv with
    | .error e => .error e
    | .ok len =>
      match writeAddress m cv.regionBegin REGION_SIZE (addressFromIndex cv len)
          w.heapAddress with
      | .error e => .error e
      | .ok m1 =>
        match writeChunkLength m1 cv (len + 1) with
        | .error e => .error e
        | .ok m2 => .ok (m2, true)

/-- `WrappedChunk.prototype.setChunkNext`. -/
def setChunkNext (m : Mem) (cv : ChunkView) (heapAddress : Nat) : Except JErr Mem :=
  writeAddress m cv.regionBegin REGION_SIZE cv.atToNext heapAddress

/-- `WrappedChunk.prototype.fetchNextChunk`: a zero next-address means not
connected (`false`, here `none`). -/
def fetchNextChunk (h : Heap) (cv : ChunkView) : Except JErr (Option ChunkView × Heap) :=
  match readAddress h.mem cv.regionBegin REGION_SIZE cv.atToNext with
  | .error e => .error e
  | .ok nextChunkAddress =>
    if nextChunkAddress = 0 then .ok (none, h)
    else
      match h.fetchMono nextChunkAddress with
      | .error e => .error e
      | .ok (mn, h1) => .ok (some (chunkViewOfMono mn), h1)

/-- `WrappedChunk.prototype.chunkIndex`: read the stored slot address and
fetch the mono from the heap — note there is *no* check of `idxChunk`
against the chunk's stored length. -/
def chunkIndex (h : Heap) (cv : ChunkView) (idxChunk : Nat) : Except JErr (Mono × Heap) :=
  match readAddress h.mem cv.regionBegin REGION_SIZE (addressFromIndex cv idxChunk) with
  | .error e => .error e
  | .ok monoAddress => h.fetchMono monoAddress

/-- The loop of `WrappedArray.prototype.findChunk`: walk `steps` next
pointers; stopping at a missing link returns the last valid chunk paired
with `none` (`[validChunk, false]`). -/
def findChunkLoop (h : Heap) (validChunk : ChunkView) (steps : Nat) :
    Except JErr ((ChunkView × Option ChunkView) × Heap) :=
  match steps with
  | 0 => .ok ((validChunk, some validChunk), h)
  | steps' + 1 =>
    match fetchNextChunk h validChunk with
    | .error e => .error e
    | .ok (none, h1) => .ok ((validChunk, none), h1)
    | .ok (some next, h1) => findChunkLoop h1 next steps'

/-- `WrappedArray.prototype.findChunk`: the target chunk id is
`idx / MONO_CHUNK_SIZE >> 0`; id 0 is the array's own embedded chunk. -/
def ArrayView.findChunk (h : Heap) (av : ArrayView) (idx : Nat) :
    Except JErr ((ChunkView × Option ChunkView) × Heap) :=
  findChunkLoop h av.chunkView (idx / MONO_CHUNK_SIZE)

/-- `WrappedArray.prototype.readLength` / `writeLength` (u32 at `valueFrom`). -/
def ArrayView.readLength (m : Mem) (av : ArrayView) : Except JErr Nat :=
  readUint32 m av.regionBegin REGION_SIZE (av.monoBegin + 1)

def ArrayView.writeLength (m : Mem) (av : ArrayView) (len : Nat) : Except JErr Mem :=
  writeUint32 m av.regionBegin REGION_SIZE (av.monoBegin + 1) len

/-- The `latestChunk === false || latestChunk.isChunkFull()` arm of
`append`: allocate a chunk through the allocator and link it from the last
valid chunk. -/
def appendNewChunk (h : Heap) (latestValidChunk : ChunkView) :
    Except JErr (ChunkView × Heap) :=
  match h.allocate MONO_CHUNK_S8 with
  | .error e => .error e
  | .ok (newMono, h1) =>
    match setChunkNext h1.mem latestValidChunk newMono.heapAddress with
    | .error e => .error e
    | .ok m2 => .ok (chunkViewOfMono newMono, { h1 with mem := m2 })

def appendResolveTarget (h : Heap) (latestValidChunk : ChunkView)
    (latestChunkOpt : Option ChunkView) : Except JErr (ChunkView × Heap) :=
  match latestChunkOpt with
  | some latest =>
    match isChunkFull h.mem latest with
    | .error e => .error e
    | .ok false => .ok (latest, h)
    | .ok true => appendNewChunk h latestValidChunk
  | none => appendNewChunk h latestValidChunk

/-- `WrappedArray.prototype.append`: find the chunk for slot `length`,
allocating and linking a fresh chunk when it is absent or full, append the
element's address there (the JS ignores `chunkAppend`'s boolean), and store
`length + 1`. -/
def ArrayView.append (h : Heap) (av : ArrayView) (w : Mono) : Except JErr Heap :=
  match av.readLength h.mem with
  | .error e => .error e
  | .ok length =>
    match av.findChunk h length with
    | .error e => .error e
    | .ok ((latestValidChunk, latestChunkOpt), h1) =>
      match appendResolveTarget h1 latestValidChunk latestChunkOpt with
      | .error e => .error e
      | .ok (latest, h2) =>
        match chunkAppend h2.mem latest w with
        | .error e => .error e
        | .ok (m3, _) =>
          match av.writeLength m3 (length + 1) with
          | .error e => .error e
          | .ok m4 => .ok { h2 with mem := m4 }

/-- `WrappedArray.prototype.index`: the OUT_OF_RANGE check against the
array length lives here, then the walk plus `chunkIndex (idx % 8)`. -/
def ArrayView.index (h : Heap) (av : ArrayView) (idx : Nat) : Except JErr (Mono × Heap) :=
  match av.readLength h.mem with
  | .error e => .error e
  | .ok length =>
    if idx ≥ length then .error .indexOutOfRange
    else
      match av.findChunk h idx with
      | .error e => .error e
      | .ok ((_, latestChunkOpt), h1) =>
        match latestChunkOpt with
        | none => .error .cannotFindChunk
        | some latestChunk => chunkIndex h1 latestChunk (idx % MONO_CHUNK_SIZE)

/-! ## More codec frame lemmas -/

theorem rdU32_memWrite_other (m : Mem) (i v a : Nat) (h : i < a ∨ a + 4 ≤ i) :
    rdU32 (memWrite m i v) a = rdU32 m a := by
  unfold rdU32
  rw [memWrite_other _ _ _ _ (by omega), memWrite_other _ _ _ _ (by omega),
    memWrite_other _ _ _ _ (by omega), memWrite_other _ _ _ _ (by omega)]

theorem rdU32_wrU32_other (m : Mem) (aw v a : Nat) (h : a + 4 ≤ aw ∨ aw + 4 ≤ a) :
    rdU32 (wrU32 m aw v) a = rdU32 m a := by
  unfold rdU32
  rw [wrU32_read_other _ _ _ _ (by omega), wrU32_read_other _ _ _ _ (by omega),
    wrU32_read_other _ _ _ _ (by omega), wrU32_read_other _ _ _ _ (by omega)]

/-! ## Claim C7 -/

/-- C7, counterexample: on a freshly allocated `CHUNK_S8` (stored length 0),
`chunkIndex 0` — with `0 ≥ length` — does *not* fail with an out-of-range
error: it reads the (zero) slot address and fails inside
`heap.fetch_mono(0)` with the wrong-mono-kind error instead. -/
theorem c7_chunkIndex_counterexample :
    ∃ mono h1, Heap.init.allocate MONO_CHUNK_S8 = .ok (mono, h1) ∧
      readChunkLength h1.mem (chunkViewOfMono mono) = .ok 0 ∧
      chunkIndex h1 (chunkViewOfMono mono) 0 = .error .wrongMonoKind ∧
      JErr.wrongMonoKind ≠ JErr.indexOutOfRange ∧
      JErr.wrongMonoKind ≠ JErr.readOutOfRange := by
  obtain ⟨mono, h1, heq⟩ :
      ∃ mono h1, Heap.init.allocate MONO_CHUNK_S8 = .ok (mono, h1) := ⟨_, _, rfl⟩
  refine ⟨mono, h1, heq, ?_, ?_, by decide, by decide⟩
  · have h2 : (Heap.init.allocate MONO_CHUNK_S8).map
        (fun p => readChunkLength p.2.mem (chunkViewOfMono p.1)) = .ok (.ok 0) := rfl
    rw [heq] at h2
    simp only [Except.map, Except.ok.injEq] at h2
    exact h2
  · have h2 : (Heap.init.allocate MONO_CHUNK_S8).map
        (fun p => chunkIndex p.2 (chunkViewOfMono p.1) 0) =
        .ok (.error .wrongMonoKind) := rfl
    rw [heq] at h2
    simp only [Except.map, Except.ok.injEq] at h2
    exact h2

/-- C7, amended: the chunk-level `chunkIndex(i)` performs *no* bounds check
against the chunk's stored length — for every `i` whose slot read is inside
the region (also every `i ≥ length`) it reads the stored 4-byte address at
slot `i` and returns `heap.fetch_mono` of it; the OUT_OF_RANGE failure for
an index at or above the length exists only at the array level
(`WrappedArray.index`).  After `chunkAppend` of a mono `w` at length `len`,
slot `len` stores `w.heapAddress` and the stored length becomes `len + 1`. -/
theorem c7_chunkIndex_no_bounds_check :
    (∀ (h : Heap) (cv : ChunkView) (i : Nat), addressFromIndex cv i + 4 ≤ REGION_SIZE →
      chunkIndex h cv i =
        h.fetchMono (rdU32 h.mem (cv.regionBegin + addressFromIndex cv i))) ∧
    (∀ (h : Heap) (av : ArrayView) (idx len : Nat), av.readLength h.mem = .ok len →
      len ≤ idx → av.index h idx = .error .indexOutOfRange) ∧
    (∀ (m : Mem) (mn w : Mono) (len : Nat),
      readChunkLength m (chunkViewOfMono mn) = .ok len → len < 8 →
      addressFromIndex (chunkViewOfMono mn) len + 4 ≤ REGION_SIZE →
      ∃ m2, chunkAppend m (chunkViewOfMono mn) w = .ok (m2, true) ∧
        rdU32 m2 ((chunkViewOfMono mn).regionBegin +
          addressFromIndex (chunkViewOfMono mn) len) = w.heapAddress % 4294967296 ∧
        readChunkLength m2 (chunkViewOfMono mn) = .ok ((len + 1) % 256)) := by
  refine ⟨?_, ?_, ?_⟩
  · intro h cv i hb
    unfold chunkIndex readAddress
    rw [readUint32_ok _ _ _ _ hb]
  · intro h av idx len hlen hge
    unfold ArrayView.index
    rw [hlen]
    simp only []
    rw [if_pos (by omega)]
  · intro m mn w len hlen hlt hb
    have hnotfull : isChunkFull m (chunkViewOfMono mn) = .ok false := by
      unfold isChunkFull
      rw [hlen]
      simp only [Except.ok.injEq]
      rw [decide_eq_false_iff_not]
      unfold MONO_CHUNK_SIZE
      omega
    have hb' : mn.beginFrom + 2 + len * 4 + 4 ≤ REGION_SIZE := hb
    have hbl : (chunkViewOfMono mn).atChunkLength + 1 ≤ REGION_SIZE := by
      show mn.beginFrom + 1 + 1 ≤ REGION_SIZE
      omega
    have happ : chunkAppend m (chunkViewOfMono mn) w = .ok
        (memWrite
          (wrU32 m ((chunkViewOfMono mn).regionBegin +
            addressFromIndex (chunkViewOfMono mn) len) w.heapAddress)
          ((chunkViewOfMono mn).regionBegin + (chunkViewOfMono mn).atChunkLength)
          (len + 1), true) := by
      unfold chunkAppend writeAddress writeChunkLength
      simp only [hnotfull, hlen,
        writeUint32_ok m (chunkViewOfMono mn).regionBegin REGION_SIZE
          (addressFromIndex (chunkViewOfMono mn) len) w.heapAddress hb,
        writeUint8_ok
          (wrU32 m ((chunkViewOfMono mn).regionBegin +
            addressFromIndex (chunkViewOfMono mn) len) w.heapAddress)
          (chunkViewOfMono mn).regionBegin REGION_SIZE
          (chunkViewOfMono mn).atChunkLength (len + 1) hbl]
    refine ⟨_, happ, ?_, ?_⟩
    · rw [rdU32_memWrite_other _ _ _ _ (Or.inl (show
        (chunkViewOfMono mn).regionBegin + (chunkViewOfMono mn).atChunkLength <
          (chunkViewOfMono mn).regionBegin + addressFromIndex (chunkViewOfMono mn) len from by
        show mn.regionBegin + (mn.beginFrom + 1) <
          mn.regionBegin + (mn.beginFrom + 2 + len * 4)
        omega))]
      rw [rdU32_wrU32]
    · unfold readChunkLength
      rw [readUint8_ok _ _ _ _ (by
        show (chunkViewOfMono mn).atChunkLength ≤ REGION_SIZE
        omega)]
      rw [memWrite_same]

/-- C7 witness: the amended facts at concrete inputs — `chunkIndex 2` on
the array-embedded chunk shape at region 0, `array.index 0` failing
out-of-range on a fresh empty array, and a `chunkAppend` at length 0. -/
theorem c7_chunkIndex_no_bounds_check_witness :
    (chunkIndex Heap.init ⟨0, 5, 7, 6, 39⟩ 2 =
      Heap.init.fetchMono (rdU32 Heap.init.mem (0 + addressFromIndex ⟨0, 5, 7, 6, 39⟩ 2))) ∧
    (ArrayView.index Heap.init ⟨0, 5⟩ 0 = .error .indexOutOfRange) ∧
    (∃ m2, chunkAppend Heap.init.mem (chunkViewOfMono ⟨0, MONO_CHUNK_S8, 5⟩)
        ⟨0, MONO_INT32, 47⟩ = .ok (m2, true) ∧
      rdU32 m2 ((chunkViewOfMono ⟨0, MONO_CHUNK_S8, 5⟩).regionBegin +
        addressFromIndex (chunkViewOfMono ⟨0, MONO_CHUNK_S8, 5⟩) 0) = 47 % 4294967296 ∧
      readChunkLength m2 (chunkViewOfMono ⟨0, MONO_CHUNK_S8, 5⟩) = .ok ((0 + 1) % 256)) := by
  refine ⟨?_, ?_, ?_⟩
  · exact c7_chunkIndex_no_bounds_check.1 Heap.init ⟨0, 5, 7, 6, 39⟩ 2 (by decide)
  · exact c7_chunkIndex_no_bounds_check.2.1 Heap.init ⟨0, 5⟩ 0 0 rfl (le_refl 0)
  · exact c7_chunkIndex_no_bounds_check.2.2 Heap.init.mem ⟨0, MONO_CHUNK_S8, 5⟩
      ⟨0, MONO_INT32, 47⟩ 0 (by show readUint8 _ _ _ _ = _; rfl) (by decide) (by decide)

/-! ## Heap well-formedness

Every state reachable through the modelled flows satisfies `WF`: the
allocator's region list (current region at the head) is made of distinct,
aligned regions with initialized, persisted headers; unoccupied bytes are
zero.  These are the facts the chunked-array proofs need. -/

def sumCounters (h : Heap) : Nat := (h.allocRegions.map Region.counter).sum

/-- `p` lies inside the already-allocated prefix of some allocator region. -/
def covered (h : Heap) (p : Nat) : Prop :=
  ∃ r ∈ h.allocRegions, r.beginFrom ≤ p ∧ p < r.beginFrom + r.counter

structure WF (h : Heap) : Prop where
  size_eq : ∀ r ∈ h.allocRegions, r.size = REGION_SIZE
  aligned : ∀ r ∈ h.allocRegions, ∃ i, i < h.contentCounter ∧ r.beginFrom = i * REGION_SIZE
  counter_lo : ∀ r ∈ h.allocRegions, 5 ≤ r.counter
  counter_hi : ∀ r ∈ h.allocRegions, r.counter ≤ REGION_SIZE
  nodup : (h.allocRegions.map Region.beginFrom).Nodup
  head_max : ∀ hd rest, h.allocRegions = hd :: rest →
    ∀ r ∈ rest, r.beginFrom < hd.beginFrom
  cc_le : h.contentCounter ≤ NUMBER_REGIONS + 1
  len_le : h.allocRegions.length ≤ h.contentCounter
  counter_sync : ∀ r ∈ h.allocRegions, rdU32 h.mem r.beginFrom = r.counter
  kind_nz : ∀ r ∈ h.allocRegions, h.mem (r.beginFrom + 4) ≠ 0
  zero_tail : ∀ r ∈ h.allocRegions, ∀ i, r.counter ≤ i → i < REGION_SIZE →
    h.mem (r.beginFrom + i) = 0
  zero_beyond : ∀ a, h.contentCounter * REGION_SIZE ≤ a → h.mem a = 0

theorem block_disjoint (i j p q : Nat) (hne : i ≠ j)
    (hp : p < REGION_SIZE) (hq : q < REGION_SIZE) :
    i * REGION_SIZE + p ≠ j * REGION_SIZE + q := by
  unfold REGION_SIZE at *
  omega

theorem sumCounters_le (h : Heap) (hwf : WF h) :
    sumCounters h ≤ (NUMBER_REGIONS + 1) * REGION_SIZE := by
  have hlen := hwf.len_le.trans hwf.cc_le
  have : ∀ l : List Region, (∀ r ∈ l, r.counter ≤ REGION_SIZE) →
      (l.map Region.counter).sum ≤ l.length * REGION_SIZE := by
    intro l
    induction l with
    | nil => intro _; simp
    | cons x xs ih =>
      intro hall
      simp only [List.map_cons, List.sum_cons, List.length_cons]
      have h1 := hall x (by simp)
      have h2 := ih (fun r hr => hall r (by simp [hr]))
      calc x.counter + (xs.map Region.counter).sum
          ≤ REGION_SIZE + xs.length * REGION_SIZE := by omega
        _ = (xs.length + 1) * REGION_SIZE := by ring
  calc sumCounters h ≤ h.allocRegions.length * REGION_SIZE :=
        this h.allocRegions hwf.counter_hi
    _ ≤ (NUMBER_REGIONS + 1) * REGION_SIZE := by
        exact Nat.mul_le_mul_right _ hlen

/-- The fresh heap is well-formed. -/
theorem WF_init : WF Heap.init := by
  have hmem : ∀ j, 5 ≤ j → Heap.init.mem j = 0 := init_mem_high
  have hreg : Heap.init.allocRegions = [⟨0, REGION_SIZE, 5, REGION_EDEN⟩] := by
    show [(mkRegion zeroMem 0 REGION_SIZE).1] = _
    rw [(mkRegion_fresh zeroMem 0 REGION_SIZE (fun _ _ => rfl)).1]
  have hone : ∀ (r : Region), r ∈ Heap.init.allocRegions →
      r = ⟨0, REGION_SIZE, 5, REGION_EDEN⟩ := by
    intro r hr
    rw [hreg] at hr
    exact List.mem_singleton.mp hr
  refine ⟨?_, ?_, ?_, ?_, ?_, ?_, ?_, ?_, ?_, ?_, ?_, ?_⟩
  · intro r hr
    rw [hone r hr]
  · intro r hr
    refine ⟨0, by show 0 < 1; omega, by rw [hone r hr]; show (0 : Nat) = 0 * REGION_SIZE; omega⟩
  · intro r hr
    rw [hone r hr]
  · intro r hr
    rw [hone r hr]
    show (5 : Nat) ≤ REGION_SIZE
    unfold REGION_SIZE
    omega
  · rw [hreg]
    simp
  · intro hd rest hl r hr
    rw [hreg] at hl
    cases hl
    cases hr
  · show (1 : Nat) ≤ NUMBER_REGIONS + 1
    unfold NUMBER_REGIONS
    omega
  · rw [hreg]
    show (1 : Nat) ≤ 1
    omega
  · intro r hr
    rw [hone r hr]
    show rdU32 Heap.init.mem 0 = 5
    decide
  · intro r hr
    rw [hone r hr]
    show Heap.init.mem (0 + 4) ≠ 0
    decide
  · intro r hr i h1 h2
    rw [hone r hr] at h1 ⊢
    show Heap.init.mem (0 + i) = 0
    have : (0 : Nat) + i = i := by omega
    rw [this]
    exact hmem i h1
  · intro a ha
    have h1 : (1024000 : Nat) ≤ a := ha
    exact hmem a (by omega)


theorem WF.same_base {h : Heap} (hwf : WF h) {r s : Region}
    (hr : r ∈ h.allocRegions) (hs : s ∈ h.allocRegions)
    (heq : r.beginFrom = s.beginFrom) : r = s :=
  List.inj_on_of_nodup_map hwf.nodup hr hs heq

/-- A payload position (region offset in `[5, counter)`) is distinct from
every header position (offset < 5) and every unallocated position
(offset ≥ counter) of every allocator region, and from every byte past the
frontier. -/
theorem payload_pos_classify (h : Heap) (hwf : WF h) (r : Region)
    (hrmem : r ∈ h.allocRegions) (off : Nat) (hoff5 : 5 ≤ off) (hoffc : off < r.counter) :
    (∀ s ∈ h.allocRegions, ∀ k, (k < 5 ∨ s.counter ≤ k) → k < REGION_SIZE →
      r.beginFrom + off ≠ s.beginFrom + k) ∧
    (∀ s ∈ h.allocRegions, s ≠ r → ∀ k, k < REGION_SIZE →
      r.beginFrom + off ≠ s.beginFrom + k) ∧
    (∀ a, h.contentCounter * REGION_SIZE ≤ a → r.beginFrom + off ≠ a) ∧
    (∀ s ∈ h.allocRegions, s ≠ r →
      r.beginFrom + off < s.beginFrom ∨ s.beginFrom + REGION_SIZE ≤ r.beginFrom + off) := by
  obtain ⟨i, hicc, hibase⟩ := hwf.aligned r hrmem
  have hrc := hwf.counter_hi r hrmem
  have hdiffblocks : ∀ s ∈ h.allocRegions, s ≠ r →
      r.beginFrom + off < s.beginFrom ∨ s.beginFrom + REGION_SIZE ≤ r.beginFrom + off := by
    intro s hsmem hsne
    obtain ⟨j, hjcc, hjbase⟩ := hwf.aligned s hsmem
    have hne : j ≠ i := by
      intro hji
      exact hsne (hwf.same_base hsmem hrmem (by rw [hjbase, hibase, hji]))
    rw [hibase, hjbase]
    unfold REGION_SIZE at *
    rcases Nat.lt_or_ge j i with hj | hj
    · right
      have : j + 1 ≤ i := hj
      calc j * 1024000 + 1024000 = (j + 1) * 1024000 := by ring
        _ ≤ i * 1024000 := Nat.mul_le_mul_right _ this
        _ ≤ i * 1024000 + off := by omega
    · left
      have : i + 1 ≤ j := by omega
      calc i * 1024000 + off < i * 1024000 + 1024000 := by omega
        _ = (i + 1) * 1024000 := by ring
        _ ≤ j * 1024000 := Nat.mul_le_mul_right _ this
  refine ⟨?_, ?_, ?_, hdiffblocks⟩
  · intro s hsmem k hk hkR
    by_cases hsr : s = r
    · subst hsr
      intro hcontra
      have : off = k := by omega
      omega
    · have := hdiffblocks s hsmem hsr
      omega
  · intro s hsmem hsne k hkR
    have := hdiffblocks s hsmem hsne
    omega
  · intro a ha
    have : r.beginFrom + off < h.contentCounter * REGION_SIZE := by
      rw [hibase]
      have : i + 1 ≤ h.contentCounter := hicc
      calc i * REGION_SIZE + off < i * REGION_SIZE + REGION_SIZE := by
            unfold REGION_SIZE at *; omega
        _ = (i + 1) * REGION_SIZE := by ring
        _ ≤ h.contentCounter * REGION_SIZE := Nat.mul_le_mul_right _ this
    omega

/-- Writing one byte strictly inside the allocated payload area of some
allocator region (offset in `[5, counter)`) preserves `WF`. -/
theorem WF_memWrite (h : Heap) (hwf : WF h) (r : Region)
    (hrmem : r ∈ h.allocRegions) (off v : Nat)
    (hoff5 : 5 ≤ off) (hoffc : off < r.counter) :
    WF { h with mem := memWrite h.mem (r.beginFrom + off) v } := by
  obtain ⟨hclass1, -, hclass3, -⟩ := payload_pos_classify h hwf r hrmem off hoff5 hoffc
  have hrc := hwf.counter_hi r hrmem
  refine ⟨hwf.size_eq, hwf.aligned, hwf.counter_lo, hwf.counter_hi, hwf.nodup,
    hwf.head_max, hwf.cc_le, hwf.len_le, ?_, ?_, ?_, ?_⟩
  · intro s hsmem
    show rdU32 (memWrite h.mem (r.beginFrom + off) v) s.beginFrom = s.counter
    have hs5 := hwf.counter_lo s hsmem
    have hsc := hwf.counter_hi s hsmem
    unfold rdU32
    have e0 := hclass1 s hsmem 0 (by omega) (by unfold REGION_SIZE; omega)
    have e1 := hclass1 s hsmem 1 (by omega) (by unfold REGION_SIZE; omega)
    have e2 := hclass1 s hsmem 2 (by omega) (by unfold REGION_SIZE; omega)
    have e3 := hclass1 s hsmem 3 (by omega) (by unfold REGION_SIZE; omega)
    rw [show s.beginFrom + 1 = s.beginFrom + 1 from rfl]
    rw [memWrite_other _ _ _ _ (by omega),
      memWrite_other _ _ _ _ (fun hx => e1 (by omega)),
      memWrite_other _ _ _ _ (fun hx => e2 (by omega)),
      memWrite_other _ _ _ _ (fun hx => e3 (by omega))]
    exact hwf.counter_sync s hsmem
  · intro s hsmem
    show memWrite h.mem (r.beginFrom + off) v (s.beginFrom + 4) ≠ 0
    rw [memWrite_other _ _ _ _
      (fun hx => hclass1 s hsmem 4 (by omega) (by unfold REGION_SIZE; omega) (by omega))]
    exact hwf.kind_nz s hsmem
  · intro s hsmem k h1 h2
    show memWrite h.mem (r.beginFrom + off) v (s.beginFrom + k) = 0
    rw [memWrite_other _ _ _ _ (fun hx => hclass1 s hsmem k (by omega) h2 (by omega))]
    exact hwf.zero_tail s hsmem k h1 h2
  · intro a ha
    show memWrite h.mem (r.beginFrom + off) v a = 0
    rw [memWrite_other _ _ _ _ (fun hx => hclass3 a ha (by omega))]
    exact hwf.zero_beyond a ha

theorem WF_wrU32 (h : Heap) (hwf : WF h) (r : Region)
    (hrmem : r ∈ h.allocRegions) (off v : Nat)
    (hoff5 : 5 ≤ off) (hoffc : off + 4 ≤ r.counter) :
    WF { h with mem := wrU32 h.mem (r.beginFrom + off) v } := by
  have s0 := WF_memWrite h hwf r hrmem off (v % 4294967296 / 16777216) hoff5 (by omega)
  have s1 := WF_memWrite _ s0 r hrmem (off + 1) (v % 4294967296 / 65536) (by omega) (by omega)
  have s2 := WF_memWrite _ s1 r hrmem (off + 2) (v % 4294967296 / 256) (by omega) (by omega)
  have s3 := WF_memWrite _ s2 r hrmem (off + 3) (v % 4294967296) (by omega) (by omega)
  exact s3

theorem base_separation (h : Heap) (hwf : WF h) (r s : Region)
    (hr : r ∈ h.allocRegions) (hs : s ∈ h.allocRegions) (hne : r ≠ s) :
    r.beginFrom + REGION_SIZE ≤ s.beginFrom ∨ s.beginFrom + REGION_SIZE ≤ r.beginFrom := by
  obtain ⟨i, hicc, hibase⟩ := hwf.aligned r hr
  obtain ⟨j, hjcc, hjbase⟩ := hwf.aligned s hs
  have hij : i ≠ j := by
    intro hcontra
    exact hne (hwf.same_base hr hs (by rw [hibase, hjbase, hcontra]))
  rw [hibase, hjbase]
  unfold REGION_SIZE
  rcases Nat.lt_or_ge i j with hlt | hge
  · left
    have : i + 1 ≤ j := hlt
    calc i * 1024000 + 1024000 = (i + 1) * 1024000 := by ring
      _ ≤ j * 1024000 := Nat.mul_le_mul_right _ this
  · right
    have : j + 1 ≤ i := by omega
    calc j * 1024000 + 1024000 = (j + 1) * 1024000 := by ring
      _ ≤ i * 1024000 := Nat.mul_le_mul_right _ this


/-- `p` is a payload position: at offset ≥ 5 inside the allocated prefix of
some allocator region. -/
def goodPos (h : Heap) (p : Nat) : Prop :=
  ∃ s ∈ h.allocRegions, s.beginFrom + 5 ≤ p ∧ p < s.beginFrom + s.counter

theorem rdU32_congr (m1 m2 : Mem) (a : Nat)
    (h : ∀ p, a ≤ p → p < a + 4 → m1 p = m2 p) : rdU32 m1 a = rdU32 m2 a := by
  unfold rdU32
  rw [h a (by omega) (by omega), h (a + 1) (by omega) (by omega),
    h (a + 2) (by omega) (by omega), h (a + 3) (by omega) (by omega)]

/-- Everything a successful `Allocator.allocate` guarantees over a
well-formed heap. -/
structure AllocOut (h : Heap) (target : Region) (rest : List Region)
    (kind sz : Nat) (mono : Mono) (h' : Heap) : Prop where
  wf : WF h'
  kind_eq : mono.kind = kind
  lo : 5 ≤ mono.beginFrom
  hi : mono.beginFrom + sz ≤ REGION_SIZE
  shape : ∃ r', r'.beginFrom = mono.regionBegin ∧ r'.counter = mono.beginFrom + sz ∧
    r'.size = REGION_SIZE ∧
    ((h'.allocRegions = r' :: rest ∧ h'.contentCounter = h.contentCounter ∧
       mono.regionBegin = target.beginFrom ∧ mono.beginFrom = target.counter) ∨
     (h'.allocRegions = r' :: target :: rest ∧ h'.contentCounter = h.contentCounter + 1 ∧
       mono.regionBegin = h.contentCounter * REGION_SIZE ∧ mono.beginFrom = 5))
  sum_ge : sumCounters h + sz ≤ sumCounters h'
  frame : ∀ p, goodPos h p → h'.mem p = h.mem p
  good_mono : ∀ p, goodPos h p → goodPos h' p
  below : ∀ p, goodPos h p → p < mono.regionBegin + mono.beginFrom
  mono_good : ∀ i, i < sz → goodPos h' (mono.regionBegin + mono.beginFrom + i)
  payload_zero : ∀ i, 1 ≤ i → i < sz → h'.mem (mono.regionBegin + mono.beginFrom + i) = 0
  header_byte : h'.mem (mono.regionBegin + mono.beginFrom) = kind % 256

theorem allocate_spec (h : Heap) (target : Region) (rest : List Region)
    (kind sz : Nat) (hwf : WF h)
    (hl : h.allocRegions = target :: rest) (hsz : sizeFromKind kind = .ok sz)
    (mono : Mono) (h' : Heap) (hrun : h.allocate kind = .ok (mono, h')) :
    AllocOut h target rest kind sz mono h' := by
  obtain ⟨hs5, hs73⟩ := sizeFromKind_bounds kind sz hsz
  have htmem : target ∈ h.allocRegions := by
    rw [hl]; exact List.mem_cons_self _ _
  have hrestmem : ∀ s ∈ rest, s ∈ h.allocRegions := by
    intro s hs
    rw [hl]; exact List.mem_cons_of_mem _ hs
  have htsize := hwf.size_eq target htmem
  have htlo := hwf.counter_lo target htmem
  have hthi := hwf.counter_hi target htmem
  obtain ⟨ti, ticc, tibase⟩ := hwf.aligned target htmem
  unfold Heap.allocate at hrun
  simp only [hsz, hl] at hrun
  by_cases hcap : (!target.capable sz) = true
  · -- ROLL: fresh region at the frontier
    rw [if_pos hcap] at hrun
    by_cases hfull : h.contentCounter ≥ NUMBER_REGIONS + 1
    · have hcr : h.createRegion = .error .oom := by
        unfold Heap.createRegion
        rw [if_pos hfull]
      simp only [hcr] at hrun
      cases hrun
    · have hzb : ∀ i < 5, h.mem (h.contentCounter * REGION_SIZE + i) = 0 := by
        intro i _
        exact hwf.zero_beyond _ (by omega)
      have hcr := createRegion_fresh h (by omega) hzb
      simp only [hcr] at hrun
      have hcm := createMono_ok ⟨h.contentCounter * REGION_SIZE, REGION_SIZE, 5, REGION_EDEN⟩
        (wrU32 (memWrite h.mem (h.contentCounter * REGION_SIZE + 4) REGION_EDEN)
          (h.contentCounter * REGION_SIZE) 5) kind sz hsz
        (by show 5 + sz ≤ REGION_SIZE; unfold REGION_SIZE; omega) hs5
      simp only [hcm] at hrun
      cases hrun
      have hB : ∀ s ∈ h.allocRegions,
          s.beginFrom + REGION_SIZE ≤ h.contentCounter * REGION_SIZE := by
        intro s hs
        obtain ⟨j, hjcc, hjb⟩ := hwf.aligned s hs
        rw [hjb]
        have hj1 : j + 1 ≤ h.contentCounter := hjcc
        calc j * REGION_SIZE + REGION_SIZE = (j + 1) * REGION_SIZE := by ring
          _ ≤ h.contentCounter * REGION_SIZE := Nat.mul_le_mul_right _ hj1
      have hwrites_other : ∀ p, p < h.contentCounter * REGION_SIZE →
          (wrU32 (memWrite (wrU32 (memWrite h.mem (h.contentCounter * REGION_SIZE + 4) REGION_EDEN)
            (h.contentCounter * REGION_SIZE) 5) (h.contentCounter * REGION_SIZE + 5) kind)
            (h.contentCounter * REGION_SIZE) (5 + sz)) p = h.mem p := by
        intro p hp
        rw [wrU32_read_other _ _ _ _ (by omega), memWrite_other _ _ _ _ (by omega),
          wrU32_read_other _ _ _ _ (by omega), memWrite_other _ _ _ _ (by omega)]
      have hgood_lt : ∀ p, goodPos h p → p < h.contentCounter * REGION_SIZE := by
        intro p hp
        obtain ⟨s, hsmem, hp1, hp2⟩ := hp
        have hc := hwf.counter_hi s hsmem
        have := hB s hsmem
        omega
      refine ⟨?_, rfl, Nat.le_refl 5,
        by show 5 + sz ≤ REGION_SIZE; unfold REGION_SIZE; omega,
        ?_, ?_, ?_, ?_, ?_, ?_, ?_, ?_⟩
      · -- WF of the rolled state
        refine ⟨?_, ?_, ?_, ?_, ?_, ?_, ?_, ?_, ?_, ?_, ?_, ?_⟩
        · intro s hs
          rcases List.mem_cons.mp hs with rfl | hs
          · rfl
          · exact hwf.size_eq s (by rw [hl]; exact hs)
        · intro s hs
          rcases List.mem_cons.mp hs with rfl | hs
          · exact ⟨h.contentCounter, Nat.lt_succ_self _, rfl⟩
          · obtain ⟨j, hjcc, hjb⟩ := hwf.aligned s (by rw [hl]; exact hs)
            exact ⟨j, Nat.lt_succ_of_lt hjcc, hjb⟩
        · intro s hs
          rcases List.mem_cons.mp hs with rfl | hs
          · show 5 ≤ 5 + sz
            omega
          · exact hwf.counter_lo s (by rw [hl]; exact hs)
        · intro s hs
          rcases List.mem_cons.mp hs with rfl | hs
          · show 5 + sz ≤ REGION_SIZE
            unfold REGION_SIZE
            omega
          · exact hwf.counter_hi s (by rw [hl]; exact hs)
        · show (List.map Region.beginFrom (_ :: target :: rest)).Nodup
          rw [List.map_cons, List.nodup_cons]
          constructor
          · intro hcontra
            rw [List.mem_map] at hcontra
            obtain ⟨s, hsmem, hsb⟩ := hcontra
            have hBs := hB s (by rw [hl]; exact hsmem)
            simp only [] at hsb
            rw [hsb] at hBs
            unfold REGION_SIZE at hBs
            omega
          · have := hwf.nodup
            rw [hl] at this
            exact this
        · intro hd rest2 hleq s hs
          simp only [] at hleq
          cases hleq
          have hBs := hB s (by rw [hl]; exact hs)
          show s.beginFrom < h.contentCounter * REGION_SIZE
          unfold REGION_SIZE at hBs ⊢
          omega
        · show h.contentCounter + 1 ≤ NUMBER_REGIONS + 1
          omega
        · have := hwf.len_le
          rw [hl] at this
          simp only [List.length_cons] at this ⊢
          omega
        · intro s hs
          rcases List.mem_cons.mp hs with rfl | hs
          · show rdU32 (wrU32 (memWrite (wrU32 (memWrite h.mem
                (h.contentCounter * REGION_SIZE + 4) REGION_EDEN)
                (h.contentCounter * REGION_SIZE) 5) (h.contentCounter * REGION_SIZE + 5) kind)
                (h.contentCounter * REGION_SIZE) (5 + sz)) (h.contentCounter * REGION_SIZE) = 5 + sz
            rw [rdU32_wrU32]
            omega
          · have hsmem2 : s ∈ h.allocRegions := by rw [hl]; exact hs
            have hsep := hB s hsmem2
            have key := rdU32_congr _ h.mem s.beginFrom
              (fun p h1 h2 => hwrites_other p (by unfold REGION_SIZE at *; omega))
            exact key.trans (hwf.counter_sync s hsmem2)
        · intro s hs
          rcases List.mem_cons.mp hs with rfl | hs
          · show (wrU32 (memWrite (wrU32 (memWrite h.mem
                (h.contentCounter * REGION_SIZE + 4) REGION_EDEN)
                (h.contentCounter * REGION_SIZE) 5) (h.contentCounter * REGION_SIZE + 5) kind)
                (h.contentCounter * REGION_SIZE) (5 + sz)) (h.contentCounter * REGION_SIZE + 4) ≠ 0
            rw [wrU32_read_other _ _ _ _ (by omega), memWrite_other _ _ _ _ (by omega),
              wrU32_read_other _ _ _ _ (by omega), memWrite_same]
            unfold REGION_EDEN
            omega
          · have hsmem2 : s ∈ h.allocRegions := by rw [hl]; exact hs
            have hsep := hB s hsmem2
            exact ne_of_eq_of_ne
              (hwrites_other _ (by unfold REGION_SIZE at *; omega))
              (hwf.kind_nz s hsmem2)
        · intro s hs k h1 h2
          rcases List.mem_cons.mp hs with rfl | hs
          · have h1' : 5 + sz ≤ k := h1
            show (wrU32 (memWrite (wrU32 (memWrite h.mem
                (h.contentCounter * REGION_SIZE + 4) REGION_EDEN)
                (h.contentCounter * REGION_SIZE) 5) (h.contentCounter * REGION_SIZE + 5) kind)
                (h.contentCounter * REGION_SIZE) (5 + sz)) (h.contentCounter * REGION_SIZE + k) = 0
            rw [wrU32_read_other _ _ _ _ (by omega), memWrite_other _ _ _ _ (by omega),
              wrU32_read_other _ _ _ _ (by omega), memWrite_other _ _ _ _ (by omega)]
            exact hwf.zero_beyond _ (by omega)
          · have hsmem2 : s ∈ h.allocRegions := by rw [hl]; exact hs
            have hsep := hB s hsmem2
            exact (hwrites_other _ (by unfold REGION_SIZE at *; omega)).trans
              (hwf.zero_tail s hsmem2 k h1 h2)
        · intro a ha
          have ha' : (h.contentCounter + 1) * REGION_SIZE ≤ a := ha
          have hexp : (h.contentCounter + 1) * REGION_SIZE =
              h.contentCounter * REGION_SIZE + REGION_SIZE := by ring
          show (wrU32 (memWrite (wrU32 (memWrite h.mem
              (h.contentCounter * REGION_SIZE + 4) REGION_EDEN)
              (h.contentCounter * REGION_SIZE) 5) (h.contentCounter * REGION_SIZE + 5) kind)
              (h.contentCounter * REGION_SIZE) (5 + sz)) a = 0
          rw [wrU32_read_other _ _ _ _ (by unfold REGION_SIZE at *; omega),
            memWrite_other _ _ _ _ (by unfold REGION_SIZE at *; omega),
            wrU32_read_other _ _ _ _ (by unfold REGION_SIZE at *; omega),
            memWrite_other _ _ _ _ (by unfold REGION_SIZE at *; omega)]
          exact hwf.zero_beyond a (by omega)
      · exact ⟨⟨h.contentCounter * REGION_SIZE, REGION_SIZE, 5 + sz, REGION_EDEN⟩,
          rfl, rfl, rfl, Or.inr ⟨rfl, rfl, rfl, rfl⟩⟩
      · unfold sumCounters
        rw [hl]
        simp only [List.map_cons, List.sum_cons]
        omega
      · intro p hp
        exact hwrites_other p (hgood_lt p hp)
      · intro p hp
        obtain ⟨s, hsmem, hp1, hp2⟩ := hp
        rw [hl] at hsmem
        exact ⟨s, List.mem_cons_of_mem _ hsmem, hp1, hp2⟩
      · intro p hp
        have := hgood_lt p hp
        show p < h.contentCounter * REGION_SIZE + 5
        omega
      · intro i hi
        refine ⟨⟨h.contentCounter * REGION_SIZE, REGION_SIZE, 5 + sz, REGION_EDEN⟩,
          List.mem_cons_self _ _, ?_, ?_⟩
        · show h.contentCounter * REGION_SIZE + 5 ≤ h.contentCounter * REGION_SIZE + 5 + i
          omega
        · show h.contentCounter * REGION_SIZE + 5 + i <
            h.contentCounter * REGION_SIZE + (5 + sz)
          omega
      · intro i h1i hisz
        show (wrU32 (memWrite (wrU32 (memWrite h.mem
            (h.contentCounter * REGION_SIZE + 4) REGION_EDEN)
            (h.contentCounter * REGION_SIZE) 5) (h.contentCounter * REGION_SIZE + 5) kind)
            (h.contentCounter * REGION_SIZE) (5 + sz)) (h.contentCounter * REGION_SIZE + 5 + i) = 0
        rw [wrU32_read_other _ _ _ _ (by omega), memWrite_other _ _ _ _ (by omega),
          wrU32_read_other _ _ _ _ (by omega), memWrite_other _ _ _ _ (by omega)]
        exact hwf.zero_beyond _ (by omega)
      · show (wrU32 (memWrite (wrU32 (memWrite h.mem
          (h.contentCounter * REGION_SIZE + 4) REGION_EDEN)
          (h.contentCounter * REGION_SIZE) 5) (h.contentCounter * REGION_SIZE + 5) kind)
          (h.contentCounter * REGION_SIZE) (5 + sz)) (h.contentCounter * REGION_SIZE + 5) = kind % 256
        rw [wrU32_read_other _ _ _ _ (by omega), memWrite_same]
  · -- FITS: bump the current region
    rw [if_neg hcap] at hrun
    have hfit : target.counter + sz ≤ target.size := by
      have hcap2 : target.capable sz = true := by
        revert hcap
        cases target.capable sz <;> simp
      unfold Region.capable at hcap2
      simp only [Bool.not_eq_true', decide_eq_false_iff_not] at hcap2
      omega
    have hfitR : target.counter + sz ≤ REGION_SIZE := by rw [← htsize]; exact hfit
    have hcm := createMono_ok target h.mem kind sz hsz hfit hs5
    simp only [hcm] at hrun
    cases hrun
    have hwrites_other : ∀ p, (p < target.beginFrom ∨
        (target.beginFrom + 4 ≤ p ∧ p ≠ target.beginFrom + target.counter)) →
        (wrU32 (memWrite h.mem (target.beginFrom + target.counter) kind)
          target.beginFrom (target.counter + sz)) p = h.mem p := by
      intro p hp
      rw [wrU32_read_other _ _ _ _ (by omega), memWrite_other _ _ _ _ (by omega)]
    have hsep : ∀ s ∈ rest, s.beginFrom + REGION_SIZE ≤ target.beginFrom ∨
        target.beginFrom + REGION_SIZE ≤ s.beginFrom := by
      intro s hs
      have hlt := hwf.head_max target rest hl s hs
      rcases base_separation h hwf s target (hrestmem s hs) htmem
        (by intro hc; rw [hc] at hlt; omega) with hx | hx
      · exact Or.inl hx
      · exact Or.inr hx
    have hgood_lt : ∀ p, goodPos h p → p < target.beginFrom + target.counter := by
      intro p hp
      obtain ⟨s, hsmem, hp1, hp2⟩ := hp
      rw [hl] at hsmem
      rcases List.mem_cons.mp hsmem with rfl | hs
      · omega
      · have hc := hwf.counter_hi s (hrestmem s hs)
        have hlt := hwf.head_max target rest hl s hs
        rcases hsep s hs with hx | hx
        · omega
        · omega
    refine ⟨?_, rfl, htlo, hfitR, ?_, ?_, ?_, ?_, hgood_lt, ?_, ?_, ?_⟩
    · -- WF of the bumped state
      refine ⟨?_, ?_, ?_, ?_, ?_, ?_, ?_, ?_, ?_, ?_, ?_, ?_⟩
      · intro s hs
        rcases List.mem_cons.mp hs with rfl | hs
        · exact htsize
        · exact hwf.size_eq s (hrestmem s hs)
      · intro s hs
        rcases List.mem_cons.mp hs with rfl | hs
        · exact ⟨ti, ticc, tibase⟩
        · exact hwf.aligned s (hrestmem s hs)
      · intro s hs
        rcases List.mem_cons.mp hs with rfl | hs
        · show 5 ≤ target.counter + sz
          omega
        · exact hwf.counter_lo s (hrestmem s hs)
      · intro s hs
        rcases List.mem_cons.mp hs with rfl | hs
        · exact hfitR
        · exact hwf.counter_hi s (hrestmem s hs)
      · have := hwf.nodup
        rw [hl] at this
        exact this
      · intro hd rest2 hleq s hs
        simp only [] at hleq
        cases hleq
        exact hwf.head_max target rest hl s hs
      · exact hwf.cc_le
      · have := hwf.len_le
        rw [hl] at this
        exact this
      · intro s hs
        rcases List.mem_cons.mp hs with rfl | hs
        · show rdU32 (wrU32 (memWrite h.mem (target.beginFrom + target.counter) kind)
              target.beginFrom (target.counter + sz)) target.beginFrom = target.counter + sz
          rw [rdU32_wrU32]
          have : target.counter + sz < 4294967296 := by
            unfold REGION_SIZE at hfitR
            omega
          omega
        · have hsmem2 := hrestmem s hs
          have hx := hsep s hs
          have hlt := hwf.head_max target rest hl s hs
          have key := rdU32_congr _ h.mem s.beginFrom
            (fun p h1 h2 => hwrites_other p (by unfold REGION_SIZE at *; omega))
          exact key.trans (hwf.counter_sync s hsmem2)
      · intro s hs
        rcases List.mem_cons.mp hs with rfl | hs
        · exact ne_of_eq_of_ne
            (hwrites_other (target.beginFrom + 4) (Or.inr ⟨by omega, by omega⟩))
            (hwf.kind_nz target htmem)
        · have hsmem2 := hrestmem s hs
          have hx := hsep s hs
          have hlt := hwf.head_max target rest hl s hs
          exact ne_of_eq_of_ne (hwrites_other _ (by unfold REGION_SIZE at *; omega))
            (hwf.kind_nz s hsmem2)
      · intro s hs k h1 h2
        rcases List.mem_cons.mp hs with rfl | hs
        · have h1' : target.counter + sz ≤ k := h1
          exact (hwrites_other (target.beginFrom + k) (Or.inr ⟨by omega, by omega⟩)).trans
            (hwf.zero_tail target htmem k (by omega) h2)
        · have hsmem2 := hrestmem s hs
          have hx := hsep s hs
          have hlt := hwf.head_max target rest hl s hs
          exact (hwrites_other _ (by unfold REGION_SIZE at *; omega)).trans
            (hwf.zero_tail s hsmem2 k h1 h2)
      · intro a ha
        have ha' : h.contentCounter * REGION_SIZE ≤ a := ha
        have hsepT : target.beginFrom + REGION_SIZE ≤ h.contentCounter * REGION_SIZE := by
          rw [tibase]
          have h1 : ti + 1 ≤ h.contentCounter := ticc
          calc ti * REGION_SIZE + REGION_SIZE = (ti + 1) * REGION_SIZE := by ring
            _ ≤ h.contentCounter * REGION_SIZE := Nat.mul_le_mul_right _ h1
        exact (hwrites_other _ (by unfold REGION_SIZE at *; omega)).trans
          (hwf.zero_beyond a ha')
    · exact ⟨⟨target.beginFrom, target.size, target.counter + sz, target.kind⟩,
        rfl, rfl, htsize, Or.inl ⟨rfl, rfl, rfl, rfl⟩⟩
    · unfold sumCounters
      rw [hl]
      simp only [List.map_cons, List.sum_cons]
      omega
    · intro p hp
      have hlt := hgood_lt p hp
      obtain ⟨s, hsmem, hp1, hp2⟩ := hp
      rw [hl] at hsmem
      rcases List.mem_cons.mp hsmem with rfl | hs
      · exact hwrites_other p (Or.inr ⟨by omega, by omega⟩)
      · rcases hsep s hs with hx | hx
        · have hc := hwf.counter_hi s (hrestmem s hs)
          exact hwrites_other p (Or.inl (by omega))
        · have hlt2 := hwf.head_max target rest hl s hs
          omega
    · intro p hp
      obtain ⟨s, hsmem, hp1, hp2⟩ := hp
      rw [hl] at hsmem
      rcases List.mem_cons.mp hsmem with heq | hs
      · refine ⟨⟨target.beginFrom, target.size, target.counter + sz, target.kind⟩,
          List.mem_cons_self _ _, ?_, ?_⟩
        · rw [heq] at hp1
          exact hp1
        · rw [heq] at hp2
          show p < target.beginFrom + (target.counter + sz)
          omega
      · exact ⟨s, List.mem_cons_of_mem _ hs, hp1, hp2⟩
    · intro i hi
      refine ⟨⟨target.beginFrom, target.size, target.counter + sz, target.kind⟩,
        List.mem_cons_self _ _, ?_, ?_⟩
      · show target.beginFrom + 5 ≤ target.beginFrom + target.counter + i
        omega
      · show target.beginFrom + target.counter + i < target.beginFrom + (target.counter + sz)
        omega
    · intro i h1i hisz
      refine (hwrites_other (target.beginFrom + target.counter + i)
        (Or.inr ⟨by omega, by omega⟩)).trans ?_
      have := hwf.zero_tail target htmem (target.counter + i) (by omega) (by omega)
      rw [← Nat.add_assoc] at this
      exact this
    · show (wrU32 (memWrite h.mem (target.beginFrom + target.counter) kind)
        target.beginFrom (target.counter + sz)) (target.beginFrom + target.counter) = kind % 256
      rw [wrU32_read_other _ _ _ _ (by omega), memWrite_same]

theorem goodPos_lt (h : Heap) (hwf : WF h) (p : Nat) (hp : goodPos h p) :
    p < h.contentCounter * REGION_SIZE := by
  obtain ⟨s, hs, h1, h2⟩ := hp
  obtain ⟨i, hicc, hib⟩ := hwf.aligned s hs
  have hc := hwf.counter_hi s hs
  have hle : (i + 1) * REGION_SIZE ≤ h.contentCounter * REGION_SIZE :=
    Nat.mul_le_mul_right _ (by omega)
  have hexp : (i + 1) * REGION_SIZE = i * REGION_SIZE + REGION_SIZE := by ring
  omega

theorem region_of_goodPos (h : Heap) (hwf : WF h) (j mb : Nat)
    (hmb : mb < REGION_SIZE)
    (hg : goodPos h (j * REGION_SIZE + mb)) :
    ∃ s ∈ h.allocRegions, s.beginFrom = j * REGION_SIZE ∧ mb < s.counter := by
  obtain ⟨s, hs, h1, h2⟩ := hg
  obtain ⟨i, hicc, hib⟩ := hwf.aligned s hs
  have hc := hwf.counter_hi s hs
  rw [hib] at h1 h2
  have hij : i = j := by
    rcases Nat.lt_trichotomy i j with hlt | heq | hlt
    · exfalso
      have hle : (i + 1) * REGION_SIZE ≤ j * REGION_SIZE :=
        Nat.mul_le_mul_right _ (by omega)
      have hexp : (i + 1) * REGION_SIZE = i * REGION_SIZE + REGION_SIZE := by ring
      omega
    · exact heq
    · exfalso
      have hle : (j + 1) * REGION_SIZE ≤ i * REGION_SIZE :=
        Nat.mul_le_mul_right _ (by omega)
      have hexp : (j + 1) * REGION_SIZE = j * REGION_SIZE + REGION_SIZE := by ring
      omega
  subst hij
  exact ⟨s, hs, hib, by omega⟩

/-- Over a well-formed heap, `fetchMono` at an initialized payload position
is pure: the region header is nonzero, so nothing is written, and the mono
descriptor mirrors (region base, stored kind byte, offset). -/
theorem fetchMono_pure (h : Heap) (hwf : WF h) (j mb kind sz : Nat)
    (hj : j ≤ NUMBER_REGIONS) (hmb : mb < REGION_SIZE)
    (hg : goodPos h (j * REGION_SIZE + mb))
    (hker : h.mem (j * REGION_SIZE + mb) = kind)
    (hsz : sizeFromKind kind = .ok sz) :
    h.fetchMono (j * REGION_SIZE + mb) = .ok (⟨j * REGION_SIZE, kind, mb⟩, h) := by
  unfold Heap.fetchMono
  have hdiv : (j * REGION_SIZE + mb) / REGION_SIZE = j := by
    unfold REGION_SIZE at *
    omega
  have hmod : (j * REGION_SIZE + mb) % REGION_SIZE = mb := by
    unfold REGION_SIZE at *
    omega
  rw [hdiv, hmod, if_neg (by omega)]
  obtain ⟨s, hs, hsb, hsc⟩ := region_of_goodPos h hwf j mb hmb hg
  have h4 : h.mem (j * REGION_SIZE + 4) ≠ 0 := by
    have := hwf.kind_nz s hs
    rw [hsb] at this
    exact this
  have h0 : rdU32 h.mem (j * REGION_SIZE) ≠ 0 := by
    have hlo := hwf.counter_lo s hs
    have hsync := hwf.counter_sync s hs
    rw [hsb] at hsync
    omega
  rw [mkRegion_inited h.mem (j * REGION_SIZE) REGION_SIZE h4 h0]
  simp only [hker]
  unfold mkMono
  simp only [hsz]

/-! ## Array chain invariant (wrappers)

A wrapped array is its 42-byte mono (whose embedded chunk holds the first 8
element addresses) plus a linked list of 38-byte CHUNK_S8 monos.  The
invariant below records, node by node, the stored chunk lengths, the next
pointers, and enough geometry and separation to run `append` and `index`
symbolically. -/

/-- Facts about one overflow chunk node: geometry of the cached offsets
(as `new WrappedChunk(mono)` computes them), in-region bounds, payload
positions, and the stored CHUNK_S8 header byte. -/
structure TailNode (h : Heap) (cv : ChunkView) : Prop where
  lo : 5 ≤ cv.monoBegin
  hi : cv.monoBegin + 38 ≤ REGION_SIZE
  ge : cv.elementsFrom = cv.monoBegin + 2
  gl : cv.atChunkLength = cv.monoBegin + 1
  gn : cv.atToNext = cv.monoBegin + 34
  aligned : ∃ j, j ≤ NUMBER_REGIONS ∧ cv.regionBegin = j * REGION_SIZE
  good : ∀ i, i < 38 → goodPos h (cv.regionBegin + cv.monoBegin + i)
  header : h.mem (cv.regionBegin + cv.monoBegin) = MONO_CHUNK_S8

/-- `linkChain h cv cvs`: from node `cv` the successive next pointers
traverse exactly the nodes of `cvs` and the last node's pointer is 0. -/
def linkChain (h : Heap) : ChunkView → List ChunkView → Prop
  | cv, [] => rdU32 h.mem (cv.regionBegin + cv.atToNext) = 0
  | cv, nxt :: rest =>
      rdU32 h.mem (cv.regionBegin + cv.atToNext) = nxt.regionBegin + nxt.monoBegin ∧
      TailNode h nxt ∧ linkChain h nxt rest

/-- Stored chunk-length bytes along the node list starting at logical node
index `i`: node `i` holds `min 8 (len − 8·i)` elements. -/
def chainCounts (h : Heap) (len : Nat) : Nat → List ChunkView → Prop
  | _, [] => True
  | i, cv :: rest =>
      h.mem (cv.regionBegin + cv.atChunkLength) = min 8 (len - 8 * i) ∧
      chainCounts h len (i + 1) rest

/-- Node spans in allocation order: each node's 38 bytes start at or after
`lastEnd`, the end of the previous span. -/
def spanOrder : Nat → List ChunkView → Prop
  | _, [] => True
  | lastEnd, cv :: rest =>
      lastEnd ≤ cv.regionBegin + cv.monoBegin ∧
      spanOrder (cv.regionBegin + cv.monoBegin + 38) rest

/-- The full structural invariant of a wrapped array of logical length
`len` whose overflow chunks are `tail` (in list order). -/
structure ArrInv (h : Heap) (av : ArrayView) (len : Nat) (tail : List ChunkView) : Prop where
  lo : 5 ≤ av.monoBegin
  hi : av.monoBegin + 42 ≤ REGION_SIZE
  aligned : ∃ j, j ≤ NUMBER_REGIONS ∧ av.regionBegin = j * REGION_SIZE
  good : ∀ i, i < 42 → goodPos h (av.regionBegin + av.monoBegin + i)
  header : h.mem (av.regionBegin + av.monoBegin) = MONO_ARRAY_S8
  len_stored : rdU32 h.mem (av.regionBegin + av.monoBegin + 1) = len
  links : linkChain h av.chunkView tail
  counts : chainCounts h len 0 (av.chunkView :: tail)
  order : spanOrder (av.regionBegin + av.monoBegin + 42) tail
  shape : len ≤ 8 * (tail.length + 1) ∧ (tail.length = 0 ∨ 8 * tail.length < len)

/-- Positions inside the array's own mono or one of its overflow chunks. -/
def inSpans (av : ArrayView) (tail : List ChunkView) (p : Nat) : Prop :=
  (av.regionBegin + av.monoBegin ≤ p ∧ p < av.regionBegin + av.monoBegin + 42) ∨
  ∃ cv ∈ tail, cv.regionBegin + cv.monoBegin ≤ p ∧ p < cv.regionBegin + cv.monoBegin + 38

theorem chunkViewOfMono_chunk (rb mb : Nat) :
    chunkViewOfMono ⟨rb, MONO_CHUNK_S8, mb⟩ =
      ⟨rb, mb, mb + 2, mb + 1, mb + 38 - 1 - 3⟩ := rfl

theorem chunkView_of_tailNode (h : Heap) (cv : ChunkView) (hT : TailNode h cv) :
    chunkViewOfMono ⟨cv.regionBegin, MONO_CHUNK_S8, cv.monoBegin⟩ = cv := by
  obtain ⟨rb, mb, e, l, n⟩ := cv
  have hge : e = mb + 2 := hT.ge
  have hgl : l = mb + 1 := hT.gl
  have hgn : n = mb + 34 := hT.gn
  show (⟨rb, mb, mb + 2, mb + 1, mb + 38 - 1 - 3⟩ : ChunkView) = ⟨rb, mb, e, l, n⟩
  simp only [ChunkView.mk.injEq]
  exact ⟨trivial, trivial, hge.symm, hgl.symm, by omega⟩

theorem linkChain_tailNodes (h : Heap) :
    ∀ (cvs : List ChunkView) (cv : ChunkView), linkChain h cv cvs →
      ∀ c ∈ cvs, TailNode h c := by
  intro cvs
  induction cvs with
  | nil =>
    intro cv _ c hc
    cases hc
  | cons nxt rest ih =>
    intro cv hl c hc
    obtain ⟨_, hT, hrest⟩ := hl
    rcases List.mem_cons.mp hc with rfl | hc2
    · exact hT
    · exact ih nxt hrest c hc2

theorem linkChain_last (h : Heap) :
    ∀ (cvs : List ChunkView) (cv : ChunkView), linkChain h cv cvs →
      rdU32 h.mem ((cvs.getLastD cv).regionBegin + (cvs.getLastD cv).atToNext) = 0 := by
  intro cvs
  induction cvs with
  | nil =>
    intro cv hl
    simpa using hl
  | cons nxt rest ih =>
    intro cv hl
    obtain ⟨_, _, hrest⟩ := hl
    rw [List.getLastD_cons]
    exact ih nxt hrest

theorem getLastD_mem :
    ∀ (cvs : List ChunkView) (d : ChunkView), cvs ≠ [] → cvs.getLastD d ∈ cvs := by
  intro cvs
  induction cvs with
  | nil =>
    intro d hd
    exact absurd rfl hd
  | cons a rest ih =>
    intro d _
    rw [List.getLastD_cons]
    cases hr : rest with
    | nil =>
      simp
    | cons b rest2 =>
      rw [← hr]
      exact List.mem_cons_of_mem _ (ih a (by rw [hr]; exact List.cons_ne_nil _ _))

theorem get?_length_getLastD :
    ∀ (cvs : List ChunkView) (cv : ChunkView),
      (cv :: cvs).get? cvs.length = some (cvs.getLastD cv) := by
  intro cvs
  induction cvs with
  | nil =>
    intro cv
    rfl
  | cons a rest ih =>
    intro cv
    rw [List.getLastD_cons]
    exact ih a

theorem chainCounts_get (h : Heap) (len : Nat) :
    ∀ (ns : List ChunkView) (i k : Nat) (cv' : ChunkView),
      chainCounts h len i ns → ns.get? k = some cv' →
      h.mem (cv'.regionBegin + cv'.atChunkLength) = min 8 (len - 8 * (i + k)) := by
  intro ns
  induction ns with
  | nil =>
    intro i k cv' _ hk
    cases hk
  | cons a rest ih =>
    intro i k cv' hc hk
    obtain ⟨ha, hrest⟩ := hc
    cases k with
    | zero =>
      cases hk
      simpa using ha
    | succ k' =>
      have := ih (i + 1) k' cv' hrest hk
      rw [this]
      congr 1
      omega

/-- Walking the chunk chain: with at most `|cvs|` steps the loop lands on
the `steps`-th node and reports it found; with exactly `|cvs| + 1` steps it
stops at the last node reporting `none`.  The heap is untouched (all the
`fetchMono` calls hit initialized regions). -/
theorem findChunkLoop_spec (h : Heap) (hwf : WF h) :
    ∀ (cvs : List ChunkView) (cv : ChunkView),
      linkChain h cv cvs → cv.atToNext + 4 ≤ REGION_SIZE →
      (∀ steps, steps ≤ cvs.length →
        ∃ tgt, (cv :: cvs).get? steps = some tgt ∧
          findChunkLoop h cv steps = .ok ((tgt, some tgt), h)) ∧
      findChunkLoop h cv (cvs.length + 1) = .ok ((cvs.getLastD cv, none), h) := by
  intro cvs
  induction cvs with
  | nil =>
    intro cv hl hbound
    have hnext : fetchNextChunk h cv = .ok (none, h) := by
      unfold fetchNextChunk readAddress readUint32
      rw [if_neg (by omega)]
      simp only [linkChain] at hl
      simp only [hl]
      rw [if_pos trivial]
    constructor
    · intro steps hsteps
      have hs0 : steps = 0 := by simpa using hsteps
      subst hs0
      exact ⟨cv, rfl, rfl⟩
    · show findChunkLoop h cv 1 = .ok ((cv, none), h)
      unfold findChunkLoop
      simp only [hnext]
  | cons nxt rest ih =>
    intro cv hl hbound
    obtain ⟨had, hT, hrest⟩ := hl
    obtain ⟨j, hj, hjb⟩ := hT.aligned
    have hnextlo := hT.lo
    have hnexthi := hT.hi
    have hgn := hT.gn
    have haddr_pos : ¬ nxt.regionBegin + nxt.monoBegin = 0 := by omega
    have hfm : h.fetchMono (nxt.regionBegin + nxt.monoBegin) =
        .ok (⟨nxt.regionBegin, MONO_CHUNK_S8, nxt.monoBegin⟩, h) := by
      have hg0 := hT.good 0 (by omega)
      rw [Nat.add_zero] at hg0
      have hker := hT.header
      rw [hjb] at hg0 hker ⊢
      exact fetchMono_pure h hwf j nxt.monoBegin MONO_CHUNK_S8 38 hj (by omega) hg0 hker rfl
    have hnext : fetchNextChunk h cv = .ok (some nxt, h) := by
      unfold fetchNextChunk readAddress readUint32
      rw [if_neg (by omega)]
      simp only [had]
      rw [if_neg haddr_pos]
      simp only [hfm]
      rw [chunkView_of_tailNode h nxt hT]
    have IH := ih nxt hrest (by omega)
    constructor
    · intro steps hsteps
      cases steps with
      | zero =>
        exact ⟨cv, rfl, rfl⟩
      | succ s =>
        have hs : s ≤ rest.length := by
          simp only [List.length_cons] at hsteps
          omega
        obtain ⟨tgt, hget, hrun⟩ := IH.1 s hs
        refine ⟨tgt, ?_, ?_⟩
        · rw [List.get?_cons_succ]
          exact hget
        · show findChunkLoop h cv (s + 1) = _
          unfold findChunkLoop
          simp only [hnext]
          exact hrun
    · show findChunkLoop h cv (rest.length + 1 + 1) = .ok (((nxt :: rest).getLastD cv, none), h)
      rw [List.getLastD_cons]
      unfold findChunkLoop
      simp only [hnext]
      exact IH.2

theorem WF_memWrite_goodPos (h : Heap) (hwf : WF h) (a v : Nat) (hg : goodPos h a) :
    WF { h with mem := memWrite h.mem a v } := by
  obtain ⟨s, hs, h1, h2⟩ := hg
  have heq : a = s.beginFrom + (a - s.beginFrom) := by omega
  rw [heq]
  exact WF_memWrite h hwf s hs (a - s.beginFrom) v (by omega) (by omega)

theorem WF_wrU32_goodPos (h : Heap) (hwf : WF h) (a v : Nat)
    (hg : goodPos h a) (hg3 : goodPos h (a + 3)) :
    WF { h with mem := wrU32 h.mem a v } := by
  obtain ⟨s, hs, h1, h2⟩ := hg
  obtain ⟨s', hs', h1', h2'⟩ := hg3
  obtain ⟨i, hicc, hib⟩ := hwf.aligned s hs
  obtain ⟨i', hicc', hib'⟩ := hwf.aligned s' hs'
  have hc := hwf.counter_hi s hs
  have hc' := hwf.counter_hi s' hs'
  rw [hib] at h1 h2
  rw [hib'] at h1' h2'
  have hii : i' = i := by
    rcases Nat.lt_trichotomy i' i with hlt | heq | hlt
    · exfalso
      have hle : (i' + 1) * REGION_SIZE ≤ i * REGION_SIZE :=
        Nat.mul_le_mul_right _ (by omega)
      have hexp : (i' + 1) * REGION_SIZE = i' * REGION_SIZE + REGION_SIZE := by ring
      omega
    · exact heq
    · exfalso
      have hle : (i + 1) * REGION_SIZE ≤ i' * REGION_SIZE :=
        Nat.mul_le_mul_right _ (by omega)
      have hexp : (i + 1) * REGION_SIZE = i * REGION_SIZE + REGION_SIZE := by ring
      omega
  have hss : s' = s := hwf.same_base hs' hs (by rw [hib', hib, hii])
  subst hss
  have heq : a = s'.beginFrom + (a - s'.beginFrom) := by rw [hib']; omega
  rw [heq]
  refine WF_wrU32 h hwf s' hs' (a - s'.beginFrom) v ?_ ?_
  · rw [hib']
    omega
  · rw [hib']
    omega

theorem spanOrder_last_lb :
    ∀ (cvs : List ChunkView) (e : Nat) (d : ChunkView), spanOrder e cvs → cvs ≠ [] →
      e + 38 * (cvs.length - 1) ≤
        (cvs.getLastD d).regionBegin + (cvs.getLastD d).monoBegin := by
  intro cvs
  induction cvs with
  | nil =>
    intro e d _ hne
    exact absurd rfl hne
  | cons a rest ih =>
    intro e d hso _
    obtain ⟨h1, h2⟩ := hso
    rw [List.getLastD_cons]
    cases rest with
    | nil =>
      show e + 38 * (1 - 1) ≤ a.regionBegin + a.monoBegin
      omega
    | cons b rest2 =>
      have hih := ih (a.regionBegin + a.monoBegin + 38) a h2 (List.cons_ne_nil _ _)
      simp only [List.length_cons] at hih ⊢
      omega

theorem spanOrder_get_lb :
    ∀ (cvs : List ChunkView) (e : Nat) (k : Nat) (cv' : ChunkView),
      spanOrder e cvs → cvs.get? k = some cv' →
      e ≤ cv'.regionBegin + cv'.monoBegin := by
  intro cvs
  induction cvs with
  | nil =>
    intro e k cv' _ hk
    cases hk
  | cons a rest ih =>
    intro e k cv' hso hk
    obtain ⟨h1, h2⟩ := hso
    cases k with
    | zero =>
      cases hk
      exact h1
    | succ k' =>
      have := ih (a.regionBegin + a.monoBegin + 38) k' cv' h2 hk
      omega

theorem spanOrder_get_last :
    ∀ (cvs : List ChunkView) (e : Nat) (d : ChunkView) (k : Nat) (cv' : ChunkView),
      spanOrder e cvs → cvs.get? k = some cv' → k + 1 < cvs.length →
      cv'.regionBegin + cv'.monoBegin + 38 ≤
        (cvs.getLastD d).regionBegin + (cvs.getLastD d).monoBegin := by
  intro cvs
  induction cvs with
  | nil =>
    intro e d k cv' _ hk _
    cases hk
  | cons a rest ih =>
    intro e d k cv' hso hk hlen
    obtain ⟨h1, h2⟩ := hso
    rw [List.getLastD_cons]
    cases k with
    | zero =>
      have hcv : cv' = a := by
        have hsome : some a = some cv' := hk
        exact (Option.some.inj hsome).symm
      subst hcv
      have hne : rest ≠ [] := by
        simp only [List.length_cons] at hlen
        intro hcon
        rw [hcon] at hlen
        simp at hlen
      have := spanOrder_last_lb rest (cv'.regionBegin + cv'.monoBegin + 38) cv' h2 hne
      omega
    | succ k' =>
      have hlen' : k' + 1 < rest.length := by
        simp only [List.length_cons] at hlen
        omega
      exact ih (a.regionBegin + a.monoBegin + 38) a k' cv' h2 hk hlen'

theorem chainCounts_of_get (h2 : Heap) (len2 : Nat) :
    ∀ (ns : List ChunkView) (i : Nat),
      (∀ k cv', ns.get? k = some cv' →
        h2.mem (cv'.regionBegin + cv'.atChunkLength) = min 8 (len2 - 8 * (i + k))) →
      chainCounts h2 len2 i ns := by
  intro ns
  induction ns with
  | nil =>
    intro i _
    trivial
  | cons a rest ih =>
    intro i hk
    refine ⟨?_, ?_⟩
    · have := hk 0 a rfl
      omega
    · refine ih (i + 1) ?_
      intro k cv' hg
      have := hk (k + 1) cv' (by rw [List.get?_cons_succ]; exact hg)
      omega

theorem tailNode_congr (h h2 : Heap) (cv : ChunkView) (hT : TailNode h cv)
    (hgood : ∀ p, goodPos h p → goodPos h2 p)
    (hhdr : h2.mem (cv.regionBegin + cv.monoBegin) = h.mem (cv.regionBegin + cv.monoBegin)) :
    TailNode h2 cv :=
  ⟨hT.lo, hT.hi, hT.ge, hT.gl, hT.gn, hT.aligned,
   fun i hi => hgood _ (hT.good i hi), by rw [hhdr]; exact hT.header⟩

theorem linkChain_congr (h h2 : Heap) :
    ∀ (cvs : List ChunkView) (cv : ChunkView), linkChain h cv cvs →
      (∀ c ∈ cv :: cvs, rdU32 h2.mem (c.regionBegin + c.atToNext) =
        rdU32 h.mem (c.regionBegin + c.atToNext)) →
      (∀ c ∈ cvs, TailNode h2 c) →
      linkChain h2 cv cvs := by
  intro cvs
  induction cvs with
  | nil =>
    intro cv hl hnx _
    show rdU32 h2.mem _ = 0
    rw [hnx cv (List.mem_cons_self _ _)]
    exact hl
  | cons nxt rest ih =>
    intro cv hl hnx hT
    obtain ⟨had, _, hrest⟩ := hl
    refine ⟨?_, hT nxt (List.mem_cons_self _ _), ?_⟩
    · rw [hnx cv (List.mem_cons_self _ _)]
      exact had
    · refine ih nxt hrest ?_ ?_
      · intro c hc
        exact hnx c (List.mem_cons_of_mem _ hc)
      · intro c hc
        exact hT c (List.mem_cons_of_mem _ hc)

/-- Unified geometry of the chunk view `append` writes into: whether the
array's embedded chunk or an overflow chunk, the element slots start one
past the length byte, the next pointer 32 past the slots, and the 37-byte
window from the length byte consists of payload positions. -/
structure NodeGeom (h : Heap) (cv : ChunkView) : Prop where
  bound : cv.atToNext + 4 ≤ REGION_SIZE
  ge : cv.elementsFrom = cv.atChunkLength + 1
  gn : cv.atToNext = cv.elementsFrom + 32
  good_win : ∀ i, i < 37 → goodPos h (cv.regionBegin + cv.atChunkLength + i)

theorem nodeGeom_head (h : Heap) (av : ArrayView) (len : Nat) (tail : List ChunkView)
    (hinv : ArrInv h av len tail) : NodeGeom h av.chunkView := by
  have hlo := hinv.lo
  have hhi := hinv.hi
  refine ⟨?_, rfl, rfl, ?_⟩
  · show av.monoBegin + 38 + 4 ≤ REGION_SIZE
    omega
  · intro i hi
    have hg := hinv.good (5 + i) (by omega)
    have heq : av.regionBegin + av.monoBegin + (5 + i) =
        av.regionBegin + av.chunkView.atChunkLength + i := by
      show _ = av.regionBegin + (av.monoBegin + 5) + i
      omega
    exact heq ▸ hg

theorem nodeGeom_tail (h : Heap) (cv : ChunkView) (hT : TailNode h cv) : NodeGeom h cv := by
  have hlo := hT.lo
  have hhi := hT.hi
  have hge := hT.ge
  have hgl := hT.gl
  have hgn := hT.gn
  refine ⟨by omega, by omega, by omega, ?_⟩
  intro i hi
  have hg := hT.good (1 + i) (by omega)
  have heq : cv.regionBegin + cv.monoBegin + (1 + i) =
      cv.regionBegin + cv.atChunkLength + i := by omega
  exact heq ▸ hg

theorem nodeGeom_last (h : Heap) (av : ArrayView) (len : Nat) (tail : List ChunkView)
    (hinv : ArrInv h av len tail) : NodeGeom h (tail.getLastD av.chunkView) := by
  cases tail with
  | nil =>
    exact nodeGeom_head h av len [] hinv
  | cons a rest =>
    have hmem := getLastD_mem (a :: rest) av.chunkView (List.cons_ne_nil _ _)
    exact nodeGeom_tail h _ (linkChain_tailNodes h (a :: rest) av.chunkView hinv.links _ hmem)

theorem ArrInv_len_bound (h : Heap) (av : ArrayView) (len : Nat) (tail : List ChunkView)
    (hwf : WF h) (hinv : ArrInv h av len tail) : len ≤ 55403800 := by
  cases tail with
  | nil =>
    have hs := hinv.shape.1
    simp only [List.length_nil] at hs
    omega
  | cons a rest =>
    have hmem : (a :: rest).getLastD av.chunkView ∈ a :: rest :=
      getLastD_mem _ _ (List.cons_ne_nil _ _)
    have hT := linkChain_tailNodes h (a :: rest) av.chunkView hinv.links _ hmem
    have hg := hT.good 0 (by omega)
    rw [Nat.add_zero] at hg
    have hlt := goodPos_lt h hwf _ hg
    have hcc : h.contentCounter * REGION_SIZE ≤ (NUMBER_REGIONS + 1) * REGION_SIZE :=
      Nat.mul_le_mul_right _ hwf.cc_le
    have hlb := spanOrder_last_lb (a :: rest) (av.regionBegin + av.monoBegin + 42)
      av.chunkView hinv.order (List.cons_ne_nil _ _)
    have hs := hinv.shape.1
    simp only [List.length_cons] at hlb hs
    unfold NUMBER_REGIONS REGION_SIZE at *
    omega

theorem spanOrder_before_last :
    ∀ (cvs : List ChunkView) (e : Nat) (d : ChunkView), spanOrder e cvs →
      ∀ cv' ∈ cvs, cv' = cvs.getLastD d ∨
        cv'.regionBegin + cv'.monoBegin + 38 ≤
          (cvs.getLastD d).regionBegin + (cvs.getLastD d).monoBegin := by
  intro cvs
  induction cvs with
  | nil =>
    intro e d _ cv' hc
    cases hc
  | cons a rest ih =>
    intro e d hso cv' hc
    obtain ⟨h1, h2⟩ := hso
    rw [List.getLastD_cons]
    rcases List.mem_cons.mp hc with heq | hc2
    · rw [heq]
      cases rest with
      | nil =>
        exact Or.inl rfl
      | cons b rest2 =>
        right
        have hlb := spanOrder_last_lb (b :: rest2) (a.regionBegin + a.monoBegin + 38) a h2
          (List.cons_ne_nil _ _)
        omega
    · exact ih (a.regionBegin + a.monoBegin + 38) a h2 cv' hc2

theorem spanOrder_mem_lb :
    ∀ (cvs : List ChunkView) (e : Nat), spanOrder e cvs →
      ∀ c ∈ cvs, e ≤ c.regionBegin + c.monoBegin := by
  intro cvs
  induction cvs with
  | nil =>
    intro e _ c hc
    cases hc
  | cons a rest ih =>
    intro e hso c hc
    obtain ⟨h1, h2⟩ := hso
    rcases List.mem_cons.mp hc with heq | hc2
    · rw [heq]
      exact h1
    · have := ih (a.regionBegin + a.monoBegin + 38) h2 c hc2
      omega

/-- `append` when the target slot's chunk already exists (no spill): the
length field advances by one, the chain shape is unchanged, and all payload
bytes outside the array's own spans are untouched. -/
theorem append_spec_fits (h : Heap) (av : ArrayView) (len : Nat) (tail : List ChunkView)
    (w : Mono) (h' : Heap) (hwf : WF h) (hinv : ArrInv h av len tail)
    (hlt8 : len < 8 * (tail.length + 1))
    (hrun : av.append h w = .ok h') :
    WF h' ∧ ArrInv h' av (len + 1) tail ∧
      (∀ p, goodPos h p → goodPos h' p) ∧
      (∀ p, goodPos h p → ¬ inSpans av tail p → h'.mem p = h.mem p) := by
  have hlo := hinv.lo
  have hhi := hinv.hi
  have hlenb := ArrInv_len_bound h av len tail hwf hinv
  have hshape2 := hinv.shape.2
  have hrl : av.readLength h.mem = .ok len := by
    unfold ArrayView.readLength readUint32
    rw [if_neg (by omega)]
    have heq : av.regionBegin + (av.monoBegin + 1) = av.regionBegin + av.monoBegin + 1 := by
      omega
    rw [heq, hinv.len_stored]
  have hng := nodeGeom_last h av len tail hinv
  have hspec := findChunkLoop_spec h hwf tail av.chunkView hinv.links
    (by show av.monoBegin + 38 + 4 ≤ REGION_SIZE; omega)
  obtain ⟨tgt, hget, hwalk⟩ := hspec.1 tail.length (le_refl _)
  have htgt : tgt = tail.getLastD av.chunkView := by
    have h2 := (get?_length_getLastD tail av.chunkView).symm.trans hget
    exact (Option.some.inj h2).symm
  rw [htgt] at hget hwalk
  obtain ⟨L, hL⟩ : ∃ L : ChunkView, L = tail.getLastD av.chunkView := ⟨_, rfl⟩
  rw [← hL] at hget hwalk hng
  have hqa : len / MONO_CHUNK_SIZE = tail.length := by
    unfold MONO_CHUNK_SIZE
    omega
  unfold ArrayView.append at hrun
  simp only [hrl] at hrun
  unfold ArrayView.findChunk at hrun
  rw [hqa] at hrun
  simp only [hwalk] at hrun
  have hcnt := chainCounts_get h len (av.chunkView :: tail) 0 tail.length L hinv.counts hget
  have hc7 : len - 8 * tail.length ≤ 7 := by omega
  have hcv : h.mem (L.regionBegin + L.atChunkLength) = len - 8 * tail.length := by
    rw [hcnt]
    omega
  have hge2 := hng.ge
  have hgn2 := hng.gn
  have hbd2 := hng.bound
  have hLlb : av.regionBegin + av.monoBegin + 5 ≤ L.regionBegin + L.atChunkLength ∧
      (tail.length = 0 → L.regionBegin + L.atChunkLength = av.regionBegin + (av.monoBegin + 5)) ∧
      (1 ≤ tail.length →
        av.regionBegin + av.monoBegin + 43 ≤ L.regionBegin + L.atChunkLength) := by
    cases tail with
    | nil =>
      refine ⟨?_, ?_, ?_⟩
      · rw [hL]
        show _ + 5 ≤ av.regionBegin + (av.monoBegin + 5)
        omega
      · intro _
        rw [hL]
        rfl
      · intro hcon
        simp at hcon
    | cons a rest =>
      have hmem : (a :: rest).getLastD av.chunkView ∈ a :: rest :=
        getLastD_mem _ _ (List.cons_ne_nil _ _)
      have hT := linkChain_tailNodes h (a :: rest) av.chunkView hinv.links _ hmem
      have hgl := hT.gl
      have hlb := spanOrder_last_lb (a :: rest) (av.regionBegin + av.monoBegin + 42)
        av.chunkView hinv.order (List.cons_ne_nil _ _)
      rw [← hL] at hgl hlb
      refine ⟨by omega, ?_, by intro _; omega⟩
      intro hcon
      simp at hcon
  have hrcl : readChunkLength h.mem L = .ok (len - 8 * tail.length) := by
    unfold readChunkLength readUint8
    rw [if_neg (by omega), hcv]
  have hic : isChunkFull h.mem L = .ok false := by
    unfold isChunkFull
    simp only [hrcl]
    unfold MONO_CHUNK_SIZE
    simp only [Except.ok.injEq]
    rw [decide_eq_false_iff_not]
    omega
  have hart : appendResolveTarget h L (some L) = .ok (L, h) := by
    unfold appendResolveTarget
    simp only [hic]
  simp only [hart] at hrun
  obtain ⟨M2, hM2⟩ : ∃ M2 : Mem, M2 = memWrite
      (wrU32 h.mem (L.regionBegin + (L.elementsFrom + (len - 8 * tail.length) * 4))
        w.heapAddress)
      (L.regionBegin + L.atChunkLength) (len - 8 * tail.length + 1) := ⟨_, rfl⟩
  have hwa : writeAddress h.mem L.regionBegin REGION_SIZE
      (addressFromIndex L (len - 8 * tail.length)) w.heapAddress =
      .ok (wrU32 h.mem (L.regionBegin + (L.elementsFrom + (len - 8 * tail.length) * 4))
        w.heapAddress) := by
    unfold writeAddress writeUint32 addressFromIndex
    rw [if_neg (by omega)]
  have hwcl : writeChunkLength (wrU32 h.mem
      (L.regionBegin + (L.elementsFrom + (len - 8 * tail.length) * 4)) w.heapAddress) L
      (len - 8 * tail.length + 1) = .ok M2 := by
    rw [hM2]
    unfold writeChunkLength writeUint8
    rw [if_neg (by omega)]
  have hca : chunkAppend h.mem L w = .ok (M2, true) := by
    unfold chunkAppend
    simp only [hic, hrcl, hwa, hwcl]
  simp only [hca] at hrun
  obtain ⟨M4, hM4⟩ : ∃ M4 : Mem,
      M4 = wrU32 M2 (av.regionBegin + (av.monoBegin + 1)) (len + 1) := ⟨_, rfl⟩
  have hwl : av.writeLength M2 (len + 1) = .ok M4 := by
    rw [hM4]
    unfold ArrayView.writeLength writeUint32
    rw [if_neg (by omega)]
  simp only [hwl] at hrun
  cases hrun
  have hframe : ∀ p,
      (p < L.regionBegin + L.atChunkLength ∨ L.regionBegin + L.atChunkLength + 33 ≤ p) →
      (p ≤ av.regionBegin + av.monoBegin ∨ av.regionBegin + av.monoBegin + 5 ≤ p) →
      M4 p = h.mem p := by
    intro p hp1 hp2
    rw [hM4, hM2, wrU32_read_other _ _ _ _ (by omega), memWrite_other _ _ _ _ (by omega),
      wrU32_read_other _ _ _ _ (by omega)]
  have hcnt_new : M4 (L.regionBegin + L.atChunkLength) = len - 8 * tail.length + 1 := by
    rw [hM4, hM2, wrU32_read_other _ _ _ _ (by omega), memWrite_same]
    omega
  have hlen_new : rdU32 M4 (av.regionBegin + av.monoBegin + 1) = len + 1 := by
    have heq : av.regionBegin + av.monoBegin + 1 = av.regionBegin + (av.monoBegin + 1) := by
      omega
    rw [heq, hM4, rdU32_wrU32]
    omega
  have hwfA : WF { h with mem := M2 } := by
    rw [hM2]
    have hg1 := hng.good_win (1 + (len - 8 * tail.length) * 4) (by omega)
    have hg2 := hng.good_win (4 + (len - 8 * tail.length) * 4) (by omega)
    have he1 : L.regionBegin + L.atChunkLength + (1 + (len - 8 * tail.length) * 4) =
        L.regionBegin + (L.elementsFrom + (len - 8 * tail.length) * 4) := by omega
    have he2 : L.regionBegin + L.atChunkLength + (4 + (len - 8 * tail.length) * 4) =
        L.regionBegin + (L.elementsFrom + (len - 8 * tail.length) * 4) + 3 := by omega
    have hw1 := WF_wrU32_goodPos h hwf
      (L.regionBegin + (L.elementsFrom + (len - 8 * tail.length) * 4)) w.heapAddress
      (he1 ▸ hg1) (he2 ▸ hg2)
    have hg0 := hng.good_win 0 (by omega)
    rw [Nat.add_zero] at hg0
    exact WF_memWrite_goodPos _ hw1 _ (len - 8 * tail.length + 1) hg0
  have hwf' : WF { h with mem := M4 } := by
    rw [hM4]
    have hg1 := hinv.good 1 (by omega)
    have hg4 := hinv.good 4 (by omega)
    have he1 : av.regionBegin + av.monoBegin + 1 = av.regionBegin + (av.monoBegin + 1) := by
      omega
    have he4 : av.regionBegin + av.monoBegin + 4 = av.regionBegin + (av.monoBegin + 1) + 3 := by
      omega
    exact WF_wrU32_goodPos _ hwfA _ (len + 1) (he1 ▸ hg1) (he4 ▸ hg4)
  refine ⟨hwf', ⟨hinv.lo, hinv.hi, hinv.aligned, hinv.good, ?_, ?_, ?_, ?_, hinv.order, ?_⟩,
    fun p hp => hp, ?_⟩
  · -- header byte untouched
    exact (hframe _ (by omega) (Or.inl (le_refl _))).trans hinv.header
  · -- stored length is now len + 1
    exact hlen_new
  · -- the chain links and tail nodes are untouched
    refine linkChain_congr h { h with mem := M4 } tail av.chunkView hinv.links ?_ ?_
    · intro c hc
      rcases List.mem_cons.mp hc with heq | hc2
      · rw [heq]
        refine rdU32_congr _ _ _ ?_
        intro p hp1 hp2
        have h38 : av.chunkView.regionBegin + av.chunkView.atToNext =
            av.regionBegin + av.monoBegin + 38 := rfl
        refine hframe p ?_ (by omega)
        rcases Nat.eq_zero_or_pos tail.length with h0 | h1
        · have := hLlb.2.1 h0
          omega
        · have := hLlb.2.2 h1
          omega
      · have htne : tail ≠ [] := by
          intro hcon
          rw [hcon] at hc2
          cases hc2
        have hTc := linkChain_tailNodes h tail av.chunkView hinv.links c hc2
        have hglc := hTc.gl
        have hgnc := hTc.gn
        have hTL : TailNode h L := by
          rw [hL]
          exact linkChain_tailNodes h tail av.chunkView hinv.links _
            (getLastD_mem tail av.chunkView htne)
        have hglL := hTL.gl
        have hbl := spanOrder_before_last tail (av.regionBegin + av.monoBegin + 42)
          av.chunkView hinv.order c hc2
        rw [← hL] at hbl
        have hmemlb := spanOrder_mem_lb tail (av.regionBegin + av.monoBegin + 42)
          hinv.order c hc2
        rcases hbl with heqL | hblt
        · rw [heqL]
          have hgnL := hTL.gn
          refine rdU32_congr _ _ _ ?_
          intro p hp1 hp2
          refine hframe p (by omega) (by omega)
        · refine rdU32_congr _ _ _ ?_
          intro p hp1 hp2
          refine hframe p (by omega) (by omega)
    · intro c hc
      have hTc := linkChain_tailNodes h tail av.chunkView hinv.links c hc
      have htne : tail ≠ [] := by
        intro hcon
        rw [hcon] at hc
        cases hc
      have hTL : TailNode h L := by
        rw [hL]
        exact linkChain_tailNodes h tail av.chunkView hinv.links _
          (getLastD_mem tail av.chunkView htne)
      have hglL := hTL.gl
      have hbl := spanOrder_before_last tail (av.regionBegin + av.monoBegin + 42)
        av.chunkView hinv.order c hc
      rw [← hL] at hbl
      have hmemlb := spanOrder_mem_lb tail (av.regionBegin + av.monoBegin + 42)
        hinv.order c hc
      refine tailNode_congr h _ c hTc (fun p hp => hp) ?_
      rcases hbl with heqL | hblt
      · rw [heqL] at hmemlb ⊢
        refine hframe _ (by omega) (by omega)
      · refine hframe _ (by omega) (by omega)
  · -- stored chunk counts
    refine chainCounts_of_get _ _ _ 0 ?_
    intro k cv' hgk
    have hklen : k < tail.length + 1 := by
      by_contra hcon
      have hnone : (av.chunkView :: tail).get? k = none := by
        apply List.get?_len_le
        simp only [List.length_cons]
        omega
      rw [hnone] at hgk
      cases hgk
    rcases Nat.lt_or_ge k tail.length with hk | hk
    · -- an untouched (full) chunk before the target
      have htpos : 1 ≤ tail.length := by omega
      have hold := chainCounts_get h len (av.chunkView :: tail) 0 k cv' hinv.counts hgk
      have hlp := hLlb.2.2 htpos
      cases k with
      | zero =>
        have hcv' : cv' = av.chunkView := (Option.some.inj hgk).symm
        rw [hcv'] at hold ⊢
        have h5 : av.chunkView.regionBegin + av.chunkView.atChunkLength =
            av.regionBegin + av.monoBegin + 5 := rfl
        rw [h5] at hold ⊢
        refine (hframe _ (by omega) (by omega)).trans ?_
        rw [hold]
        omega
      | succ k' =>
        rw [List.get?_cons_succ] at hgk
        have hmemc : cv' ∈ tail := List.get?_mem hgk
        have hTc := linkChain_tailNodes h tail av.chunkView hinv.links cv' hmemc
        have hglc := hTc.gl
        have hlbc := spanOrder_get_lb tail (av.regionBegin + av.monoBegin + 42) k' cv'
          hinv.order hgk
        have hltL := spanOrder_get_last tail (av.regionBegin + av.monoBegin + 42)
          av.chunkView k' cv' hinv.order hgk (by omega)
        rw [← hL] at hltL
        have htne : tail ≠ [] := by
          intro hcon
          rw [hcon] at hmemc
          cases hmemc
        have hTL : TailNode h L := by
          rw [hL]
          exact linkChain_tailNodes h tail av.chunkView hinv.links _
            (getLastD_mem tail av.chunkView htne)
        have hglL := hTL.gl
        refine (hframe _ (by omega) (by omega)).trans ?_
        rw [hold]
        omega
    · -- the target chunk itself
      have hkt : k = tail.length := by omega
      subst hkt
      have hcv' : cv' = L := (Option.some.inj (hget.symm.trans hgk)).symm
      rw [hcv']
      refine hcnt_new.trans ?_
      omega
  · -- shape
    refine ⟨by omega, ?_⟩
    rcases hshape2 with h0 | h1
    · exact Or.inl h0
    · exact Or.inr (by omega)
  · -- frame outside the array's spans
    intro p hp hns
    unfold inSpans at hns
    push_neg at hns
    obtain ⟨hn1, hn2⟩ := hns
    refine hframe p ?_ ?_
    · rcases Nat.eq_zero_or_pos tail.length with h0 | h1
      · have hl5 := hLlb.2.1 h0
        by_cases hA : av.regionBegin + av.monoBegin ≤ p
        · have := hn1 hA
          omega
        · omega
      · have hlp := hLlb.2.2 h1
        have htne : tail ≠ [] := by
          intro hcon
          rw [hcon] at h1
          simp at h1
        have hLmem : L ∈ tail := by
          rw [hL]
          exact getLastD_mem tail av.chunkView htne
        have hTL : TailNode h L := linkChain_tailNodes h tail av.chunkView hinv.links _ hLmem
        have hglL := hTL.gl
        have hn2L := hn2 L hLmem
        by_cases hLs : L.regionBegin + L.monoBegin ≤ p
        · have := hn2L hLs
          omega
        · omega
    · by_cases hA : av.regionBegin + av.monoBegin ≤ p
      · have := hn1 hA
        omega
      · omega

theorem chunkViewOfMono_kind (mn : Mono) (hk : mn.kind = MONO_CHUNK_S8) :
    chunkViewOfMono mn = ⟨mn.regionBegin, mn.beginFrom, mn.beginFrom + 2, mn.beginFrom + 1,
      mn.beginFrom + 34⟩ := by
  obtain ⟨rb, k, mb⟩ := mn
  have hk2 : k = MONO_CHUNK_S8 := hk
  subst hk2
  have h34 : mb + 38 - 1 - 3 = mb + 34 := by omega
  rw [chunkViewOfMono_chunk, h34]

theorem spanOrder_snoc (n : ChunkView) :
    ∀ (cvs : List ChunkView) (e : Nat), spanOrder e cvs →
      e ≤ n.regionBegin + n.monoBegin →
      (∀ c ∈ cvs, c.regionBegin + c.monoBegin + 38 ≤ n.regionBegin + n.monoBegin) →
      spanOrder e (cvs ++ [n]) := by
  intro cvs
  induction cvs with
  | nil =>
    intro e _ he _
    exact ⟨he, trivial⟩
  | cons a rest ih =>
    intro e hso he hall
    obtain ⟨h1, h2⟩ := hso
    refine ⟨h1, ?_⟩
    exact ih (a.regionBegin + a.monoBegin + 38) h2
      (hall a (List.mem_cons_self _ _))
      (fun c hc => hall c (List.mem_cons_of_mem _ hc))


/-- Extending a chunk chain by one freshly linked node.  `P` carves out the
positions whose bytes the writes between the two heaps may rely on
(instantiated with `goodPos h`): every next-pointer field of the old chain
satisfies `P`, bytes at `P`-positions between the head's pointer field and
the old last node's pointer field are unchanged, the last field now holds
the new node's header address, and the new node terminates the chain. -/
theorem linkChain_snoc (h h2 : Heap) (n : ChunkView) (P : Nat → Prop)
    (hTn : TailNode h2 n) (hn0 : rdU32 h2.mem (n.regionBegin + n.atToNext) = 0) :
    ∀ (cvs : List ChunkView) (cv : ChunkView), linkChain h cv cvs →
      (∀ c ∈ cvs, TailNode h2 c) →
      (∀ c ∈ cv :: cvs, ∀ j, j < 4 → P (c.regionBegin + c.atToNext + j)) →
      spanOrder (cv.regionBegin + cv.atToNext + 4) cvs →
      (∀ p, P p → cv.regionBegin + cv.atToNext ≤ p →
        p < (cvs.getLastD cv).regionBegin + (cvs.getLastD cv).atToNext →
        h2.mem p = h.mem p) →
      rdU32 h2.mem ((cvs.getLastD cv).regionBegin + (cvs.getLastD cv).atToNext) =
        n.regionBegin + n.monoBegin →
      linkChain h2 cv (cvs ++ [n]) := by
  intro cvs
  induction cvs with
  | nil =>
    intro cv _ _ _ _ _ hlast
    exact ⟨hlast, hTn, hn0⟩
  | cons a rest ih =>
    intro cv hl hT2 hP hso hpres hlast
    obtain ⟨had, hTa, hrest⟩ := hl
    obtain ⟨hs1, hs2⟩ := hso
    rw [List.getLastD_cons] at hpres hlast
    have hTlast : TailNode h2 (rest.getLastD a) := by
      cases rest with
      | nil =>
        exact hT2 a (List.mem_cons_self _ _)
      | cons b rest2 =>
        refine hT2 _ (List.mem_cons_of_mem _ ?_)
        exact getLastD_mem (b :: rest2) a (List.cons_ne_nil _ _)
    have hlast_lb : cv.regionBegin + cv.atToNext + 4 ≤
        (rest.getLastD a).regionBegin + (rest.getLastD a).atToNext := by
      have hmem : rest.getLastD a ∈ a :: rest := by
        cases rest with
        | nil => exact List.mem_cons_self _ _
        | cons b rest2 =>
          refine List.mem_cons_of_mem _ ?_
          exact getLastD_mem (b :: rest2) a (List.cons_ne_nil _ _)
      have hstart := spanOrder_mem_lb (a :: rest) (cv.regionBegin + cv.atToNext + 4)
        ⟨hs1, hs2⟩ _ hmem
      have hgn := hTlast.gn
      have hlo := hTlast.lo
      omega
    refine ⟨?_, hT2 a (List.mem_cons_self _ _), ?_⟩
    · refine (rdU32_congr h2.mem h.mem (cv.regionBegin + cv.atToNext) ?_).trans had
      intro p hp1 hp2
      have hPp := hP cv (List.mem_cons_self _ _) (p - (cv.regionBegin + cv.atToNext))
        (by omega)
      have heq : cv.regionBegin + cv.atToNext + (p - (cv.regionBegin + cv.atToNext)) = p := by
        omega
      rw [heq] at hPp
      exact hpres p hPp (by omega) (by omega)
    · have hgna := hTa.gn
      have hloa := hTa.lo
      have hrw : a.regionBegin + a.atToNext + 4 = a.regionBegin + a.monoBegin + 38 := by
        omega
      refine ih a hrest (fun c hc => hT2 c (List.mem_cons_of_mem _ hc)) ?_ ?_ ?_ hlast
      · intro c hc j hj
        exact hP c (List.mem_cons_of_mem _ hc) j hj
      · rw [hrw]
        exact hs2
      · intro p hPp hp1 hp2
        exact hpres p hPp (by omega) hp2

/-- `append` when every chunk is full (`len = 8·(t+1)`): a fresh CHUNK_S8
mono is allocated, linked from the old last node, receives the element at
slot 0, and the length advances — the chain grows by exactly that node. -/
theorem append_spec_roll (h : Heap) (av : ArrayView) (len : Nat) (tail : List ChunkView)
    (w : Mono) (h' : Heap) (hwf : WF h) (hinv : ArrInv h av len tail)
    (hge8 : len = 8 * (tail.length + 1))
    (hrun : av.append h w = .ok h') :
    ∃ ncv, WF h' ∧ ArrInv h' av (len + 1) (tail ++ [ncv]) ∧
      (∀ p, goodPos h p → goodPos h' p) ∧
      (∀ p, goodPos h p → ¬ inSpans av tail p → h'.mem p = h.mem p) ∧
      (∀ q, goodPos h q → q < ncv.regionBegin + ncv.monoBegin) := by
  have hlo := hinv.lo
  have hhi := hinv.hi
  have hlenb := ArrInv_len_bound h av len tail hwf hinv
  have hrl : av.readLength h.mem = .ok len := by
    unfold ArrayView.readLength readUint32
    rw [if_neg (by omega)]
    have heq : av.regionBegin + (av.monoBegin + 1) = av.regionBegin + av.monoBegin + 1 := by
      omega
    rw [heq, hinv.len_stored]
  have hng := nodeGeom_last h av len tail hinv
  have hspec := findChunkLoop_spec h hwf tail av.chunkView hinv.links
    (by show av.monoBegin + 38 + 4 ≤ REGION_SIZE; omega)
  have hwalk := hspec.2
  obtain ⟨L, hL⟩ : ∃ L : ChunkView, L = tail.getLastD av.chunkView := ⟨_, rfl⟩
  rw [← hL] at hwalk hng
  have hge2 := hng.ge
  have hgn2 := hng.gn
  have hbd2 := hng.bound
  have hqa : len / MONO_CHUNK_SIZE = tail.length + 1 := by
    unfold MONO_CHUNK_SIZE
    omega
  unfold ArrayView.append at hrun
  simp only [hrl] at hrun
  unfold ArrayView.findChunk at hrun
  rw [hqa] at hrun
  simp only [hwalk] at hrun
  simp only [appendResolveTarget, appendNewChunk] at hrun
  cases halloc : h.allocate MONO_CHUNK_S8 with
  | error e =>
    simp only [halloc] at hrun
    cases hrun
  | ok pr =>
    obtain ⟨N, h1⟩ := pr
    cases hreg : h.allocRegions with
    | nil =>
      unfold Heap.allocate at halloc
      simp only [show sizeFromKind MONO_CHUNK_S8 = .ok 38 from rfl, hreg] at halloc
      cases halloc
    | cons target rest =>
      have hout := allocate_spec h target rest MONO_CHUNK_S8 38 hwf hreg rfl N h1 halloc
      have hNlo := hout.lo
      have hNhi := hout.hi
      simp only [halloc] at hrun
      -- geometry facts of old structures against the fresh mono
      have hA41 : av.regionBegin + av.monoBegin + 41 < N.regionBegin + N.beginFrom :=
        hout.below _ (hinv.good 41 (by omega))
      have hA4 : av.regionBegin + av.monoBegin + 4 < N.regionBegin + N.beginFrom :=
        hout.below _ (hinv.good 4 (by omega))
      have hLW36 : L.regionBegin + L.atChunkLength + 36 < N.regionBegin + N.beginFrom :=
        hout.below _ (hng.good_win 36 (by omega))
      have hLW0 : av.regionBegin + av.monoBegin + 5 ≤ L.regionBegin + L.atChunkLength ∧
          (tail.length = 0 →
            L.regionBegin + L.atChunkLength = av.regionBegin + (av.monoBegin + 5)) ∧
          (1 ≤ tail.length →
            av.regionBegin + av.monoBegin + 43 ≤ L.regionBegin + L.atChunkLength) := by
        cases tail with
        | nil =>
          refine ⟨?_, ?_, ?_⟩
          · rw [hL]
            show _ + 5 ≤ av.regionBegin + (av.monoBegin + 5)
            omega
          · intro _
            rw [hL]
            rfl
          · intro hcon
            simp at hcon
        | cons a rest2 =>
          have hmem : (a :: rest2).getLastD av.chunkView ∈ a :: rest2 :=
            getLastD_mem _ _ (List.cons_ne_nil _ _)
          have hT := linkChain_tailNodes h (a :: rest2) av.chunkView hinv.links _ hmem
          have hgl := hT.gl
          have hlb := spanOrder_last_lb (a :: rest2) (av.regionBegin + av.monoBegin + 42)
            av.chunkView hinv.order (List.cons_ne_nil _ _)
          rw [← hL] at hgl hlb
          refine ⟨by omega, ?_, by intro _; omega⟩
          intro hcon
          simp at hcon
      -- a uniform lower bound for the next-pointer field of the last node
      have hLWlb : av.regionBegin + av.monoBegin + 38 ≤ L.regionBegin + L.atToNext := by
        rcases Nat.eq_zero_or_pos tail.length with h0 | h1t
        · have := hLW0.2.1 h0
          omega
        · have := hLW0.2.2 h1t
          omega
      have hNcv := chunkViewOfMono_kind N hout.kind_eq
      obtain ⟨M2, hM2⟩ : ∃ M2 : Mem,
          M2 = wrU32 h1.mem (L.regionBegin + L.atToNext) N.heapAddress := ⟨_, rfl⟩
      have hsn : setChunkNext h1.mem L N.heapAddress = .ok M2 := by
        rw [hM2]
        unfold setChunkNext writeAddress writeUint32
        rw [if_neg (by omega)]
      simp only [hsn, hNcv] at hrun
      -- chunkAppend on the fresh chunk
      have hbyte0 : M2 (N.regionBegin + (N.beginFrom + 1)) = 0 := by
        rw [hM2, wrU32_read_other _ _ _ _ (by omega)]
        have := hout.payload_zero 1 (le_refl _) (by omega)
        have heq : N.regionBegin + N.beginFrom + 1 = N.regionBegin + (N.beginFrom + 1) := by
          omega
        rw [heq] at this
        exact this
      have hrcl2 : readChunkLength M2
          (⟨N.regionBegin, N.beginFrom, N.beginFrom + 2, N.beginFrom + 1,
            N.beginFrom + 34⟩ : ChunkView) = .ok 0 := by
        unfold readChunkLength readUint8
        rw [if_neg (by show ¬ (N.beginFrom + 1 > REGION_SIZE); omega)]
        show Except.ok (M2 (N.regionBegin + (N.beginFrom + 1))) = Except.ok 0
        rw [hbyte0]
      have hic2 : isChunkFull M2
          (⟨N.regionBegin, N.beginFrom, N.beginFrom + 2, N.beginFrom + 1,
            N.beginFrom + 34⟩ : ChunkView) = .ok false := by
        unfold isChunkFull
        simp only [hrcl2]
        unfold MONO_CHUNK_SIZE
        simp only [Except.ok.injEq]
        rw [decide_eq_false_iff_not]
        omega
      obtain ⟨M3, hM3⟩ : ∃ M3 : Mem, M3 = memWrite
          (wrU32 M2 (N.regionBegin + (N.beginFrom + 2 + 0 * 4)) w.heapAddress)
          (N.regionBegin + (N.beginFrom + 1)) (0 + 1) := ⟨_, rfl⟩
      have hwa2 : writeAddress M2 N.regionBegin REGION_SIZE
          (addressFromIndex (⟨N.regionBegin, N.beginFrom, N.beginFrom + 2, N.beginFrom + 1,
            N.beginFrom + 34⟩ : ChunkView) 0) w.heapAddress =
          .ok (wrU32 M2 (N.regionBegin + (N.beginFrom + 2 + 0 * 4)) w.heapAddress) := by
        unfold writeAddress writeUint32 addressFromIndex
        rw [if_neg (by show ¬ (N.beginFrom + 2 + 0 * 4 + 4 > REGION_SIZE); omega)]
      have hwcl2 : writeChunkLength
          (wrU32 M2 (N.regionBegin + (N.beginFrom + 2 + 0 * 4)) w.heapAddress)
          (⟨N.regionBegin, N.beginFrom, N.beginFrom + 2, N.beginFrom + 1,
            N.beginFrom + 34⟩ : ChunkView) (0 + 1) = .ok M3 := by
        rw [hM3]
        unfold writeChunkLength writeUint8
        rw [if_neg (by show ¬ (N.beginFrom + 1 + 1 > REGION_SIZE); omega)]
      have hca2 : chunkAppend M2
          (⟨N.regionBegin, N.beginFrom, N.beginFrom + 2, N.beginFrom + 1,
            N.beginFrom + 34⟩ : ChunkView) w = .ok (M3, true) := by
        unfold chunkAppend
        simp only [hic2, hrcl2, hwa2, hwcl2]
      simp only [hca2] at hrun
      obtain ⟨M6, hM6⟩ : ∃ M6 : Mem,
          M6 = wrU32 M3 (av.regionBegin + (av.monoBegin + 1)) (len + 1) := ⟨_, rfl⟩
      have hwl : av.writeLength M3 (len + 1) = .ok M6 := by
        rw [hM6]
        unfold ArrayView.writeLength writeUint32
        rw [if_neg (by omega)]
      simp only [hwl] at hrun
      cases hrun
      -- frame: positions below the fresh mono, outside the last node's
      -- pointer field and the array's length field
      have hframe1 : ∀ p,
          (p < L.regionBegin + L.atToNext ∨ L.regionBegin + L.atToNext + 4 ≤ p) →
          (p ≤ av.regionBegin + av.monoBegin ∨ av.regionBegin + av.monoBegin + 5 ≤ p) →
          p < N.regionBegin + N.beginFrom →
          M6 p = h1.mem p := by
        intro p h1p h2p h3p
        rw [hM6, hM3, hM2, wrU32_read_other _ _ _ _ (by omega),
          memWrite_other _ _ _ _ (by omega), wrU32_read_other _ _ _ _ (by omega),
          wrU32_read_other _ _ _ _ (by omega)]
      have hframe : ∀ p, goodPos h p →
          (p < L.regionBegin + L.atToNext ∨ L.regionBegin + L.atToNext + 4 ≤ p) →
          (p ≤ av.regionBegin + av.monoBegin ∨ av.regionBegin + av.monoBegin + 5 ≤ p) →
          M6 p = h.mem p := by
        intro p hg h1p h2p
        exact (hframe1 p h1p h2p (hout.below p hg)).trans (hout.frame p hg)
      -- the fresh chunk's bytes after all writes
      have hhdrN : M6 (N.regionBegin + N.beginFrom) = MONO_CHUNK_S8 := by
        rw [hM6, hM3, hM2, wrU32_read_other _ _ _ _ (by omega),
          memWrite_other _ _ _ _ (by omega), wrU32_read_other _ _ _ _ (by omega),
          wrU32_read_other _ _ _ _ (by omega)]
        exact hout.header_byte
      have hcntN : M6 (N.regionBegin + (N.beginFrom + 1)) = 1 := by
        rw [hM6, hM3, wrU32_read_other _ _ _ _ (by omega), memWrite_same]
      have hnextN : ∀ j, j < 4 → M6 (N.regionBegin + (N.beginFrom + 34) + j) = 0 := by
        intro j hj
        rw [hM6, hM3, hM2, wrU32_read_other _ _ _ _ (by omega),
          memWrite_other _ _ _ _ (by omega), wrU32_read_other _ _ _ _ (by omega),
          wrU32_read_other _ _ _ _ (by omega)]
        have := hout.payload_zero (34 + j) (by omega) (by omega)
        have heq : N.regionBegin + N.beginFrom + (34 + j) =
            N.regionBegin + (N.beginFrom + 34) + j := by omega
        rw [heq] at this
        exact this
      have hlinkN : rdU32 M6 (L.regionBegin + L.atToNext) = N.regionBegin + N.beginFrom := by
        have hcc2 := hout.wf.cc_le
        have haddr_lt : N.regionBegin + N.beginFrom < 4294967296 := by
          have hg := hout.mono_good 0 (by omega)
          rw [Nat.add_zero] at hg
          have := goodPos_lt h1 hout.wf _ hg
          have hle : h1.contentCounter * REGION_SIZE ≤
              (NUMBER_REGIONS + 1) * REGION_SIZE := Nat.mul_le_mul_right _ hcc2
          unfold NUMBER_REGIONS REGION_SIZE at *
          omega
        rw [hM6, hM3]
        rw [rdU32_wrU32_other _ _ _ _ (by omega), rdU32_memWrite_other _ _ _ _ (by omega),
          rdU32_wrU32_other _ _ _ _ (by omega), hM2, rdU32_wrU32]
        unfold Mono.heapAddress
        omega
      have hlenN : rdU32 M6 (av.regionBegin + av.monoBegin + 1) = len + 1 := by
        have heq : av.regionBegin + av.monoBegin + 1 = av.regionBegin + (av.monoBegin + 1) := by
          omega
        rw [heq, hM6, rdU32_wrU32]
        omega
      refine ⟨⟨N.regionBegin, N.beginFrom, N.beginFrom + 2, N.beginFrom + 1,
        N.beginFrom + 34⟩, ?_, ?_, ?_, ?_, ?_⟩
      · -- WF
        have hg33 := hout.good_mono _ (hng.good_win 33 (by omega))
        have hg36 := hout.good_mono _ (hng.good_win 36 (by omega))
        have he33 : L.regionBegin + L.atChunkLength + 33 = L.regionBegin + L.atToNext := by
          omega
        have he36 : L.regionBegin + L.atChunkLength + 36 = L.regionBegin + L.atToNext + 3 := by
          omega
        have hwf2 : WF { h1 with mem := M2 } := by
          rw [hM2]
          exact WF_wrU32_goodPos h1 hout.wf _ N.heapAddress (he33 ▸ hg33) (he36 ▸ hg36)
        have hg2b := hout.mono_good 2 (by omega)
        have hg5 := hout.mono_good 5 (by omega)
        have he2 : N.regionBegin + N.beginFrom + 2 =
            N.regionBegin + (N.beginFrom + 2 + 0 * 4) := by omega
        have he5 : N.regionBegin + N.beginFrom + 5 =
            N.regionBegin + (N.beginFrom + 2 + 0 * 4) + 3 := by omega
        have hwf3 : WF { h1 with
            mem := (wrU32 M2 (N.regionBegin + (N.beginFrom + 2 + 0 * 4)) w.heapAddress) } :=
          WF_wrU32_goodPos _ hwf2 _ w.heapAddress (he2 ▸ hg2b) (he5 ▸ hg5)
        have hg1b := hout.mono_good 1 (by omega)
        have he1 : N.regionBegin + N.beginFrom + 1 = N.regionBegin + (N.beginFrom + 1) := by
          omega
        have hwf4 : WF { h1 with mem := M3 } := by
          rw [hM3]
          exact WF_memWrite_goodPos _ hwf3 _ (0 + 1) (he1 ▸ hg1b)
        have hga1 := hout.good_mono _ (hinv.good 1 (by omega))
        have hga4 := hout.good_mono _ (hinv.good 4 (by omega))
        have hea1 : av.regionBegin + av.monoBegin + 1 = av.regionBegin + (av.monoBegin + 1) := by
          omega
        have hea4 : av.regionBegin + av.monoBegin + 4 =
            av.regionBegin + (av.monoBegin + 1) + 3 := by omega
        have hwf5 : WF { h1 with mem := M6 } := by
          rw [hM6]
          exact WF_wrU32_goodPos _ hwf4 _ (len + 1) (hea1 ▸ hga1) (hea4 ▸ hga4)
        exact hwf5
      · -- ArrInv for len + 1 with the extended tail
        have hTnew : TailNode { h1 with mem := M6 }
            (⟨N.regionBegin, N.beginFrom, N.beginFrom + 2, N.beginFrom + 1,
              N.beginFrom + 34⟩ : ChunkView) := by
          refine ⟨hNlo, by show N.beginFrom + 38 ≤ REGION_SIZE; omega, rfl, rfl, rfl, ?_, ?_, ?_⟩
          · obtain ⟨r', hr1, hr2, hr3, hcase⟩ := hout.shape
            rcases hcase with ⟨hreg1, hcc1, hrb1, hbf1⟩ | ⟨hreg1, hcc1, hrb1, hbf1⟩
            · obtain ⟨ti, hticc, htib⟩ := hwf.aligned target
                (by rw [hreg]; exact List.mem_cons_self _ _)
              have hccle := hwf.cc_le
              refine ⟨ti, by omega, ?_⟩
              show N.regionBegin = ti * REGION_SIZE
              rw [hrb1, htib]
            · have hccle := hout.wf.cc_le
              rw [hcc1] at hccle
              exact ⟨h.contentCounter, by omega, hrb1⟩
          · intro i hi
            exact hout.mono_good i (by omega)
          · exact hhdrN
        have hTold : ∀ c ∈ tail, TailNode { h1 with mem := M6 } c := by
          intro c hc
          have hTc := linkChain_tailNodes h tail av.chunkView hinv.links c hc
          have htne : tail ≠ [] := by
            intro hcon
            rw [hcon] at hc
            cases hc
          have htpos : 1 ≤ tail.length := by
            cases tail with
            | nil => exact absurd rfl htne
            | cons x xs => simp
          have hTL : TailNode h L := by
            rw [hL]
            exact linkChain_tailNodes h tail av.chunkView hinv.links _
              (getLastD_mem tail av.chunkView htne)
          have hglL := hTL.gl
          have hgnL := hTL.gn
          have hbl := spanOrder_before_last tail (av.regionBegin + av.monoBegin + 42)
            av.chunkView hinv.order c hc
          rw [← hL] at hbl
          have hmemlb := spanOrder_mem_lb tail (av.regionBegin + av.monoBegin + 42)
            hinv.order c hc
          refine tailNode_congr h _ c hTc (fun p hp => hout.good_mono p hp) ?_
          have hgc0 := hTc.good 0 (by omega)
          rw [Nat.add_zero] at hgc0
          rcases hbl with heqL | hblt
          · rw [heqL] at hmemlb ⊢
            rw [heqL] at hgc0
            refine hframe _ hgc0 (by omega) (by omega)
          · refine hframe _ hgc0 (by omega) (by omega)
        refine ⟨hinv.lo, hinv.hi, hinv.aligned,
          fun i hi => hout.good_mono _ (hinv.good i hi), ?_, hlenN, ?_, ?_, ?_, ?_⟩
        · -- header byte of the array mono
          have hg0 := hinv.good 0 (by omega)
          rw [Nat.add_zero] at hg0
          exact (hframe _ hg0 (by omega) (Or.inl (le_refl _))).trans hinv.header
        · -- links
          have hsnoc := linkChain_snoc h { h1 with mem := M6 }
            (⟨N.regionBegin, N.beginFrom, N.beginFrom + 2, N.beginFrom + 1,
              N.beginFrom + 34⟩ : ChunkView) (goodPos h) hTnew
            (by
              refine rdU32_zero _ _ ?_
              intro j hj
              exact hnextN j hj)
            tail av.chunkView hinv.links hTold ?_ ?_ ?_ ?_
          · exact hsnoc
          · -- every next-pointer field consists of goodPos-h positions
            intro c hc j hj
            rcases List.mem_cons.mp hc with heqc | hc2
            · rw [heqc]
              have hg := hinv.good (38 + j) (by omega)
              have heq : av.regionBegin + av.monoBegin + (38 + j) =
                  av.chunkView.regionBegin + av.chunkView.atToNext + j := by
                show _ = av.regionBegin + (av.monoBegin + 38) + j
                omega
              exact heq ▸ hg
            · have hTc := linkChain_tailNodes h tail av.chunkView hinv.links c hc2
              have hgn := hTc.gn
              have hgl := hTc.gl
              have hge := hTc.ge
              have hg := hTc.good (34 + j) (by omega)
              have heq : c.regionBegin + c.monoBegin + (34 + j) =
                  c.regionBegin + c.atToNext + j := by omega
              exact heq ▸ hg
          · -- spanOrder from the head's pointer field
            have h42 : av.chunkView.regionBegin + av.chunkView.atToNext + 4 =
                av.regionBegin + av.monoBegin + 42 := rfl
            rw [h42]
            exact hinv.order
          · -- bytes between the head's and the last node's pointer fields
            intro p hPp hp1 hp2
            rw [← hL] at hp2
            have h38 : av.chunkView.regionBegin + av.chunkView.atToNext =
                av.regionBegin + av.monoBegin + 38 := rfl
            rw [h38] at hp1
            exact hframe p hPp (by omega) (by omega)
          · rw [← hL]
            exact hlinkN
        · -- counts
          refine chainCounts_of_get _ _ _ 0 ?_
          intro k cv' hgk
          have hklen : k < tail.length + 2 := by
            by_contra hcon
            have hnone : (av.chunkView :: (tail ++ [⟨N.regionBegin, N.beginFrom,
                N.beginFrom + 2, N.beginFrom + 1, N.beginFrom + 34⟩])).get? k = none := by
              apply List.get?_len_le
              simp only [List.length_cons, List.length_append, List.length_singleton,
                List.length_nil]
              omega
            rw [hnone] at hgk
            cases hgk
          rcases Nat.lt_or_ge k (tail.length + 1) with hk | hk
          · -- an old (full) chunk
            have hgk2 : (av.chunkView :: tail).get? k = some cv' := by
              cases k with
              | zero =>
                exact hgk
              | succ k' =>
                rw [List.get?_cons_succ] at hgk ⊢
                rw [← List.get?_append (show k' < tail.length by omega)]
                exact hgk
            have hold := chainCounts_get h len (av.chunkView :: tail) 0 k cv'
              hinv.counts hgk2
            have hval : min 8 (len - 8 * (0 + k)) = 8 := by omega
            cases k with
            | zero =>
              have hcv' : cv' = av.chunkView := (Option.some.inj hgk2).symm
              rw [hcv'] at hold ⊢
              have h5 : av.chunkView.regionBegin + av.chunkView.atChunkLength =
                  av.regionBegin + av.monoBegin + 5 := rfl
              rw [h5] at hold ⊢
              have hg5b := hinv.good 5 (by omega)
              refine (hframe _ hg5b (by omega) (by omega)).trans ?_
              rw [hold]
              omega
            | succ k' =>
              rw [List.get?_cons_succ] at hgk2
              have hmemc : cv' ∈ tail := List.get?_mem hgk2
              have htne : tail ≠ [] := by
                intro hcon
                rw [hcon] at hmemc
                cases hmemc
              have htpos : 1 ≤ tail.length := by
                cases tail with
                | nil => exact absurd rfl htne
                | cons x xs => simp
              have hTc := linkChain_tailNodes h tail av.chunkView hinv.links cv' hmemc
              have hglc := hTc.gl
              have hTL : TailNode h L := by
                rw [hL]
                exact linkChain_tailNodes h tail av.chunkView hinv.links _
                  (getLastD_mem tail av.chunkView htne)
              have hglL := hTL.gl
              have hgnL := hTL.gn
              have hbl := spanOrder_before_last tail (av.regionBegin + av.monoBegin + 42)
                av.chunkView hinv.order cv' hmemc
              rw [← hL] at hbl
              have hmemlb := spanOrder_mem_lb tail (av.regionBegin + av.monoBegin + 42)
                hinv.order cv' hmemc
              have hgc := hTc.good 1 (by omega)
              have heqc : cv'.regionBegin + cv'.monoBegin + 1 =
                  cv'.regionBegin + cv'.atChunkLength := by omega
              rw [heqc] at hgc
              have hpres : M6 (cv'.regionBegin + cv'.atChunkLength) =
                  h.mem (cv'.regionBegin + cv'.atChunkLength) := by
                rcases hbl with heqL | hblt
                · rw [heqL] at hmemlb hgc ⊢
                  refine hframe _ hgc (by omega) (by omega)
                · refine hframe _ hgc (by omega) (by omega)
              refine hpres.trans ?_
              rw [hold]
              omega
          · -- the fresh chunk
            have hkt : k = tail.length + 1 := by omega
            subst hkt
            have hgety : (av.chunkView :: (tail ++ [⟨N.regionBegin, N.beginFrom,
                N.beginFrom + 2, N.beginFrom + 1, N.beginFrom + 34⟩])).get?
                  (tail.length + 1) = some ⟨N.regionBegin, N.beginFrom,
                N.beginFrom + 2, N.beginFrom + 1, N.beginFrom + 34⟩ := by
              rw [List.get?_cons_succ, List.get?_append_right (le_refl _)]
              simp
            have hcv' : cv' = ⟨N.regionBegin, N.beginFrom,
                N.beginFrom + 2, N.beginFrom + 1, N.beginFrom + 34⟩ :=
              (Option.some.inj (hgety.symm.trans hgk)).symm
            rw [hcv']
            show M6 (N.regionBegin + (N.beginFrom + 1)) = _
            rw [hcntN]
            omega
        · -- spanOrder for the extended chain
          refine spanOrder_snoc _ tail (av.regionBegin + av.monoBegin + 42) hinv.order
            (by show _ ≤ N.regionBegin + N.beginFrom; omega) ?_
          intro c hc
          have hTc := linkChain_tailNodes h tail av.chunkView hinv.links c hc
          have hlt := hout.below _ (hTc.good 37 (by omega))
          show c.regionBegin + c.monoBegin + 38 ≤ N.regionBegin + N.beginFrom
          omega
        · -- shape
          constructor
          · simp only [List.length_append, List.length_singleton, List.length_cons,
              List.length_nil]
            omega
          · right
            simp only [List.length_append, List.length_singleton, List.length_cons,
              List.length_nil]
            omega
      · exact fun p hp => hout.good_mono p hp
      · -- frame outside the old spans
        intro p hp hns
        unfold inSpans at hns
        push_neg at hns
        obtain ⟨hn1, hn2⟩ := hns
        refine hframe p hp ?_ ?_
        · rcases Nat.eq_zero_or_pos tail.length with h0 | h1t
          · have hl5 := hLW0.2.1 h0
            by_cases hA : av.regionBegin + av.monoBegin ≤ p
            · have := hn1 hA
              omega
            · omega
          · have hlp := hLW0.2.2 h1t
            have htne : tail ≠ [] := by
              intro hcon
              rw [hcon] at h1t
              simp at h1t
            have hLmem : L ∈ tail := by
              rw [hL]
              exact getLastD_mem tail av.chunkView htne
            have hTL : TailNode h L := linkChain_tailNodes h tail av.chunkView hinv.links _ hLmem
            have hglL := hTL.gl
            have hgnL := hTL.gn
            have hn2L := hn2 L hLmem
            by_cases hLs : L.regionBegin + L.monoBegin ≤ p
            · have := hn2L hLs
              omega
            · omega
        · by_cases hA : av.regionBegin + av.monoBegin ≤ p
          · have := hn1 hA
            omega
          · omega
      · exact fun q hq => hout.below q hq

/-- Combined `append` specification: on success the logical length grows by
one, the chain keeps its nodes (possibly plus one fresh chunk whose span
lies above every previously allocated payload byte), and bytes outside the
array's spans are untouched. -/
theorem append_spec (h : Heap) (av : ArrayView) (len : Nat) (tail : List ChunkView)
    (w : Mono) (h' : Heap) (hwf : WF h) (hinv : ArrInv h av len tail)
    (hrun : av.append h w = .ok h') :
    ∃ tail', WF h' ∧ ArrInv h' av (len + 1) tail' ∧
      (∀ p, goodPos h p → goodPos h' p) ∧
      (∀ p, goodPos h p → ¬ inSpans av tail p → h'.mem p = h.mem p) ∧
      (∀ p, inSpans av tail' p → inSpans av tail p ∨ (∀ q, goodPos h q → q < p)) := by
  rcases Nat.lt_or_ge len (8 * (tail.length + 1)) with hlt | hge
  · obtain ⟨hwf', hinv', hgm, hfr⟩ := append_spec_fits h av len tail w h' hwf hinv hlt hrun
    exact ⟨tail, hwf', hinv', hgm, hfr, fun p hp => Or.inl hp⟩
  · have hge8 : len = 8 * (tail.length + 1) := by
      have := hinv.shape.1
      omega
    obtain ⟨ncv, hwf', hinv', hgm, hfr, hbelow⟩ :=
      append_spec_roll h av len tail w h' hwf hinv hge8 hrun
    refine ⟨tail ++ [ncv], hwf', hinv', hgm, hfr, ?_⟩
    intro p hp
    unfold inSpans at hp ⊢
    rcases hp with hp | ⟨cv, hcv, hp1, hp2⟩
    · exact Or.inl (Or.inl hp)
    · rcases List.mem_append.mp hcv with hcv2 | hcv2
      · exact Or.inl (Or.inr ⟨cv, hcv2, hp1, hp2⟩)
      · right
        intro q hq
        have hql := hbelow q hq
        have hcveq := List.mem_singleton.mp hcv2
        rw [hcveq] at hp1
        omega

/-- Run `append` once per mono, left to right (`k` successful appends). -/
def appendList (av : ArrayView) : List Mono → Heap → Except JErr Heap
  | [], h => .ok h
  | w :: ws, h =>
    match av.append h w with
    | .error e => .error e
    | .ok h1 => appendList av ws h1

theorem appendList_spec (av : ArrayView) :
    ∀ (ws : List Mono) (h : Heap) (len : Nat) (tail : List ChunkView) (h' : Heap),
      WF h → ArrInv h av len tail → appendList av ws h = .ok h' →
      ∃ tail', WF h' ∧ ArrInv h' av (len + ws.length) tail' := by
  intro ws
  induction ws with
  | nil =>
    intro h len tail h' hwf hinv hrun
    cases hrun
    exact ⟨tail, hwf, hinv⟩
  | cons w ws ih =>
    intro h len tail h' hwf hinv hrun
    unfold appendList at hrun
    cases hstep : av.append h w with
    | error e =>
      simp only [hstep] at hrun
      cases hrun
    | ok h1 =>
      simp only [hstep] at hrun
      obtain ⟨tail1, hwf1, hinv1, -, -, -⟩ := append_spec h av len tail w h1 hwf hinv hstep
      obtain ⟨tail', hwf', hinv'⟩ := ih h1 (len + 1) tail1 h' hwf1 hinv1 hrun
      refine ⟨tail', hwf', ?_⟩
      show ArrInv h' av (len + (ws.length + 1)) tail'
      have heq : len + (ws.length + 1) = len + 1 + ws.length := by omega
      rw [heq]
      exact hinv'

/-- A freshly allocated MONO_ARRAY_S8 mono satisfies the array invariant at
length 0 with no overflow chunks. -/
theorem fresh_array_inv (h : Heap) (target : Region) (rest : List Region)
    (hwf : WF h) (hl : h.allocRegions = target :: rest)
    (mono : Mono) (h1 : Heap) (halloc : h.allocate MONO_ARRAY_S8 = .ok (mono, h1)) :
    WF h1 ∧ ArrInv h1 (arrayViewOfMono mono) 0 [] := by
  have hout := allocate_spec h target rest MONO_ARRAY_S8 42 hwf hl rfl mono h1 halloc
  refine ⟨hout.wf, hout.lo, hout.hi, ?_, ?_, ?_, ?_, ?_, ?_, trivial, ?_⟩
  · -- aligned
    obtain ⟨r', hr1, hr2, hr3, hcase⟩ := hout.shape
    rcases hcase with ⟨hreg1, hcc1, hrb1, hbf1⟩ | ⟨hreg1, hcc1, hrb1, hbf1⟩
    · obtain ⟨ti, hticc, htib⟩ := hwf.aligned target
        (by rw [hl]; exact List.mem_cons_self _ _)
      have hccle := hwf.cc_le
      refine ⟨ti, by omega, ?_⟩
      show mono.regionBegin = ti * REGION_SIZE
      rw [hrb1, htib]
    · have hccle := hout.wf.cc_le
      rw [hcc1] at hccle
      exact ⟨h.contentCounter, by omega, hrb1⟩
  · -- good
    intro i hi
    exact hout.mono_good i hi
  · -- header byte
    exact hout.header_byte.trans rfl
  · -- stored length is 0
    refine rdU32_zero _ _ ?_
    intro j hj
    have := hout.payload_zero (1 + j) (by omega) (by omega)
    have heq : mono.regionBegin + mono.beginFrom + (1 + j) =
        mono.regionBegin + mono.beginFrom + 1 + j := by omega
    rw [heq] at this
    exact this
  · -- empty chain: next pointer is zero
    show rdU32 h1.mem (mono.regionBegin + (mono.beginFrom + 38)) = 0
    refine rdU32_zero _ _ ?_
    intro j hj
    have := hout.payload_zero (38 + j) (by omega) (by omega)
    have heq : mono.regionBegin + mono.beginFrom + (38 + j) =
        mono.regionBegin + (mono.beginFrom + 38) + j := by omega
    rw [heq] at this
    exact this
  · -- counts: the embedded chunk holds 0 elements
    refine ⟨?_, trivial⟩
    have := hout.payload_zero 5 (by omega) (by omega)
    have heq : mono.regionBegin + mono.beginFrom + 5 =
        mono.regionBegin + (mono.beginFrom + 5) := by omega
    rw [heq] at this
    show h1.mem (mono.regionBegin + (mono.beginFrom + 5)) = min 8 (0 - 8 * 0)
    rw [this]
    omega
  · -- shape
    exact ⟨by omega, Or.inl rfl⟩

/-- C6: for a freshly allocated array and any list of `k` monos whose
appends all succeed, `array.length()` (`readLength`) returns `k`. -/
theorem c6_array_length_law (h : Heap) (target : Region) (rest : List Region)
    (hwf : WF h) (hl : h.allocRegions = target :: rest)
    (mono : Mono) (h1 : Heap) (halloc : h.allocate MONO_ARRAY_S8 = .ok (mono, h1))
    (ws : List Mono) (h2 : Heap)
    (happend : appendList (arrayViewOfMono mono) ws h1 = .ok h2) :
    (arrayViewOfMono mono).readLength h2.mem = .ok ws.length := by
  obtain ⟨hwf1, hinv1⟩ := fresh_array_inv h target rest hwf hl mono h1 halloc
  obtain ⟨tail', hwf2, hinv2⟩ :=
    appendList_spec (arrayViewOfMono mono) ws h1 0 [] h2 hwf1 hinv1 happend
  have hhi := hinv2.hi
  unfold ArrayView.readLength readUint32
  rw [if_neg (by omega)]
  have heq : (arrayViewOfMono mono).regionBegin + ((arrayViewOfMono mono).monoBegin + 1) =
      (arrayViewOfMono mono).regionBegin + (arrayViewOfMono mono).monoBegin + 1 := by omega
  rw [heq, hinv2.len_stored]
  norm_num

def heapAfterArrayAlloc : Heap :=
  ⟨wrU32 (memWrite Heap.init.mem (0 + 5) MONO_ARRAY_S8) 0 (5 + 42), 1,
   [⟨0, REGION_SIZE, 47, REGION_EDEN⟩]⟩

def heapAfterOneAppend : Heap :=
  ⟨wrU32 (memWrite (wrU32 heapAfterArrayAlloc.mem (0 + (11 + 0 * 4)) 47) (0 + 10) 1)
     (0 + 6) 1, 1, [⟨0, REGION_SIZE, 47, REGION_EDEN⟩]⟩

theorem c6_array_length_law_witness :
    Heap.init.allocRegions = [⟨0, REGION_SIZE, 5, REGION_EDEN⟩] ∧
    Heap.init.allocate MONO_ARRAY_S8 = .ok (⟨0, MONO_ARRAY_S8, 5⟩, heapAfterArrayAlloc) ∧
    appendList (arrayViewOfMono ⟨0, MONO_ARRAY_S8, 5⟩) [⟨0, MONO_INT32, 47⟩]
      heapAfterArrayAlloc = .ok heapAfterOneAppend ∧
    (arrayViewOfMono ⟨0, MONO_ARRAY_S8, 5⟩).readLength heapAfterOneAppend.mem = .ok 1 :=
  ⟨rfl, rfl, rfl,
   c6_array_length_law Heap.init ⟨0, REGION_SIZE, 5, REGION_EDEN⟩ [] WF_init rfl
     ⟨0, MONO_ARRAY_S8, 5⟩ heapAfterArrayAlloc rfl [⟨0, MONO_INT32, 47⟩]
     heapAfterOneAppend rfl⟩

/-! ## Claim C9: array producers and the immutability law

`WrappedArray.prototype.clone`, `cloneFromTo` and `concat` (wrappers,
src/testGC.js) allocate a fresh array and append the source's elements to
it through `index`/`append`.  Their JS `for` loops carry no fuel; the
`fuel` argument below only bounds how many iterations are unrolled, and
the returned flag records whether the loop's own exit condition was
reached, so a run that returns `true` is exactly a terminating run of the
JS loop. -/

/-- `Allocator.prototype.array` (src/heap.js): allocate a `MONO_ARRAY_S8`
mono; `new WrappedArray(mono)` performs no writes of its own. -/
def Heap.allocArray (h : Heap) : Except JErr (Mono × Heap) :=
  h.allocate MONO_ARRAY_S8

/-- The loop of `clone` and of both halves of `concat`:
`for (let i = i0; i < src.length(); i++) dst.append(src.index(i))` — note
the bound `src.length()` is re-read on every iteration. -/
def cloneLoop (src dst : ArrayView) : Nat → Nat → Heap → Except JErr (Heap × Bool)
  | 0, _, h => .ok (h, false)
  | fuel + 1, i, h =>
    match src.readLength h.mem with
    | .error e => .error e
    | .ok length =>
      if i < length then
        match src.index h i with
        | .error e => .error e
        | .ok (mn, h1) =>
          match dst.append h1 mn with
          | .error e => .error e
          | .ok h2 => cloneLoop src dst fuel (i + 1) h2
      else .ok (h, true)

/-- `WrappedArray.prototype.clone`: fresh array, then append every element
of `this` (the declared `from`/`to` parameters are unused in the source). -/
def ArrayView.clone (h : Heap) (av : ArrayView) (fuel : Nat) :
    Except JErr (ArrayView × Heap × Bool) :=
  match h.allocArray with
  | .error e => .error e
  | .ok (mn, h1) =>
    match cloneLoop av (arrayViewOfMono mn) fuel 0 h1 with
    | .error e => .error e
    | .ok (h2, done) => .ok (arrayViewOfMono mn, h2, done)

/-- The loop of `cloneFromTo`: `for (let i = from; i <= to; i++)`. -/
def cloneFromToLoop (src dst : ArrayView) (to_ : Nat) :
    Nat → Nat → Heap → Except JErr (Heap × Bool)
  | 0, _, h => .ok (h, false)
  | fuel + 1, i, h =>
    if i ≤ to_ then
      match src.index h i with
      | .error e => .error e
      | .ok (mn, h1) =>
        match dst.append h1 mn with
        | .error e => .error e
        | .ok h2 => cloneFromToLoop src dst to_ fuel (i + 1) h2
    else .ok (h, true)

/-- `WrappedArray.prototype.cloneFromTo`: bounds-check `from`/`to` against
the current length (the JS throws a bare `Error`, surfaced here as the
wrapper's range error; `from < 0`/`to < 0` cannot occur over `Nat`), then
append elements `from..to` of `this` to a fresh array. -/
def ArrayView.cloneFromTo (h : Heap) (av : ArrayView) (from_ to_ fuel : Nat) :
    Except JErr (ArrayView × Heap × Bool) :=
  match av.readLength h.mem with
  | .error e => .error e
  | .ok currentLength =>
    if from_ ≥ currentLength then .error .indexOutOfRange
    else if to_ < from_ ∨ to_ ≥ currentLength then .error .indexOutOfRange
    else
      match h.allocArray with
      | .error e => .error e
      | .ok (mn, h1) =>
        match cloneFromToLoop av (arrayViewOfMono mn) to_ fuel from_ h1 with
        | .error e => .error e
        | .ok (h2, done) => .ok (arrayViewOfMono mn, h2, done)

/-- `WrappedArray.prototype.concat`: fresh array, append all of `this`,
then all of `second`. -/
def ArrayView.concat (h : Heap) (av second : ArrayView) (fuel1 fuel2 : Nat) :
    Except JErr (ArrayView × Heap × Bool) :=
  match h.allocArray with
  | .error e => .error e
  | .ok (mn, h1) =>
    match cloneLoop av (arrayViewOfMono mn) fuel1 0 h1 with
    | .error e => .error e
    | .ok (h2, d1) =>
      match cloneLoop second (arrayViewOfMono mn) fuel2 0 h2 with
      | .error e => .error e
      | .ok (h3, d2) => .ok (arrayViewOfMono mn, h3, d1 && d2)

/-! Frame machinery: positions covered by an array's spans, and the
invariant's stability under writes that miss those spans. -/

theorem readLength_of_inv (h : Heap) (av : ArrayView) (len : Nat) (tail : List ChunkView)
    (hinv : ArrInv h av len tail) : av.readLength h.mem = .ok len := by
  have hhi := hinv.hi
  unfold ArrayView.readLength readUint32
  rw [if_neg (by omega)]
  have heq : av.regionBegin + (av.monoBegin + 1) = av.regionBegin + av.monoBegin + 1 := by
    omega
  rw [heq, hinv.len_stored]

theorem inSpans_head (av : ArrayView) (tail : List ChunkView) (p : Nat)
    (h1 : av.regionBegin + av.monoBegin ≤ p)
    (h2 : p < av.regionBegin + av.monoBegin + 42) : inSpans av tail p :=
  Or.inl ⟨h1, h2⟩

theorem inSpans_tail (av : ArrayView) (tail : List ChunkView) (cv : ChunkView)
    (hc : cv ∈ tail) (p : Nat) (h1 : cv.regionBegin + cv.monoBegin ≤ p)
    (h2 : p < cv.regionBegin + cv.monoBegin + 38) : inSpans av tail p :=
  Or.inr ⟨cv, hc, h1, h2⟩

theorem inSpans_goodPos (h : Heap) (av : ArrayView) (len : Nat) (tail : List ChunkView)
    (hinv : ArrInv h av len tail) (p : Nat) (hp : inSpans av tail p) : goodPos h p := by
  unfold inSpans at hp
  rcases hp with ⟨hp1, hp2⟩ | ⟨cv, hcv, hp1, hp2⟩
  · have hg := hinv.good (p - (av.regionBegin + av.monoBegin)) (by omega)
    have heq : av.regionBegin + av.monoBegin + (p - (av.regionBegin + av.monoBegin)) = p := by
      omega
    rw [heq] at hg
    exact hg
  · have hT := linkChain_tailNodes h tail av.chunkView hinv.links cv hcv
    have hg := hT.good (p - (cv.regionBegin + cv.monoBegin)) (by omega)
    have heq : cv.regionBegin + cv.monoBegin + (p - (cv.regionBegin + cv.monoBegin)) = p := by
      omega
    rw [heq] at hg
    exact hg

theorem chainCounts_congr (h h2 : Heap) (len : Nat) :
    ∀ (ns : List ChunkView) (i : Nat), chainCounts h len i ns →
      (∀ c ∈ ns, h2.mem (c.regionBegin + c.atChunkLength) =
        h.mem (c.regionBegin + c.atChunkLength)) →
      chainCounts h2 len i ns := by
  intro ns
  induction ns with
  | nil =>
    intro i _ _
    trivial
  | cons c rest ih =>
    intro i hc hb
    obtain ⟨hc1, hc2⟩ := hc
    refine ⟨?_, ih (i + 1) hc2 (fun d hd => hb d (List.mem_cons_of_mem _ hd))⟩
    rw [hb c (List.mem_cons_self _ _)]
    exact hc1

/-- The array invariant only reads bytes inside its spans: any heap change
that preserves those bytes (and `goodPos`) preserves the invariant. -/
theorem arrInv_byte_frame (h h' : Heap) (av : ArrayView) (len : Nat) (tail : List ChunkView)
    (hinv : ArrInv h av len tail)
    (hgood : ∀ p, goodPos h p → goodPos h' p)
    (hfr : ∀ p, inSpans av tail p → h'.mem p = h.mem p) :
    ArrInv h' av len tail := by
  have hT : ∀ c ∈ tail, TailNode h c := linkChain_tailNodes h tail av.chunkView hinv.links
  have hT' : ∀ c ∈ tail, TailNode h' c := by
    intro c hc
    exact tailNode_congr h h' c (hT c hc) hgood
      (hfr _ (inSpans_tail av tail c hc _ (Nat.le_refl _) (by omega)))
  refine ⟨hinv.lo, hinv.hi, hinv.aligned, fun i hi => hgood _ (hinv.good i hi), ?_, ?_, ?_, ?_,
    hinv.order, hinv.shape⟩
  · -- header byte
    rw [hfr _ (inSpans_head av tail _ (Nat.le_refl _) (by omega))]
    exact hinv.header
  · -- stored length
    have hcg : rdU32 h'.mem (av.regionBegin + av.monoBegin + 1) =
        rdU32 h.mem (av.regionBegin + av.monoBegin + 1) := by
      refine rdU32_congr _ _ _ ?_
      intro p hp1 hp2
      exact hfr p (inSpans_head av tail p (by omega) (by omega))
    rw [hcg]
    exact hinv.len_stored
  · -- links
    refine linkChain_congr h h' tail av.chunkView hinv.links ?_ hT'
    intro c hc
    rcases List.mem_cons.mp hc with heq | hc2
    · rw [heq]
      refine rdU32_congr _ _ _ ?_
      intro p hp1 hp2
      have e1 : av.chunkView.regionBegin = av.regionBegin := rfl
      have e2 : av.chunkView.atToNext = av.monoBegin + 38 := rfl
      rw [e1, e2] at hp1 hp2
      exact hfr p (inSpans_head av tail p (by omega) (by omega))
    · have hgn := (hT c hc2).gn
      refine rdU32_congr _ _ _ ?_
      intro p hp1 hp2
      rw [hgn] at hp1 hp2
      exact hfr p (inSpans_tail av tail c hc2 p (by omega) (by omega))
  · -- counts
    refine chainCounts_congr h h' len (av.chunkView :: tail) 0 hinv.counts ?_
    intro c hc
    rcases List.mem_cons.mp hc with heq | hc2
    · rw [heq]
      have e1 : av.chunkView.regionBegin = av.regionBegin := rfl
      have e2 : av.chunkView.atChunkLength = av.monoBegin + 5 := rfl
      rw [e1, e2]
      exact hfr _ (inSpans_head av tail _ (by omega) (by omega))
    · have hgl := (hT c hc2).gl
      rw [hgl]
      exact hfr _ (inSpans_tail av tail c hc2 _ (by omega) (by omega))

/-! Loop state for the producers.  `h0` is the heap at which the producer
started: every span of the source arrays is `goodPos` there, while the
fresh destination array only ever occupies positions above all of them. -/

/-- Facts about a source array at heap `hk`, relative to the producer's
starting heap `h0`: the structural invariant, that its spans were already
live at `h0`, that its bytes are unchanged since `h0`, and that every
stored element slot holds the address of an initialized mono of a valid
kind that was itself live at `h0` (which is what `index` needs to succeed
without writing). -/
structure SrcOK (h0 hk : Heap) (av : ArrayView) (len : Nat)
    (tail : List ChunkView) : Prop where
  inv : ArrInv hk av len tail
  spans0 : ∀ p, inSpans av tail p → goodPos h0 p
  bytes0 : ∀ p, inSpans av tail p → hk.mem p = h0.mem p
  elems : ∀ i cv, i < len →
    (av.chunkView :: tail).get? (i / MONO_CHUNK_SIZE) = some cv →
    ∃ j mb kind sz,
      rdU32 hk.mem (cv.regionBegin + addressFromIndex cv (i % MONO_CHUNK_SIZE)) =
        j * REGION_SIZE + mb ∧
      j ≤ NUMBER_REGIONS ∧ mb < REGION_SIZE ∧ goodPos h0 (j * REGION_SIZE + mb) ∧
      hk.mem (j * REGION_SIZE + mb) = kind ∧ sizeFromKind kind = .ok sz

/-- The same element-slot validity at a single heap: the precondition the
claim takes on the source arrays (any state a real wrapper flow reaches,
where elements were stored by `append` from live monos, satisfies it). -/
def ElemsOK (h : Heap) (av : ArrayView) (len : Nat) (tail : List ChunkView) : Prop :=
  ∀ i cv, i < len →
    (av.chunkView :: tail).get? (i / MONO_CHUNK_SIZE) = some cv →
    ∃ j mb kind sz,
      rdU32 h.mem (cv.regionBegin + addressFromIndex cv (i % MONO_CHUNK_SIZE)) =
        j * REGION_SIZE + mb ∧
      j ≤ NUMBER_REGIONS ∧ mb < REGION_SIZE ∧ goodPos h (j * REGION_SIZE + mb) ∧
      h.mem (j * REGION_SIZE + mb) = kind ∧ sizeFromKind kind = .ok sz

/-- Facts about the destination array at heap `hk`: well-formedness, the
structural invariant, monotonicity of liveness since `h0`, and that every
one of its span positions lies strictly above everything live at `h0`. -/
structure BState (h0 hk : Heap) (av : ArrayView) (len : Nat)
    (tail : List ChunkView) : Prop where
  wf : WF hk
  inv : ArrInv hk av len tail
  mono : ∀ p, goodPos h0 p → goodPos hk p
  sep : ∀ p q, goodPos h0 p → inSpans av tail q → p < q

theorem nodeGeom_get (h : Heap) (av : ArrayView) (len : Nat) (tail : List ChunkView)
    (hinv : ArrInv h av len tail) (k : Nat) (cv : ChunkView)
    (hget : (av.chunkView :: tail).get? k = some cv) : NodeGeom h cv := by
  cases k with
  | zero =>
    have hcv : cv = av.chunkView := by
      simp only [List.get?_cons_zero] at hget
      exact (Option.some.inj hget).symm
    rw [hcv]
    exact nodeGeom_head h av len tail hinv
  | succ k' =>
    have hg2 : tail.get? k' = some cv := by simpa using hget
    exact nodeGeom_tail h cv
      (linkChain_tailNodes h tail av.chunkView hinv.links cv (List.get?_mem hg2))

/-- The 4-byte element slot `r` of any node of the chain lies inside the
array's spans. -/
theorem slot_inSpans (h : Heap) (av : ArrayView) (len : Nat) (tail : List ChunkView)
    (hinv : ArrInv h av len tail) (k : Nat) (cv : ChunkView)
    (hget : (av.chunkView :: tail).get? k = some cv) (r : Nat) (hr : r < 8) (p : Nat)
    (hp1 : cv.regionBegin + addressFromIndex cv r ≤ p)
    (hp2 : p < cv.regionBegin + addressFromIndex cv r + 4) :
    inSpans av tail p := by
  cases k with
  | zero =>
    have hcv : cv = av.chunkView := by
      simp only [List.get?_cons_zero] at hget
      exact (Option.some.inj hget).symm
    subst hcv
    have e1 : av.chunkView.regionBegin = av.regionBegin := rfl
    have e2 : addressFromIndex av.chunkView r = av.monoBegin + 6 + r * 4 := rfl
    rw [e1, e2] at hp1 hp2
    exact inSpans_head av tail p (by omega) (by omega)
  | succ k' =>
    have hg2 : tail.get? k' = some cv := by simpa using hget
    have hmem := List.get?_mem hg2
    have hge := (linkChain_tailNodes h tail av.chunkView hinv.links cv hmem).ge
    unfold addressFromIndex at hp1 hp2
    rw [hge] at hp1 hp2
    exact inSpans_tail av tail cv hmem p (by omega) (by omega)

/-- Over a source array in a good state, `index` succeeds and is pure: the
walk stays on the chain, the slot read is in bounds, and `fetchMono` at the
stored address writes nothing. -/
theorem index_pure (h0 hk : Heap) (av : ArrayView) (len : Nat) (tail : List ChunkView)
    (hwf : WF hk) (hmono : ∀ p, goodPos h0 p → goodPos hk p)
    (hs : SrcOK h0 hk av len tail) (idx : Nat) (hidx : idx < len) :
    ∃ mn, av.index hk idx = .ok (mn, hk) := by
  have hinv := hs.inv
  have hrl := readLength_of_inv hk av len tail hinv
  have hbound : av.chunkView.atToNext + 4 ≤ REGION_SIZE := by
    have hhi := hinv.hi
    show av.monoBegin + 38 + 4 ≤ REGION_SIZE
    omega
  have hsteps : idx / MONO_CHUNK_SIZE ≤ tail.length := by
    have hsh := hinv.shape.1
    rw [show MONO_CHUNK_SIZE = 8 from rfl]
    omega
  obtain ⟨tgt, hget, hwalk⟩ :=
    (findChunkLoop_spec hk hwf tail av.chunkView hinv.links hbound).1
      (idx / MONO_CHUNK_SIZE) hsteps
  obtain ⟨j, mb, kind, sz, ha, hj, hmb, hg, hker, hsz⟩ := hs.elems idx tgt hidx hget
  have hng : NodeGeom hk tgt := nodeGeom_get hk av len tail hinv _ tgt hget
  have hr : idx % MONO_CHUNK_SIZE < 8 := Nat.mod_lt idx (by decide)
  refine ⟨⟨j * REGION_SIZE, kind, mb⟩, ?_⟩
  unfold ArrayView.index
  simp only [hrl]
  rw [if_neg (by omega)]
  unfold ArrayView.findChunk
  simp only [hwalk]
  unfold chunkIndex readAddress readUint32
  have hnb : ¬ (addressFromIndex tgt (idx % MONO_CHUNK_SIZE) + 4 > REGION_SIZE) := by
    unfold addressFromIndex
    have hge := hng.ge
    have hgn := hng.gn
    have hb := hng.bound
    omega
  rw [if_neg hnb]
  simp only [ha]
  exact fetchMono_pure hk hwf j mb kind sz hj hmb (hmono _ hg) hker hsz

/-- One `append` to the destination array preserves its own state and the
state of every source array: the new bytes land either inside the
destination's old spans or strictly above everything live at `h0`, so all
source spans and all element monos are untouched. -/
theorem state_step (h0 hk : Heap) (avB : ArrayView) (lenB : Nat) (tailB : List ChunkView)
    (w : Mono) (hk1 : Heap) (hb : BState h0 hk avB lenB tailB)
    (happ : avB.append hk w = .ok hk1) :
    ∃ tailB', BState h0 hk1 avB (lenB + 1) tailB' ∧
      ∀ avS lenS tailS, SrcOK h0 hk avS lenS tailS → SrcOK h0 hk1 avS lenS tailS := by
  obtain ⟨tailB', hwf', hinvB', hgm, hfr, hnew⟩ :=
    append_spec hk avB lenB tailB w hk1 hb.wf hb.inv happ
  have hsep' : ∀ p q, goodPos h0 p → inSpans avB tailB' q → p < q := by
    intro p q hp hq
    rcases hnew q hq with hq2 | hq2
    · exact hb.sep p q hp hq2
    · exact hq2 p (hb.mono p hp)
  refine ⟨tailB', ⟨hwf', hinvB', fun p hp => hgm p (hb.mono p hp), hsep'⟩, ?_⟩
  intro avS lenS tailS hs
  have hfrS : ∀ p, inSpans avS tailS p → hk1.mem p = hk.mem p := by
    intro p hp
    refine hfr p (hb.mono p (hs.spans0 p hp)) ?_
    intro hpB
    have hlt := hb.sep p p (hs.spans0 p hp) hpB
    omega
  refine ⟨arrInv_byte_frame hk hk1 avS lenS tailS hs.inv hgm hfrS, hs.spans0,
    fun p hp => (hfrS p hp).trans (hs.bytes0 p hp), ?_⟩
  intro i cv hi hget
  obtain ⟨j, mb, kind, sz, ha, hj, hmb, hg, hker, hsz⟩ := hs.elems i cv hi hget
  have hr8 : i % MONO_CHUNK_SIZE < 8 := Nat.mod_lt i (by decide)
  refine ⟨j, mb, kind, sz, ?_, hj, hmb, hg, ?_, hsz⟩
  · have hcg : rdU32 hk1.mem (cv.regionBegin + addressFromIndex cv (i % MONO_CHUNK_SIZE)) =
        rdU32 hk.mem (cv.regionBegin + addressFromIndex cv (i % MONO_CHUNK_SIZE)) := by
      refine rdU32_congr _ _ _ ?_
      intro p hp1 hp2
      exact hfrS p (slot_inSpans hk avS lenS tailS hs.inv _ cv hget _ hr8 p hp1 hp2)
    rw [hcg]
    exact ha
  · have hnotB : ¬ inSpans avB tailB (j * REGION_SIZE + mb) := by
      intro hc
      have hlt := hb.sep _ _ hg hc
      omega
    rw [hfr _ (hb.mono _ hg) hnotB]
    exact hker

/-- A terminating run of the `clone`/`concat` loop preserves the
destination state and every source state. -/
theorem cloneLoop_spec (h0 : Heap) (avA : ArrayView) (lenA : Nat) (tailA : List ChunkView)
    (avB : ArrayView) :
    ∀ (fuel i : Nat) (hk : Heap) (lenB : Nat) (tailB : List ChunkView)
      (h' : Heap) (done : Bool),
      BState h0 hk avB lenB tailB →
      SrcOK h0 hk avA lenA tailA →
      cloneLoop avA avB fuel i hk = .ok (h', done) → done = true →
      ∃ lenB' tailB', BState h0 h' avB lenB' tailB' ∧
        ∀ avS lenS tailS, SrcOK h0 hk avS lenS tailS → SrcOK h0 h' avS lenS tailS := by
  intro fuel
  induction fuel with
  | zero =>
    intro i hk lenB tailB h' done hb hsA hrun hdone
    unfold cloneLoop at hrun
    cases hrun
    cases hdone
  | succ fuel ih =>
    intro i hk lenB tailB h' done hb hsA hrun hdone
    unfold cloneLoop at hrun
    have hrl := readLength_of_inv hk avA lenA tailA hsA.inv
    simp only [hrl] at hrun
    by_cases hcmp : i < lenA
    · rw [if_pos hcmp] at hrun
      obtain ⟨mn, hidx⟩ := index_pure h0 hk avA lenA tailA hb.wf hb.mono hsA i hcmp
      simp only [hidx] at hrun
      cases happ : avB.append hk mn with
      | error e =>
        simp only [happ] at hrun
        cases hrun
      | ok hk1 =>
        simp only [happ] at hrun
        obtain ⟨tailB', hb', hpres⟩ := state_step h0 hk avB lenB tailB mn hk1 hb happ
        obtain ⟨lenB2, tailB2, hb2, hpres2⟩ :=
          ih (i + 1) hk1 (lenB + 1) tailB' h' done hb' (hpres _ _ _ hsA) hrun hdone
        exact ⟨lenB2, tailB2, hb2, fun avS lenS tailS hs => hpres2 _ _ _ (hpres _ _ _ hs)⟩
    · rw [if_neg hcmp] at hrun
      cases hrun
      exact ⟨lenB, tailB, hb, fun _ _ _ hs => hs⟩

/-- Likewise for the `cloneFromTo` loop (the upper bound `to_` is below the
source length, so every `index` call is in range). -/
theorem cloneFromToLoop_spec (h0 : Heap) (avA : ArrayView) (lenA : Nat)
    (tailA : List ChunkView) (avB : ArrayView) (to_ : Nat) (hto : to_ < lenA) :
    ∀ (fuel i : Nat) (hk : Heap) (lenB : Nat) (tailB : List ChunkView)
      (h' : Heap) (done : Bool),
      BState h0 hk avB lenB tailB →
      SrcOK h0 hk avA lenA tailA →
      cloneFromToLoop avA avB to_ fuel i hk = .ok (h', done) → done = true →
      ∃ lenB' tailB', BState h0 h' avB lenB' tailB' ∧
        ∀ avS lenS tailS, SrcOK h0 hk avS lenS tailS → SrcOK h0 h' avS lenS tailS := by
  intro fuel
  induction fuel with
  | zero =>
    intro i hk lenB tailB h' done hb hsA hrun hdone
    unfold cloneFromToLoop at hrun
    cases hrun
    cases hdone
  | succ fuel ih =>
    intro i hk lenB tailB h' done hb hsA hrun hdone
    unfold cloneFromToLoop at hrun
    by_cases hcmp : i ≤ to_
    · rw [if_pos hcmp] at hrun
      obtain ⟨mn, hidx⟩ :=
        index_pure h0 hk avA lenA tailA hb.wf hb.mono hsA i (by omega)
      simp only [hidx] at hrun
      cases happ : avB.append hk mn with
      | error e =>
        simp only [happ] at hrun
        cases hrun
      | ok hk1 =>
        simp only [happ] at hrun
        obtain ⟨tailB', hb', hpres⟩ := state_step h0 hk avB lenB tailB mn hk1 hb happ
        obtain ⟨lenB2, tailB2, hb2, hpres2⟩ :=
          ih (i + 1) hk1 (lenB + 1) tailB' h' done hb' (hpres _ _ _ hsA) hrun hdone
        exact ⟨lenB2, tailB2, hb2, fun avS lenS tailS hs => hpres2 _ _ _ (hpres _ _ _ hs)⟩
    · rw [if_neg hcmp] at hrun
      cases hrun
      exact ⟨lenB, tailB, hb, fun _ _ _ hs => hs⟩

/-- Any successful sequence of appends to the destination array preserves
the destination state and every source state. -/
theorem appendList_keeps (h0 : Heap) (avB : ArrayView) :
    ∀ (ws : List Mono) (hk : Heap) (lenB : Nat) (tailB : List ChunkView) (h' : Heap),
      BState h0 hk avB lenB tailB → appendList avB ws hk = .ok h' →
      ∃ lenB' tailB', BState h0 h' avB lenB' tailB' ∧
        ∀ avS lenS tailS, SrcOK h0 hk avS lenS tailS → SrcOK h0 h' avS lenS tailS := by
  intro ws
  induction ws with
  | nil =>
    intro hk lenB tailB h' hb hrun
    cases hrun
    exact ⟨lenB, tailB, hb, fun _ _ _ hs => hs⟩
  | cons w ws ih =>
    intro hk lenB tailB h' hb hrun
    unfold appendList at hrun
    cases happ : avB.append hk w with
    | error e =>
      simp only [happ] at hrun
      cases hrun
    | ok hk1 =>
      simp only [happ] at hrun
      obtain ⟨tailB', hb', hpres⟩ := state_step h0 hk avB lenB tailB w hk1 hb happ
      obtain ⟨lenB2, tailB2, hb2, hpres2⟩ := ih hk1 (lenB + 1) tailB' h' hb' hrun
      exact ⟨lenB2, tailB2, hb2, fun avS lenS tailS hs => hpres2 _ _ _ (hpres _ _ _ hs)⟩

/-- Allocating the producer's fresh destination array establishes the
destination state at length 0 and preserves every source state. -/
theorem array_alloc_state (h : Heap) (hwf : WF h) (mn : Mono) (h1 : Heap)
    (halloc : h.allocate MONO_ARRAY_S8 = .ok (mn, h1)) :
    BState h h1 (arrayViewOfMono mn) 0 [] ∧
    ∀ avS lenS tailS, SrcOK h h avS lenS tailS → SrcOK h h1 avS lenS tailS := by
  cases hl : h.allocRegions with
  | nil =>
    unfold Heap.allocate at halloc
    simp only [show sizeFromKind MONO_ARRAY_S8 = Except.ok 42 from rfl, hl] at halloc
    cases halloc
  | cons target rest =>
    have hout := allocate_spec h target rest MONO_ARRAY_S8 42 hwf hl rfl mn h1 halloc
    obtain ⟨hwf1, hinvB⟩ := fresh_array_inv h target rest hwf hl mn h1 halloc
    constructor
    · refine ⟨hwf1, hinvB, hout.good_mono, ?_⟩
      intro p q hp hq
      have hbel := hout.below p hp
      unfold inSpans at hq
      rcases hq with ⟨hq1, _⟩ | ⟨cv, hcv, _, _⟩
      · have e1 : (arrayViewOfMono mn).regionBegin = mn.regionBegin := rfl
        have e2 : (arrayViewOfMono mn).monoBegin = mn.beginFrom := rfl
        rw [e1, e2] at hq1
        omega
      · cases hcv
    · intro avS lenS tailS hs
      have hfr : ∀ p, inSpans avS tailS p → h1.mem p = h.mem p :=
        fun p hp => hout.frame p (hs.spans0 p hp)
      refine ⟨arrInv_byte_frame h h1 avS lenS tailS hs.inv hout.good_mono hfr,
        hs.spans0, fun p hp => (hfr p hp).trans (hs.bytes0 p hp), ?_⟩
      intro i cv hi hget
      obtain ⟨j, mb, kind, sz, ha, hj, hmb, hg, hker, hsz⟩ := hs.elems i cv hi hget
      have hr8 : i % MONO_CHUNK_SIZE < 8 := Nat.mod_lt i (by decide)
      refine ⟨j, mb, kind, sz, ?_, hj, hmb, hg, ?_, hsz⟩
      · have hcg : rdU32 h1.mem (cv.regionBegin + addressFromIndex cv (i % MONO_CHUNK_SIZE)) =
            rdU32 h.mem (cv.regionBegin + addressFromIndex cv (i % MONO_CHUNK_SIZE)) := by
          refine rdU32_congr _ _ _ ?_
          intro p hp1 hp2
          exact hfr p (slot_inSpans h avS lenS tailS hs.inv _ cv hget _ hr8 p hp1 hp2)
        rw [hcg]
        exact ha
      · rw [hout.frame _ hg]
        exact hker

/-- A terminating `clone` run: destination state established, source state
preserved. -/
theorem clone_state (h : Heap) (avA : ArrayView) (lenA : Nat) (tailA : List ChunkView)
    (hwf : WF h) (hsA : SrcOK h h avA lenA tailA)
    (fuel : Nat) (avB : ArrayView) (hB : Heap)
    (hrun : avA.clone h fuel = .ok (avB, hB, true)) :
    ∃ lenB tailB, BState h hB avB lenB tailB ∧ SrcOK h hB avA lenA tailA := by
  unfold ArrayView.clone Heap.allocArray at hrun
  cases halloc : h.allocate MONO_ARRAY_S8 with
  | error e =>
    simp only [halloc] at hrun
    cases hrun
  | ok pr =>
    obtain ⟨mn, h1⟩ := pr
    simp only [halloc] at hrun
    obtain ⟨hb1, hpres1⟩ := array_alloc_state h hwf mn h1 halloc
    cases hloop : cloneLoop avA (arrayViewOfMono mn) fuel 0 h1 with
    | error e =>
      simp only [hloop] at hrun
      cases hrun
    | ok pr2 =>
      obtain ⟨h2, done⟩ := pr2
      simp only [hloop] at hrun
      cases hrun
      obtain ⟨lenB2, tailB2, hb2, hpres2⟩ :=
        cloneLoop_spec h avA lenA tailA (arrayViewOfMono mn) fuel 0 h1 0 [] hB true
          hb1 (hpres1 _ _ _ hsA) hloop rfl
      exact ⟨lenB2, tailB2, hb2, hpres2 _ _ _ (hpres1 _ _ _ hsA)⟩

/-- A terminating `cloneFromTo` run: its guards force `to_ < length`, and
the loop behaves like `clone`'s. -/
theorem cloneFromTo_state (h : Heap) (avA : ArrayView) (lenA : Nat) (tailA : List ChunkView)
    (hwf : WF h) (hsA : SrcOK h h avA lenA tailA)
    (from_ to_ fuel : Nat) (avB : ArrayView) (hB : Heap)
    (hrun : avA.cloneFromTo h from_ to_ fuel = .ok (avB, hB, true)) :
    ∃ lenB tailB, BState h hB avB lenB tailB ∧ SrcOK h hB avA lenA tailA := by
  unfold ArrayView.cloneFromTo at hrun
  have hrl := readLength_of_inv h avA lenA tailA hsA.inv
  simp only [hrl] at hrun
  by_cases h1c : from_ ≥ lenA
  · rw [if_pos h1c] at hrun
    cases hrun
  · rw [if_neg h1c] at hrun
    by_cases h2c : to_ < from_ ∨ to_ ≥ lenA
    · rw [if_pos h2c] at hrun
      cases hrun
    · rw [if_neg h2c] at hrun
      have hto : to_ < lenA := by omega
      unfold Heap.allocArray at hrun
      cases halloc : h.allocate MONO_ARRAY_S8 with
      | error e =>
        simp only [halloc] at hrun
        cases hrun
      | ok pr =>
        obtain ⟨mn, h1⟩ := pr
        simp only [halloc] at hrun
        obtain ⟨hb1, hpres1⟩ := array_alloc_state h hwf mn h1 halloc
        cases hloop : cloneFromToLoop avA (arrayViewOfMono mn) to_ fuel from_ h1 with
        | error e =>
          simp only [hloop] at hrun
          cases hrun
        | ok pr2 =>
          obtain ⟨h2, done⟩ := pr2
          simp only [hloop] at hrun
          cases hrun
          obtain ⟨lenB2, tailB2, hb2, hpres2⟩ :=
            cloneFromToLoop_spec h avA lenA tailA (arrayViewOfMono mn) to_ hto fuel from_
              h1 0 [] hB true hb1 (hpres1 _ _ _ hsA) hloop rfl
          exact ⟨lenB2, tailB2, hb2, hpres2 _ _ _ (hpres1 _ _ _ hsA)⟩

/-- A terminating `concat` run: both loops terminated (`d1 && d2 = true`),
and the first source's state survives both. -/
theorem concat_state (h : Heap) (avA : ArrayView) (lenA : Nat) (tailA : List ChunkView)
    (av2 : ArrayView) (len2 : Nat) (tail2 : List ChunkView)
    (hwf : WF h) (hsA : SrcOK h h avA lenA tailA) (hs2 : SrcOK h h av2 len2 tail2)
    (fuel1 fuel2 : Nat) (avB : ArrayView) (hB : Heap)
    (hrun : avA.concat h av2 fuel1 fuel2 = .ok (avB, hB, true)) :
    ∃ lenB tailB, BState h hB avB lenB tailB ∧ SrcOK h hB avA lenA tailA := by
  unfold ArrayView.concat Heap.allocArray at hrun
  cases halloc : h.allocate MONO_ARRAY_S8 with
  | error e =>
    simp only [halloc] at hrun
    cases hrun
  | ok pr =>
    obtain ⟨mn, h1⟩ := pr
    simp only [halloc] at hrun
    obtain ⟨hb1, hpres1⟩ := array_alloc_state h hwf mn h1 halloc
    cases hloop1 : cloneLoop avA (arrayViewOfMono mn) fuel1 0 h1 with
    | error e =>
      simp only [hloop1] at hrun
      cases hrun
    | ok pr2 =>
      obtain ⟨h2, d1⟩ := pr2
      simp only [hloop1] at hrun
      cases hloop2 : cloneLoop av2 (arrayViewOfMono mn) fuel2 0 h2 with
      | error e =>
        simp only [hloop2] at hrun
        cases hrun
      | ok pr3 =>
        obtain ⟨h3, d2⟩ := pr3
        simp only [hloop2] at hrun
        simp only [Except.ok.injEq, Prod.mk.injEq] at hrun
        obtain ⟨hAB, hHB, hD⟩ := hrun
        rw [Bool.and_eq_true] at hD
        obtain ⟨hd1, hd2⟩ := hD
        subst hd1
        subst hd2
        obtain ⟨lenB1, tailB1, hbL1, hpresL1⟩ :=
          cloneLoop_spec h avA lenA tailA (arrayViewOfMono mn) fuel1 0 h1 0 [] h2 true
            hb1 (hpres1 _ _ _ hsA) hloop1 rfl
        obtain ⟨lenB2, tailB2, hbL2, hpresL2⟩ :=
          cloneLoop_spec h av2 len2 tail2 (arrayViewOfMono mn) fuel2 0 h2 lenB1 tailB1 h3
            true hbL1 (hpresL1 _ _ _ (hpres1 _ _ _ hs2)) hloop2 rfl
        subst hAB
        subst hHB
        exact ⟨lenB2, tailB2, hbL2, hpresL2 _ _ _ (hpresL1 _ _ _ (hpres1 _ _ _ hsA))⟩

/-- C9: for an array `A` (structural invariant plus valid stored elements)
and an array `B` produced from `A` by a terminating `clone`, `cloneFromTo`
or `concat`, any number of subsequent successful appends to `B` leaves
`A.length()` unchanged — and leaves every byte of `A`'s own mono and
overflow chunks (everything of `A` except the shared element monos)
untouched. -/
theorem c9_immutability_law (h : Heap) (avA : ArrayView) (lenA : Nat)
    (tailA : List ChunkView)
    (hwf : WF h) (hinvA : ArrInv h avA lenA tailA) (helems : ElemsOK h avA lenA tailA)
    (avB : ArrayView) (hB : Heap)
    (hprod :
      (∃ fuel, avA.clone h fuel = .ok (avB, hB, true)) ∨
      (∃ from_ to_ fuel, avA.cloneFromTo h from_ to_ fuel = .ok (avB, hB, true)) ∨
      (∃ av2 len2 tail2, ArrInv h av2 len2 tail2 ∧ ElemsOK h av2 len2 tail2 ∧
        ∃ fuel1 fuel2, avA.concat h av2 fuel1 fuel2 = .ok (avB, hB, true)))
    (ws : List Mono) (hC : Heap) (happ : appendList avB ws hB = .ok hC) :
    avA.readLength hC.mem = .ok lenA ∧
    ∀ p, inSpans avA tailA p → hC.mem p = h.mem p := by
  have hsA0 : SrcOK h h avA lenA tailA :=
    ⟨hinvA, fun p hp => inSpans_goodPos h avA lenA tailA hinvA p hp, fun _ _ => rfl, helems⟩
  have hpost : ∃ lenB tailB, BState h hB avB lenB tailB ∧ SrcOK h hB avA lenA tailA := by
    rcases hprod with ⟨fuel, hrun⟩ | ⟨from_, to_, fuel, hrun⟩ |
      ⟨av2, len2, tail2, hinv2, helems2, fuel1, fuel2, hrun⟩
    · exact clone_state h avA lenA tailA hwf hsA0 fuel avB hB hrun
    · exact cloneFromTo_state h avA lenA tailA hwf hsA0 from_ to_ fuel avB hB hrun
    · have hs20 : SrcOK h h av2 len2 tail2 :=
        ⟨hinv2, fun p hp => inSpans_goodPos h av2 len2 tail2 hinv2 p hp, fun _ _ => rfl,
         helems2⟩
      exact concat_state h avA lenA tailA av2 len2 tail2 hwf hsA0 hs20 fuel1 fuel2 avB hB
        hrun
  obtain ⟨lenB, tailB, hb, hsA1⟩ := hpost
  obtain ⟨lenB2, tailB2, hb2, hpres⟩ := appendList_keeps h avB ws hB lenB tailB hC hb happ
  have hsA2 := hpres _ _ _ hsA1
  exact ⟨readLength_of_inv hC avA lenA tailA hsA2.inv, fun p hp => hsA2.bytes0 p hp⟩

def heapAfterCloneB : Heap :=
  ⟨wrU32 (memWrite heapAfterArrayAlloc.mem (0 + 47) MONO_ARRAY_S8) 0 (47 + 42), 1,
   [⟨0, REGION_SIZE, 89, REGION_EDEN⟩]⟩

def heapAfterCloneAppend : Heap :=
  ⟨wrU32 (memWrite (wrU32 heapAfterCloneB.mem (0 + (53 + 0 * 4)) 5) (0 + 52) 1)
     (0 + 48) 1, 1, [⟨0, REGION_SIZE, 89, REGION_EDEN⟩]⟩

theorem c9_immutability_law_witness :
    (arrayViewOfMono ⟨0, MONO_ARRAY_S8, 5⟩).clone heapAfterArrayAlloc 1 =
      .ok (⟨0, 47⟩, heapAfterCloneB, true) ∧
    appendList (⟨0, 47⟩ : ArrayView) [⟨0, MONO_INT32, 5⟩] heapAfterCloneB =
      .ok heapAfterCloneAppend ∧
    (arrayViewOfMono ⟨0, MONO_ARRAY_S8, 5⟩).readLength heapAfterCloneAppend.mem =
      .ok 0 ∧
    ∀ p, inSpans (arrayViewOfMono ⟨0, MONO_ARRAY_S8, 5⟩) [] p →
      heapAfterCloneAppend.mem p = heapAfterArrayAlloc.mem p :=
  have hc9 := c9_immutability_law heapAfterArrayAlloc
    (arrayViewOfMono ⟨0, MONO_ARRAY_S8, 5⟩) 0 []
    (fresh_array_inv Heap.init ⟨0, REGION_SIZE, 5, REGION_EDEN⟩ [] WF_init rfl
      ⟨0, MONO_ARRAY_S8, 5⟩ heapAfterArrayAlloc rfl).1
    (fresh_array_inv Heap.init ⟨0, REGION_SIZE, 5, REGION_EDEN⟩ [] WF_init rfl
      ⟨0, MONO_ARRAY_S8, 5⟩ heapAfterArrayAlloc rfl).2
    (fun i cv hi _ => absurd hi (Nat.not_lt_zero i))
    ⟨0, 47⟩ heapAfterCloneB (Or.inl ⟨1, rfl⟩) [⟨0, MONO_INT32, 5⟩] heapAfterCloneAppend
    rfl
  ⟨rfl, rfl, hc9.1, hc9.2⟩
